import Mathlib

/-!
# HopsonCraft: world streaming and batched remeshing

A shallow embedding of `Source/World/World.cpp` (class `World`) together with
the collaborators it calls.  The collaborators whose sources are not among
the repository files at hand (the chunk store `Chunk::Map`, the column `Chunk::Full_Chunk`,
the section `Chunk::Section`, the coordinate conversions of
`Maths/Position_Conversion.h` and the constant `CHUNK_SIZE`) are either taken as
parameters or modelled from the specification; each such definition says so.

Conventions of the embedding:

* machine integers are `Int`; no claim treated here depends on wrap-around;
* a `float` is the rational number it denotes; an arithmetic operation on
  `float`s and the conversion of an `int` to `float` round the exact result to
  the nearest `float` (`toFloat`), a conversion to `int` truncates toward zero;
  `checkPlayerBounds` alone is embedded over exact rationals, as its properties
  are stated;
* C++ `/` on integers is `Int.tdiv`;
* a pointer to a column is the column's coordinate in the store, a pointer to a
  section is the section's `Chunklet_Position`; `nullptr` is `none`;
* `while` loops without a static bound take fuel and report `Fault.fuelExhausted`
  when it runs out; dereferencing `nullptr` reports `Fault.nullDereference`;
* calls into absent rendering code (`makeMesh`, `bufferMesh`) and into the absent
  generator (`tryGen`) are recorded in call logs.
-/

namespace HopsonCraft

/-! ## Data model -/

/-- Three-component vector of `float`s (`Vector3`); a component is the rational
number the `float` denotes. -/
structure Vector3 where
  x : ℚ
  y : ℚ
  z : ℚ
deriving DecidableEq

/-- Conversion of a floating value to `int`, as done by a C++ cast or an implicit
narrowing: truncation toward zero. -/
def toInt (q : ℚ) : Int :=
  if 0 ≤ q then Int.floor q else Int.ceil q

/-- The integer nearest to `q`, a tie going to the even one (the rounding of
IEEE 754 arithmetic). -/
def roundHalfEven (q : ℚ) : Int :=
  if q - Int.floor q < 1 / 2 then Int.floor q
  else if 1 / 2 < q - Int.floor q then Int.floor q + 1
  else if Int.floor q % 2 = 0 then Int.floor q else Int.floor q + 1

/-- The number of halvings that bring `n` below 2, at most `fuel` of them. -/
def halvings : Nat → Nat → Nat
  | 0, _ => 0
  | fuel + 1, n => if 2 ≤ n then halvings fuel (n / 2) + 1 else 0

/-- The position of the leading binary digit of `n` (0 for 0 and for 1). -/
def bitLog (n : Nat) : Nat := halvings n n

/-- The exponent `e` with `2 ^ e ≤ |q| < 2 ^ (e + 1)`, for `q ≠ 0`: the difference
of the digit positions of numerator and denominator, less one when that power
of two is still above `|q|`. -/
def binade (q : ℚ) : Int :=
  if (2 : ℚ) ^ ((bitLog q.num.natAbs : Int) - (bitLog q.den : Int)) ≤ |q| then
    (bitLog q.num.natAbs : Int) - (bitLog q.den : Int)
  else (bitLog q.num.natAbs : Int) - (bitLog q.den : Int) - 1

/-- The exponent of the last place of a `float` (IEEE 754 binary32) of the
magnitude of `q`: 24 significant binary digits, and no place below `2 ^ (-149)`. -/
def ulpExponent (q : ℚ) : Int := max (binade q - 23) (-149)

/-- The `float` nearest to the exact value `q`, a tie going to the even last
digit: the result of a `float` operation whose exact result is `q`, and of
converting the integer `q` to `float`.  Overflow to infinity is not represented;
it does not arise from an `int` or from adding -1, 0 or 1 to a `float`. -/
def toFloat (q : ℚ) : ℚ :=
  (roundHalfEven (q / 2 ^ ulpExponent q) : ℚ) * 2 ^ ulpExponent q

/-- Modelled from the spec: the block value `CBlock` (its class is absent); a
block is identified by its numeric id. -/
structure CBlock where
  id : Nat
deriving DecidableEq

namespace Block

/-- Modelled from the spec: `Block::Position`, integer block coordinate (type
declaration absent). -/
structure Position where
  x : Int
  y : Int
  z : Int
deriving DecidableEq

/-- Modelled from the spec: `Block::Small_Position`, within-section block
coordinate (type declaration absent). -/
structure Small_Position where
  x : Int
  y : Int
  z : Int
deriving DecidableEq

namespace ID

/-- Modelled from the spec: `Block::ID::Air`, the designated empty block value. -/
def Air : CBlock := ⟨0⟩

end ID

end Block

namespace Chunk

/-- Modelled from the spec: `Chunk::Position`, the column coordinate; its second
component `y` holds the world z axis (as in `location.y <= minZ`). -/
structure Position where
  x : Int
  y : Int
deriving DecidableEq

/-- Modelled from the spec: `Chunk::Chunklet_Position`, the section coordinate. -/
structure Chunklet_Position where
  x : Int
  y : Int
  z : Int
deriving DecidableEq

/-- Modelled from the spec: `Chunk::Section`, a cubic block grid.  The grid is
kept as the list of writes, most recent first; an unwritten cell reads `Air`. -/
structure Section where
  blocks : List (Block.Small_Position × CBlock)
deriving DecidableEq

namespace Section

/-- Modelled from the spec: `Section::qSetBlock`, "set block by local coordinate". -/
def qSetBlock (s : Section) (p : Block.Small_Position) (b : CBlock) : Section :=
  { blocks := (p, b) :: s.blocks }

/-- Modelled from the spec: reading a cell of a section. -/
def qGetBlock (s : Section) (p : Block.Small_Position) : CBlock :=
  match s.blocks.find? (fun e => decide (e.1 = p)) with
  | some e => e.2
  | none => Block.ID.Air

end Section

/-- Modelled from the spec: `Chunk::Full_Chunk`, a vertical stack of sections
with its position, the settable delete flag and the "has generated data" flag. -/
structure Full_Chunk where
  position : Position
  sections : List Section
  hasDeleteFlag : Bool
  hasGeneratedBlockData : Bool
deriving DecidableEq

namespace Full_Chunk

/-- Modelled from the spec: `Full_Chunk::addSection`, "add next vertical section". -/
def addSection (c : Full_Chunk) : Full_Chunk :=
  { c with sections := c.sections ++ [{ blocks := [] }] }

/-- Modelled from the spec: `Full_Chunk::getSection`, "get section by index";
`none` stands for `nullptr` (the callers loop on `!chunk`). -/
def getSection (c : Full_Chunk) (index : Int) : Option Section :=
  if 0 ≤ index then c.sections.get? index.toNat else none

/-- Write through a section pointer obtained from `getSection index`:
`chunk->qSetBlock(blockPosition, block)`. -/
def setSectionBlock (c : Full_Chunk) (index : Int) (p : Block.Small_Position) (b : CBlock) :
    Full_Chunk :=
  if 0 ≤ index then
    { c with sections := c.sections.modify (fun s => s.qSetBlock p b) index.toNat }
  else c

/-- Modelled from the spec: `Full_Chunk::getPosition`. -/
def getPosition (c : Full_Chunk) : Position := c.position

end Full_Chunk

/-- Modelled from the spec: `Chunk::Map`, the chunk store, "the mapping from
column coordinate to column object".  The columns are kept in a list; a store is
well formed when no coordinate occurs twice (`Map.WF`). -/
abbrev Map := List Full_Chunk

namespace Map

/-- Representation invariant of the store: column coordinates are unique keys. -/
def WF (m : Map) : Prop := (m.map Full_Chunk.position).Nodup

/-- Modelled from the spec: `Map::existsAt`, "existence check by coordinate". -/
def existsAt (m : Map) (p : Position) : Bool :=
  m.any (fun c => decide (c.position = p))

/-- Modelled from the spec: `Map::get(Chunk::Position)`, column lookup; `none`
stands for `nullptr` (the caller tests `!chunkFull`). -/
def get (m : Map) (p : Position) : Option Full_Chunk :=
  m.find? (fun c => decide (c.position = p))

/-- Modelled from the spec: `Map::get(Chunk::Chunklet_Position)`, section lookup;
`none` when the column or the section is absent. -/
def getSection (m : Map) (p : Chunklet_Position) : Option Section :=
  match m.get ⟨p.x, p.z⟩ with
  | some c => c.getSection p.y
  | none => none

/-- Modelled from the spec: `Map::addChunk(position, true)`, insertion of a fresh
column "marked as needs generation"; inserting an existing key is a no-op. -/
def addChunk (m : Map) (p : Position) : Map :=
  if m.existsAt p then m
  else m ++ [{ position := p, sections := [], hasDeleteFlag := false,
               hasGeneratedBlockData := false }]

/-- Modelled from the spec: `Map::deleteChunk`, removal by coordinate. -/
def deleteChunk (m : Map) (p : Position) : Map :=
  m.filter (fun c => !decide (c.position = p))

/-- Effect on the store of mutating, through its pointer, the column stored under
key `p`: that entry now holds `c`. -/
def put (m : Map) (p : Position) (c : Full_Chunk) : Map :=
  m.map (fun d => if d.position = p then c else d)

end Map

end Chunk

/-- The coordinate conversions of `Maths/Position_Conversion.h` and the
compile-time constant `CHUNK_SIZE`; they are absent from the sources at hand
and are parameters of the embedding. -/
structure Maths where
  CHUNK_SIZE : Int
  worldToChunkPos : Vector3 → Chunk.Position
  worldToChunkletPos : Vector3 → Chunk.Chunklet_Position
  worldToBlockPos : Vector3 → Block.Position
  blockToSmallBlockPos : Block.Position → Block.Small_Position

namespace Maths

/-- Modelled from the spec: the conversions "via fixed-size integer
division/modulo", for sections 16 blocks wide. -/
def standard : Maths where
  CHUNK_SIZE := 16
  worldToChunkPos := fun v => ⟨(toInt v.x).tdiv 16, (toInt v.z).tdiv 16⟩
  worldToChunkletPos := fun v =>
    ⟨(toInt v.x).tdiv 16, (toInt v.y).tdiv 16, (toInt v.z).tdiv 16⟩
  worldToBlockPos := fun v => ⟨(toInt v.x).tmod 16, toInt v.y, (toInt v.z).tmod 16⟩
  blockToSmallBlockPos := fun p => ⟨p.x.tmod 16, p.y.tmod 16, p.z.tmod 16⟩

end Maths

/-- Modelled from the spec: `World_Settings`, "grid size (columns per side)" and
the infinite-terrain flag. -/
structure World_Settings where
  worldSize : Int
  isInfiniteTerrain : Bool
deriving DecidableEq

/-- Pending edit `New_Block`, built by `m_newBlocks.emplace_back(block, position)`. -/
structure New_Block where
  block : CBlock
  position : Vector3
deriving DecidableEq

/-- The mutable state of `World` that the modelled member functions touch. -/
structure World where
  m_worldSettings : World_Settings
  m_chunks : Chunk.Map
  m_newBlocks : List New_Block
  m_deleteChunks : List Chunk.Position
  m_loadingDistance : Int
  m_cameraPosition : Chunk.Position
deriving DecidableEq

deriving instance DecidableEq for Except

/-- Ways in which a run of the modelled code fails to return. -/
inductive Fault where
  | nullDereference
  | fuelExhausted
deriving DecidableEq

/-- A call into the absent section rendering code. -/
inductive MeshCall where
  | makeMesh (p : Chunk.Chunklet_Position)
  | bufferMesh (p : Chunk.Chunklet_Position)
deriving DecidableEq

/-! ## `World::getBlock` -/

namespace Chunk.Full_Chunk

/-- Modelled from the spec: `Full_Chunk::qGetBlock`, block read by the column
from a `Block::Position` (vertical section by integer division). -/
def qGetBlock (M : Maths) (c : Full_Chunk) (p : Block.Position) : CBlock :=
  match c.getSection (p.y.tdiv M.CHUNK_SIZE) with
  | some s => s.qGetBlock (M.blockToSmallBlockPos p)
  | none => Block.ID.Air

end Chunk.Full_Chunk

namespace World

/-- `World::getBlock` (World.cpp 118-131); returns the block together with the
world state after the call. -/
def getBlock (M : Maths) (w : World) (position : Vector3) : CBlock × World :=
  let chunkPos := M.worldToChunkPos position
  if w.m_chunks.existsAt chunkPos then
    let blockPosition := M.worldToBlockPos position
    match w.m_chunks.get chunkPos with
    | some c => (c.qGetBlock M blockPosition, w)
    | none => (Block.ID.Air, w)
  else
    (Block.ID.Air, w)

end World

/-! ## `World::regenerateChunks` -/

/-- The store together with the local `chunksToUpdate` of `regenerateChunks`.
`chunksToUpdate` is an `unordered_map` from section coordinate to section
pointer; a section pointer is determined by its coordinate, so the keys are kept,
in insertion order. -/
structure RegenState where
  chunks : Chunk.Map
  chunksToUpdate : List Chunk.Chunklet_Position
deriving DecidableEq

namespace Chunk.Full_Chunk

/-- The loop `while (!chunk) { chunkFull->addSection(); chunk =
chunkFull->getSection(y); }` entered with `chunk == nullptr`
(World.cpp 156-160 and 198-202): the body runs, then the test. -/
def addSectionsUntil : Nat → Full_Chunk → Int → Except Fault Full_Chunk
  | 0, _, _ => .error .fuelExhausted
  | fuel + 1, c, y =>
    let c1 := c.addSection
    match c1.getSection y with
    | some _ => .ok c1
    | none => addSectionsUntil fuel c1 y

end Chunk.Full_Chunk

namespace World

/-- `chunksToUpdate.insert(std::make_pair(chunkPosition, chunk))`: inserting a key
that is present leaves the map as it is. -/
def insertKey (l : List Chunk.Chunklet_Position) (p : Chunk.Chunklet_Position) :
    List Chunk.Chunklet_Position :=
  if p ∈ l then l else l ++ [p]

/-- The lambda `insertChunk` of `regenerateChunks` (World.cpp 149-162); `chunk` is
the section pointer passed in. -/
def insertChunk (fuel : Nat) (st : RegenState) (chunkPosition : Chunk.Chunklet_Position)
    (chunk : Option Chunk.Section) : Except Fault RegenState :=
  match st.chunks.get ⟨chunkPosition.x, chunkPosition.z⟩ with
  | none => .ok st
  | some chunkFull =>
    match chunk with
    | some _ =>
      .ok { st with chunksToUpdate := insertKey st.chunksToUpdate chunkPosition }
    | none =>
      match chunkFull.addSectionsUntil fuel chunkPosition.y with
      | .error e => .error e
      | .ok c1 =>
        .ok { chunks := st.chunks.put ⟨chunkPosition.x, chunkPosition.z⟩ c1
              chunksToUpdate := insertKey st.chunksToUpdate chunkPosition }

/-- The lambda `checkForBatchAdd` of `regenerateChunks` (World.cpp 165-185).  Each
component of the neighbour is `int - float` or `int + float`, computed in
`float` (the `int` is converted first) and converted back to `int` by the
constructor of `Chunklet_Position`. -/
def checkForBatchAdd (M : Maths) (fuel : Nat) (st : RegenState) (position : Int)
    (chunkPosition : Chunk.Chunklet_Position) (direction : Vector3) :
    Except Fault RegenState :=
  if position = 0 then
    let newChunkPosition : Chunk.Chunklet_Position :=
      ⟨toInt (toFloat (toFloat chunkPosition.x - direction.x)),
       toInt (toFloat (toFloat chunkPosition.y - direction.y)),
       toInt (toFloat (toFloat chunkPosition.z - direction.z))⟩
    insertChunk fuel st newChunkPosition (st.chunks.getSection newChunkPosition)
  else if position = M.CHUNK_SIZE - 1 then
    let newChunkPosition : Chunk.Chunklet_Position :=
      ⟨toInt (toFloat (toFloat chunkPosition.x + direction.x)),
       toInt (toFloat (toFloat chunkPosition.y + direction.y)),
       toInt (toFloat (toFloat chunkPosition.z + direction.z))⟩
    insertChunk fuel st newChunkPosition (st.chunks.getSection newChunkPosition)
  else
    .ok st

/-- One turn of the loop over `m_newBlocks` in `regenerateChunks`
(World.cpp 188-214). -/
def applyNewBlock (M : Maths) (fuel : Nat) (st : RegenState) (newBlock : New_Block) :
    Except Fault RegenState :=
  let chunkPosition := M.worldToChunkletPos newBlock.position
  let blockPosition := M.blockToSmallBlockPos (M.worldToBlockPos newBlock.position)
  match st.chunks.get ⟨chunkPosition.x, chunkPosition.z⟩ with
  | none => .error .nullDereference
  | some chunkFull =>
    match chunkFull.addSectionsUntil fuel chunkPosition.y with
    | .error e => .error e
    | .ok c1 =>
      let c2 := c1.setSectionBlock chunkPosition.y blockPosition newBlock.block
      let st1 : RegenState := { st with chunks := st.chunks.put ⟨chunkPosition.x, chunkPosition.z⟩ c2 }
      match insertChunk fuel st1 chunkPosition (c2.getSection chunkPosition.y) with
      | .error e => .error e
      | .ok st2 =>
        match checkForBatchAdd M fuel st2 blockPosition.x chunkPosition ⟨1, 0, 0⟩ with
        | .error e => .error e
        | .ok st3 =>
          match checkForBatchAdd M fuel st3 blockPosition.y chunkPosition ⟨0, 1, 0⟩ with
          | .error e => .error e
          | .ok st4 => checkForBatchAdd M fuel st4 blockPosition.z chunkPosition ⟨0, 0, 1⟩

/-- The loop `for (New_Block& newBlock : m_newBlocks)` of `regenerateChunks`. -/
def applyNewBlocks (M : Maths) (fuel : Nat) : RegenState → List New_Block →
    Except Fault RegenState
  | st, [] => .ok st
  | st, b :: bs =>
    match applyNewBlock M fuel st b with
    | .error e => .error e
    | .ok st1 => applyNewBlocks M fuel st1 bs

/-- The loop `for (auto& chunk : chunksToUpdate)` of `regenerateChunks`
(World.cpp 217-222): the calls made on each entry. -/
def regenerateCalls (chunksToUpdate : List Chunk.Chunklet_Position) : List MeshCall :=
  chunksToUpdate.flatMap (fun p => [MeshCall.makeMesh p, MeshCall.bufferMesh p])

/-- `World::regenerateChunks` (World.cpp 144-225): the world after the call, the
keys of `chunksToUpdate` (the remesh set) and the rendering calls made. -/
def regenerateChunks (M : Maths) (fuel : Nat) (w : World) :
    Except Fault (World × List Chunk.Chunklet_Position × List MeshCall) :=
  match applyNewBlocks M fuel { chunks := w.m_chunks, chunksToUpdate := [] } w.m_newBlocks with
  | .error e => .error e
  | .ok st =>
    .ok ({ w with m_chunks := st.chunks, m_newBlocks := [] }, st.chunksToUpdate,
         regenerateCalls st.chunksToUpdate)

end World

/-! ## `World::buildMeshes` -/

/-- The part of `Camera` that `buildMeshes` reads. -/
structure Camera where
  position : Vector3
deriving DecidableEq

/-- The absent `Full_Chunk::tryGen`, "attempt-generate (reports whether it
produced new content)": a parameter giving the reported value and the column
after the call. -/
abbrev Generator := Chunk.Full_Chunk → Bool × Chunk.Full_Chunk

namespace Generator

/-- What the scheduler relies on from `tryGen`: it leaves the column's position
and its delete flag alone. -/
def Frame (tryGen : Generator) : Prop :=
  ∀ c, (tryGen c).2.position = c.position ∧ (tryGen c).2.hasDeleteFlag = c.hasDeleteFlag

/-- Modelled from the spec: a generator that produces content exactly for a
column that has no generated data yet. -/
def standard : Generator := fun c =>
  if c.hasGeneratedBlockData then (false, c)
  else (true, { c with hasGeneratedBlockData := true })

end Generator

/-- The values of a loop variable `for (int32_t i = lo; i < hi; i++)`. -/
def loopRange (lo hi : Int) : List Int :=
  (List.range (hi - lo).toNat).map (fun (i : Nat) => lo + (i : Int))

/-- The store, the local `isMeshMade` and the log of the `tryGen` calls made so
far (column coordinate and reported value, in call order). -/
structure ScanState where
  chunks : Chunk.Map
  isMeshMade : Bool
  calls : List (Chunk.Position × Bool)

namespace World

/-- The inner loop `for (int32_t z = minDisZ; z < maxDisZ; z++)` of `buildMeshes`
(World.cpp 271-286) for one `x`, with its `break`. -/
def scanZ (tryGen : Generator) (x : Int) : List Int → ScanState → Except Fault ScanState
  | [], st => .ok st
  | z :: zs, st =>
    let position : Chunk.Position := ⟨x, z⟩
    let chunks1 :=
      if !st.chunks.existsAt position then st.chunks.addChunk position else st.chunks
    match chunks1.get ⟨x, z⟩ with
    | none => .error .nullDereference
    | some chunk =>
      let r := tryGen chunk
      let st1 : ScanState :=
        { chunks := chunks1.put ⟨x, z⟩ r.2
          isMeshMade := st.isMeshMade
          calls := st.calls ++ [(position, r.1)] }
      if r.1 then .ok { st1 with isMeshMade := true }
      else scanZ tryGen x zs st1

/-- The outer loop `for (int32_t x = minDisX; x < maxDisX; x++)` of `buildMeshes`
(World.cpp 269-291), with its `break` on `isMeshMade`. -/
def scanX (tryGen : Generator) (zs : List Int) : List Int → ScanState → Except Fault ScanState
  | [], st => .ok st
  | x :: xs, st =>
    match scanZ tryGen x zs st with
    | .error e => .error e
    | .ok st1 => if st1.isMeshMade then .ok st1 else scanX tryGen zs xs st1

/-- The loop `for (auto& chunk : m_chunks.getChunks())` of `buildMeshes`
(World.cpp 303-321): the store and the deletion queue after it. -/
def flagOutOfBounds (minX maxX minZ maxZ : Int) :
    Chunk.Map → List Chunk.Position → Chunk.Map × List Chunk.Position
  | [], q => ([], q)
  | c :: cs, q =>
    let location := c.getPosition
    if location.x ≤ minX ∨ location.x ≥ maxX ∨ location.y ≤ minZ ∨ location.y ≥ maxZ then
      if !c.hasDeleteFlag then
        let r := flagOutOfBounds minX maxX minZ maxZ cs (q ++ [location])
        ({ c with hasDeleteFlag := true } :: r.1, r.2)
      else
        let r := flagOutOfBounds minX maxX minZ maxZ cs q
        (c :: r.1, r.2)
    else
      let r := flagOutOfBounds minX maxX minZ maxZ cs q
      (c :: r.1, r.2)

/-- The value of `m_loadingDistance` after the test at the head of `buildMeshes`
(World.cpp 232-235). -/
def resetLoadingDistance (w : World) : Int :=
  if w.m_loadingDistance = w.m_worldSettings.worldSize.tdiv 2 + 1 then 1
  else w.m_loadingDistance

/-- The bounds `(minDisX, maxDisX, minDisZ, maxDisZ)` computed by `buildMeshes`
(World.cpp 239-266) from the camera column and the loading distance in force. -/
def scanBounds (settings : World_Settings) (cameraPosition : Chunk.Position)
    (loadingDistance : Int) : Int × Int × Int × Int :=
  if settings.isInfiniteTerrain then
    (cameraPosition.x - loadingDistance, cameraPosition.x + loadingDistance,
     cameraPosition.y - loadingDistance, cameraPosition.y + loadingDistance)
  else
    let minDis := settings.worldSize.tdiv 2 - loadingDistance
    let maxDis := settings.worldSize.tdiv 2 + loadingDistance
    (minDis, maxDis, minDis, maxDis)

/-- `World::buildMeshes` (World.cpp 230-325): the world after one scheduler
iteration and the log of the `tryGen` calls it made. -/
def buildMeshes (M : Maths) (tryGen : Generator) (w : World) (camera : Camera) :
    Except Fault (World × List (Chunk.Position × Bool)) :=
  let loadingDistance := resetLoadingDistance w
  let cameraPosition := M.worldToChunkPos camera.position
  let b := scanBounds w.m_worldSettings cameraPosition loadingDistance
  match scanX tryGen (loopRange b.2.2.1 b.2.2.2) (loopRange b.1 b.2.1)
      { chunks := w.m_chunks, isMeshMade := false, calls := [] } with
  | .error e => .error e
  | .ok st =>
    let loadingDistance1 := if !st.isMeshMade then loadingDistance + 1 else loadingDistance
    if w.m_worldSettings.isInfiniteTerrain then
      let minX := cameraPosition.x - w.m_worldSettings.worldSize.tdiv 2 - 1
      let maxX := cameraPosition.x + w.m_worldSettings.worldSize.tdiv 2 + 1
      let minZ := cameraPosition.y - w.m_worldSettings.worldSize.tdiv 2 - 1
      let maxZ := cameraPosition.y + w.m_worldSettings.worldSize.tdiv 2 + 1
      let r := flagOutOfBounds minX maxX minZ maxZ st.chunks w.m_deleteChunks
      .ok ({ w with m_chunks := r.1, m_deleteChunks := r.2
                    m_loadingDistance := loadingDistance1
                    m_cameraPosition := cameraPosition }, st.calls)
    else
      .ok ({ w with m_chunks := st.chunks
                    m_loadingDistance := loadingDistance1
                    m_cameraPosition := cameraPosition }, st.calls)

/-- Successive scheduler iterations, one per camera reading, with no deletion
drain in between (the body of the worker loop, World.cpp 28-32). -/
def buildMeshesRun (M : Maths) (tryGen : Generator) : World → List Camera → Except Fault World
  | w, [] => .ok w
  | w, camera :: rest =>
    match buildMeshes M tryGen w camera with
    | .error e => .error e
    | .ok r => buildMeshesRun M tryGen r.1 rest

end World

/-! ## Lookups used to state properties of the store -/

namespace Chunk.Map

/-- The coordinates of the loaded columns, in store order. -/
def keys (m : Map) : List Position := m.map Full_Chunk.position

/-- The delete flag of the column stored under `p`; `false` when none is. -/
def flagAt (m : Map) (p : Position) : Bool :=
  match m.get p with
  | some c => c.hasDeleteFlag
  | none => false

end Chunk.Map

/-! ## The scan of `buildMeshes` as one pass over the window -/

/-- The columns of the scan window in the order the two nested loops of
`buildMeshes` visit them: `x` outer, `z` inner. -/
def scanOrder (xs zs : List Int) : List Chunk.Position :=
  xs.flatMap (fun x => zs.map (fun z => (⟨x, z⟩ : Chunk.Position)))

/-- The scan window of one iteration: the columns the loops of `buildMeshes`
range over, from the bounds the code computes. -/
def World.scanWindow (M : Maths) (w : World) (camera : Camera) : List Chunk.Position :=
  let b := World.scanBounds w.m_worldSettings (M.worldToChunkPos camera.position)
    (World.resetLoadingDistance w)
  scanOrder (loopRange b.1 b.2.1) (loopRange b.2.2.1 b.2.2.2)

/-- The loop body of `buildMeshes` run over a list of columns, stopping after the
first `tryGen` that reports `true`; used to reason about `scanX` (see
`scanX_eq_scanList`). -/
def scanList (tryGen : Generator) : List Chunk.Position → ScanState → ScanState
  | [], st => st
  | p :: ps, st =>
    match (st.chunks.addChunk p).get p with
    | none => st
    | some chunk =>
      let r := tryGen chunk
      let st1 : ScanState :=
        { chunks := (st.chunks.addChunk p).put p r.2
          isMeshMade := st.isMeshMade
          calls := st.calls ++ [(p, r.1)] }
      if r.1 then { st1 with isMeshMade := true }
      else scanList tryGen ps st1

/-! ## The eviction pass of `buildMeshes` in closed form -/

/-- The bounds test of the eviction pass (World.cpp 309-312) for a column
coordinate, with `h = worldSize / 2 + 1` and the camera column `cam`: the
coordinate is at or beyond `cam - h` or `cam + h` on some axis. -/
def outOfBounds (cam : Chunk.Position) (h : Int) (p : Chunk.Position) : Prop :=
  p.x ≤ cam.x - h ∨ cam.x + h ≤ p.x ∨ p.y ≤ cam.y - h ∨ cam.y + h ≤ p.y

instance (cam : Chunk.Position) (h : Int) (p : Chunk.Position) :
    Decidable (outOfBounds cam h p) := by
  unfold outOfBounds; infer_instance

/-- What the eviction pass does to one column. -/
def markOutOfBounds (cam : Chunk.Position) (h : Int) (c : Chunk.Full_Chunk) :
    Chunk.Full_Chunk :=
  if outOfBounds cam h c.position then { c with hasDeleteFlag := true } else c

/-- The coordinates the eviction pass appends to the deletion queue, in store
order. -/
def newlyQueued (cam : Chunk.Position) (h : Int) (m : Chunk.Map) : List Chunk.Position :=
  (m.filter (fun c => decide (outOfBounds cam h c.position) && !c.hasDeleteFlag)).map
    Chunk.Full_Chunk.position

/-- The scan of one iteration, as a single pass over the scan window. -/
def World.scanResult (M : Maths) (tryGen : Generator) (w : World) (camera : Camera) :
    ScanState :=
  scanList tryGen (World.scanWindow M w camera)
    { chunks := w.m_chunks, isMeshMade := false, calls := [] }

/-- The state of the delete flags and the deletion queue between two drains: the
store has unique keys, the queue has no duplicate, and a coordinate is in the
queue exactly when the column stored under it carries the delete flag.  It
holds of a world with an empty queue and no flagged column. -/
def DeleteInv (w : World) : Prop :=
  w.m_chunks.WF ∧ w.m_deleteChunks.Nodup ∧
    ∀ p, p ∈ w.m_deleteChunks ↔ w.m_chunks.flagAt p = true

/-! ## The remesh set in the words of the specification -/

/-- The neighbours an edit touches on one axis: the section one step negative
when the within-section coordinate is 0, the section one step positive when it
is `CHUNK_SIZE - 1`. -/
def axisNeighbours (chunkSize coordinate : Int)
    (negative positive : Chunk.Chunklet_Position) : List Chunk.Chunklet_Position :=
  (if coordinate = 0 then [negative] else []) ++
    (if coordinate = chunkSize - 1 then [positive] else [])

/-- The sections an edit touches: its own section, then one neighbour per axis on
which its within-section coordinate is 0 or `CHUNK_SIZE - 1`. -/
def touchedSections (M : Maths) (e : New_Block) : List Chunk.Chunklet_Position :=
  let s := M.worldToChunkletPos e.position
  let b := M.blockToSmallBlockPos (M.worldToBlockPos e.position)
  s :: (axisNeighbours M.CHUNK_SIZE b.x ⟨s.x - 1, s.y, s.z⟩ ⟨s.x + 1, s.y, s.z⟩ ++
        axisNeighbours M.CHUNK_SIZE b.y ⟨s.x, s.y - 1, s.z⟩ ⟨s.x, s.y + 1, s.z⟩ ++
        axisNeighbours M.CHUNK_SIZE b.z ⟨s.x, s.y, s.z - 1⟩ ⟨s.x, s.y, s.z + 1⟩)

/-- A section coordinate in the range where `float` holds every integer: each
component has magnitude below `2 ^ 24`, so that the component and the two
integers next to it are `float`s. -/
def Chunk.Chunklet_Position.inFloatRange (q : Chunk.Chunklet_Position) : Prop :=
  (-16777216 < q.x ∧ q.x < 16777216) ∧ (-16777216 < q.y ∧ q.y < 16777216) ∧
    (-16777216 < q.z ∧ q.z < 16777216)

instance (q : Chunk.Chunklet_Position) : Decidable q.inFloatRange := by
  unfold Chunk.Chunklet_Position.inFloatRange; infer_instance

/-- Several `chunksToUpdate.insert` in a row. -/
def insertKeys (l ps : List Chunk.Chunklet_Position) : List Chunk.Chunklet_Position :=
  ps.foldl World.insertKey l

/-- The column of a section is loaded in the store. -/
def Chunk.Map.columnLoaded (m : Chunk.Map) (q : Chunk.Chunklet_Position) : Bool :=
  m.existsAt ⟨q.x, q.z⟩

/-- A column with `k` more empty sections on top. -/
def Chunk.Full_Chunk.grown (c : Chunk.Full_Chunk) (k : Nat) : Chunk.Full_Chunk :=
  { c with sections := c.sections ++ List.replicate k { blocks := [] } }

/-- Store `m1` has the columns of `m`, each with at least as many sections. -/
def Chunk.Map.Extends (m m1 : Chunk.Map) : Prop :=
  m1.keys = m.keys ∧
    ∀ p c, m.get p = some c →
      ∃ c1, m1.get p = some c1 ∧ c.sections.length ≤ c1.sections.length

/-- What boundary propagation does for a neighbouring section `q`, by the store
`m` the batch started from.  When the column of `q` is loaded, `q` is in the
remesh set and exists in the store `m1` the batch ends with.  When it is not
loaded, `q` is skipped: it is not in the remesh set, and the store afterwards
holds neither its column nor the section. -/
def neighbourRemeshed (m m1 : Chunk.Map) (remesh : List Chunk.Chunklet_Position)
    (q : Chunk.Chunklet_Position) : Prop :=
  (m.columnLoaded q = true → q ∈ remesh ∧ (m1.getSection q).isSome = true) ∧
  (m.columnLoaded q = false →
    q ∉ remesh ∧ m1.columnLoaded q = false ∧ m1.getSection q = none)

/-! ## `World::checkPlayerBounds` -/

/-- The part of `Player` that `checkPlayerBounds` reads and writes. -/
structure Player where
  position : Vector3
deriving DecidableEq

/-- `World::checkPlayerBounds` (World.cpp 71-97), over exact rationals: the
player after the call.  `x1`, `z1` are `position.x`, `position.z` after the two
lower clamps, `x2`, `z2` after the two upper clamps. -/
def World.checkPlayerBounds (M : Maths) (w : World) (player : Player) : Player :=
  let x1 : ℚ := if player.position.x < 0.2 then 0.2 else player.position.x
  let z1 : ℚ := if player.position.z < 0.2 then 0.2 else player.position.z
  if w.m_worldSettings.isInfiniteTerrain then
    { position := { x := x1, y := player.position.y, z := z1 } }
  else
    let x2 : ℚ :=
      if x1 + 0.2 > ((w.m_worldSettings.worldSize * M.CHUNK_SIZE : Int) : ℚ) - 0.2 then
        ((w.m_worldSettings.worldSize * M.CHUNK_SIZE : Int) : ℚ) - 0.3
      else x1
    let z2 : ℚ :=
      if z1 + 0.2 > ((w.m_worldSettings.worldSize * M.CHUNK_SIZE : Int) : ℚ) - 0.2 then
        ((w.m_worldSettings.worldSize * M.CHUNK_SIZE : Int) : ℚ) - 0.3
      else z1
    { position := { x := x2, y := player.position.y, z := z2 } }

/-! ## `Block::Data::parseLine` (Block_Data.cpp) -/

/-- The value of `a.compare(b)` up to its sign: zero exactly for equal strings. -/
def compareStrings (a b : String) : Int :=
  if a = b then 0 else if a < b then -1 else 1

/-- `areStringsSame` (Block_Data.cpp 10-13): `!a.compare(b)`. -/
def areStringsSame (a b : String) : Bool :=
  decide (compareStrings a b = 0)

namespace Block

/-- Modelled from the spec: the property record `m_holder` the parser fills
(its type is absent): name, id, the three flags, the three enums and the three
texture coordinate pairs. -/
structure Data_Holder where
  name : String
  blockID : Nat
  isOpaque : Bool
  isObstacle : Bool
  canUpdate : Bool
  meshType : Nat
  meshStyle : Nat
  state : Nat
  topTextureCoords : Int × Int
  sideTextureCoords : Int × Int
  bottomTextureCoords : Int × Int
deriving DecidableEq

/-- The reads `parseLine` performs on its input stream of type `σ`:
`std::getline`, the absent template `loadEnum`, and `operator>>` into a flag and
into a coordinate.  Each gives the value read and the stream after the read. -/
structure Reader (σ : Type) where
  getline : σ → String × σ
  loadEnum : σ → Nat × σ
  readFlag : σ → Bool × σ
  readCoord : σ → Int × σ

/-- The `std::runtime_error` thrown by `parseLine`. -/
inductive ParseError where
  | unrecognisedToken (line : String)
deriving DecidableEq

namespace Data

/-- `Block::Data::parseLine` (Block_Data.cpp 42-101): the record and the stream
after the call, or the error thrown. -/
def parseLine {σ : Type} (R : Reader σ) (m_holder : Data_Holder) (line : String)
    (inFile : σ) : Except ParseError (Data_Holder × σ) :=
  if areStringsSame line "Name" then
    let r := R.getline inFile
    .ok ({ m_holder with name := r.1 }, r.2)
  else if areStringsSame line "ID" then
    let r := R.loadEnum inFile
    .ok ({ m_holder with blockID := r.1 }, r.2)
  else if areStringsSame line "Opaque" then
    let r := R.readFlag inFile
    .ok ({ m_holder with isOpaque := r.1 }, r.2)
  else if areStringsSame line "Obstacle" then
    let r := R.readFlag inFile
    .ok ({ m_holder with isObstacle := r.1 }, r.2)
  else if areStringsSame line "Update" then
    let r := R.readFlag inFile
    .ok ({ m_holder with canUpdate := r.1 }, r.2)
  else if areStringsSame line "Mesht" then
    let r := R.loadEnum inFile
    .ok ({ m_holder with meshType := r.1 }, r.2)
  else if areStringsSame line "Style" then
    let r := R.loadEnum inFile
    .ok ({ m_holder with meshStyle := r.1 }, r.2)
  else if areStringsSame line "State" then
    let r := R.loadEnum inFile
    .ok ({ m_holder with state := r.1 }, r.2)
  else if areStringsSame line "Texture Top" then
    let rx := R.readCoord inFile
    let ry := R.readCoord rx.2
    .ok ({ m_holder with topTextureCoords := (rx.1, ry.1) }, ry.2)
  else if areStringsSame line "Texture Side" then
    let rx := R.readCoord inFile
    let ry := R.readCoord rx.2
    .ok ({ m_holder with sideTextureCoords := (rx.1, ry.1) }, ry.2)
  else if areStringsSame line "Texture Bottom" then
    let rx := R.readCoord inFile
    let ry := R.readCoord rx.2
    .ok ({ m_holder with bottomTextureCoords := (rx.1, ry.1) }, ry.2)
  else if areStringsSame line "" || areStringsSame line " " || areStringsSame line "\t" then
    .ok (m_holder, inFile)
  else
    .error (.unrecognisedToken line)

/-- The keys `parseLine` recognises, in the order it tests them. -/
def recognisedKeys : List String :=
  ["Name", "ID", "Opaque", "Obstacle", "Update", "Mesht", "Style", "State",
   "Texture Top", "Texture Side", "Texture Bottom"]

/-- The lines `parseLine` skips. -/
def skippedLines : List String := ["", " ", "\t"]

/-- A line made of spaces and tabs only (the empty line included). -/
def isWhitespaceOnly (line : String) : Bool :=
  line.toList.all (fun c => c == ' ' || c == '\t')

end Data

/-- A reader over a list of already separated values, for examples: every read
takes the next value, an empty or ill-formed value reads as the default. -/
def Reader.ofValues : Reader (List String) where
  getline := fun s => (s.headD "", s.tail)
  loadEnum := fun s => ((s.headD "").toNat!, s.tail)
  readFlag := fun s => (decide (s.headD "" = "1"), s.tail)
  readCoord := fun s => ((s.headD "").toInt!, s.tail)

end Block

/-! ## `World::setBlock` -/

/-- Componentwise sum of two vectors (`operator+` of `Vector3`), each component
a `float` addition. -/
def Vector3.add (a b : Vector3) : Vector3 :=
  { x := toFloat (a.x + b.x), y := toFloat (a.y + b.y), z := toFloat (a.z + b.z) }

/-- One call `getBlock(position + offset).getType().trigger(*this, location)` of
`setBlock`: the block read, the world handed over as `*this`, and the integer
coordinate passed. -/
structure TriggerCall where
  block : CBlock
  world : World
  location : Block.Position
deriving DecidableEq

/-- The absent behaviour `trigger` of a block type, "on neighbor changed": the
world after the call, for the block whose type is asked, the world and the
coordinate passed. -/
abbrev Trigger := CBlock → World → Block.Position → World

/-- The values of a loop variable `for (int i = lo; i <= hi; i++)`. -/
def loopRangeInclusive (lo hi : Int) : List Int := loopRange lo (hi + 1)

/-- The offsets `(x, y, z)` in the order the three nested loops of `setBlock`
produce them: `y` outer, then `x`, then `z`, each from -1 to 1. -/
def neighbourOffsets : List (Int × Int × Int) :=
  (loopRangeInclusive (-1) 1).flatMap (fun y =>
    (loopRangeInclusive (-1) 1).flatMap (fun x =>
      (loopRangeInclusive (-1) 1).map (fun z => (x, y, z))))

/-- The coordinate `{int(position.x + x), int(position.y + y), int(position.z + z)}`
that `setBlock` passes for the offset `(x, y, z)`: the `int` offset is converted
to `float`, the sum is a `float` addition, the cast truncates. -/
def triggerLocation (position : Vector3) (d : Int × Int × Int) : Block.Position :=
  { x := toInt (toFloat (position.x + toFloat (d.1 : ℚ)))
    y := toInt (toFloat (position.y + toFloat (d.2.1 : ℚ)))
    z := toInt (toFloat (position.z + toFloat (d.2.2 : ℚ))) }

/-- The vector `Vector3{x, y, z}` built from the three `int` loop variables of
`setBlock`, each converted to `float`. -/
def offsetVector (d : Int × Int × Int) : Vector3 :=
  ⟨toFloat (d.1 : ℚ), toFloat (d.2.1 : ℚ), toFloat (d.2.2 : ℚ)⟩

namespace World

/-- The body of the three nested loops of `setBlock` (World.cpp 108-115) run over
a list of offsets; `calls` is the log so far. -/
def notifyNeighbours (M : Maths) (trigger : Trigger) (position : Vector3) :
    List (Int × Int × Int) → World → List TriggerCall → World × List TriggerCall
  | [], w, calls => (w, calls)
  | d :: rest, w, calls =>
    let r := getBlock M w (position.add (offsetVector d))
    let location := triggerLocation position d
    notifyNeighbours M trigger position rest (trigger r.1 r.2 location)
      (calls ++ [{ block := r.1, world := r.2, location := location }])

/-- `World::setBlock` (World.cpp 104-116): the world after the call and the log
of the `trigger` calls made. -/
def setBlock (M : Maths) (trigger : Trigger) (w : World) (position : Vector3)
    (block : CBlock) : World × List TriggerCall :=
  notifyNeighbours M trigger position neighbourOffsets
    { w with m_newBlocks := w.m_newBlocks ++ [{ block := block, position := position }] } []

/-- `World::qSetBlock` (World.cpp 99-102). -/
def qSetBlock (M : Maths) (trigger : Trigger) (w : World) (position : Vector3)
    (block : CBlock) : World × List TriggerCall :=
  setBlock M trigger w position block

end World

/-- A component of a position on which the truncating conversion commutes with
the offsets -1, 0, 1: it is 0, at least 1, or at most -1. -/
def awayFromZero (c : ℚ) : Prop := c ≤ -1 ∨ c = 0 ∨ 1 ≤ c

/-- A component of a position to which `float` addition adds each of the offsets
-1, 0, 1 exactly: the sum computed by `position.x + x` is the exact sum. -/
def offsetsExact (c : ℚ) : Prop :=
  ∀ d : Int, -1 ≤ d → d ≤ 1 → toFloat (c + toFloat (d : ℚ)) = c + (d : ℚ)

/-! ## `World::updateChunks` -/

/-- The absent `Full_Chunk::tick`, the per-frame tick of a column: a parameter
giving the column after the call. -/
abbrev Ticker := Chunk.Full_Chunk → Chunk.Full_Chunk

namespace World

/-- The loop `for (auto& chunkLocation : m_deleteChunks)` of `updateChunks`
(World.cpp 61-64). -/
def deleteChunks (m : Chunk.Map) (locations : List Chunk.Position) : Chunk.Map :=
  locations.foldl Chunk.Map.deleteChunk m

/-- `World::updateChunks` (World.cpp 45-68): the world after the update tick and
the rendering calls made by `regenerateChunks` during it. -/
def updateChunks (M : Maths) (tick : Ticker) (fuel : Nat) (w : World) :
    Except Fault (World × List MeshCall) :=
  let edited : Except Fault (World × List MeshCall) :=
    if !w.m_newBlocks.isEmpty then
      match regenerateChunks M fuel w with
      | .error e => .error e
      | .ok r => .ok (r.1, r.2.2)
    else .ok (w, [])
  match edited with
  | .error e => .error e
  | .ok r =>
    let ticked : World := { r.1 with m_chunks := r.1.m_chunks.map tick }
    if !ticked.m_deleteChunks.isEmpty then
      .ok ({ ticked with m_chunks := deleteChunks ticked.m_chunks ticked.m_deleteChunks
                         m_deleteChunks := [] }, r.2)
    else .ok (ticked, r.2)

end World

/-! ## The contents of the sections, to state what a batch writes -/

/-- The write log of the section at index `y` of a column; empty when there is
no such section. -/
def Chunk.Full_Chunk.blocksAt (c : Chunk.Full_Chunk) (y : Int) :
    List (Block.Small_Position × CBlock) :=
  match c.getSection y with
  | some s => s.blocks
  | none => []

/-- The write log of section `q` in the store; empty when the column or the
section is absent. -/
def Chunk.Map.blocksAt (m : Chunk.Map) (q : Chunk.Chunklet_Position) :
    List (Block.Small_Position × CBlock) :=
  match m.get ⟨q.x, q.z⟩ with
  | some c => c.blocksAt q.y
  | none => []

/-- The block read in section `q` at within-section coordinate `p`; `Air` when
nothing was written there. -/
def Chunk.Map.blockAt (m : Chunk.Map) (q : Chunk.Chunklet_Position)
    (p : Block.Small_Position) : CBlock :=
  match (m.blocksAt q).find? (fun e => decide (e.1 = p)) with
  | some e => e.2
  | none => Block.ID.Air

/-- The writes a queue of edits makes to section `q`, the latest first. -/
def writesTo (M : Maths) (q : Chunk.Chunklet_Position) (es : List New_Block) :
    List (Block.Small_Position × CBlock) :=
  ((es.filter (fun e => decide (M.worldToChunkletPos e.position = q))).map
    (fun e => (M.blockToSmallBlockPos (M.worldToBlockPos e.position), e.block))).reverse

/-! # Properties -/

/-! ## Conversion lemmas -/

theorem toInt_intCast (n : Int) : toInt (n : ℚ) = n := by
  unfold toInt
  split
  · exact Int.floor_intCast n
  · exact Int.ceil_intCast n

/-! ## The `float` model -/

theorem roundHalfEven_intCast (n : Int) : roundHalfEven (n : ℚ) = n := by
  unfold roundHalfEven
  rw [Int.floor_intCast]
  simp

theorem halvings_le (fuel n k : Nat) (h : n < 2 ^ (k + 1)) : halvings fuel n ≤ k := by
  induction fuel generalizing n k with
  | zero => simp [halvings]
  | succ f ih =>
    unfold halvings
    split
    · rename_i h2
      cases k with
      | zero => omega
      | succ k1 =>
        have : n / 2 < 2 ^ (k1 + 1) := by
          rw [Nat.div_lt_iff_lt_mul (by decide)]
          rw [pow_succ] at h
          exact h
        have := ih (n / 2) k1 this
        omega
    · omega

theorem binade_intCast_le (n : Int) (k : Nat) (h : n.natAbs < 2 ^ (k + 1)) :
    binade (n : ℚ) ≤ k := by
  have h1 : bitLog n.natAbs ≤ k := halvings_le _ _ _ h
  have h2 : bitLog 1 = 0 := rfl
  unfold binade
  simp only [Rat.num_intCast, Rat.den_intCast, h2]
  split <;> omega

/-- Rounding to the nearest integer moves a value by at most one half. -/
theorem roundHalfEven_close (q : ℚ) : |(roundHalfEven q : ℚ) - q| ≤ 1 / 2 := by
  have h1 := Int.floor_le q
  have h2 := Int.lt_floor_add_one q
  unfold roundHalfEven
  split
  · rw [abs_le]; constructor <;> linarith
  · split
    · push_cast
      rw [abs_le]; constructor <;> linarith
    · have he : q - (Int.floor q : ℚ) = 1 / 2 := by linarith
      split
      · rw [abs_le]; constructor <;> linarith
      · push_cast
        rw [abs_le]; constructor <;> linarith

/-- Rounding to `float` moves a value by at most half a unit in the last place. -/
theorem toFloat_close (q : ℚ) : |toFloat q - q| ≤ 2 ^ ulpExponent q / 2 := by
  have hpos : (0 : ℚ) < 2 ^ ulpExponent q := zpow_pos (by norm_num) _
  have h := roundHalfEven_close (q / 2 ^ ulpExponent q)
  have e : toFloat q - q
      = ((roundHalfEven (q / 2 ^ ulpExponent q) : ℚ) - q / 2 ^ ulpExponent q)
        * 2 ^ ulpExponent q := by
    unfold toFloat
    rw [sub_mul, div_mul_cancel₀ _ (ne_of_gt hpos)]
  rw [e, abs_mul, abs_of_pos hpos]
  calc |(roundHalfEven (q / 2 ^ ulpExponent q) : ℚ) - q / 2 ^ ulpExponent q|
        * 2 ^ ulpExponent q
      ≤ 1 / 2 * 2 ^ ulpExponent q := mul_le_mul_of_nonneg_right h (le_of_lt hpos)
    _ = 2 ^ ulpExponent q / 2 := by ring

theorem halvings_spec (fuel n : Nat) (h1 : 1 ≤ n) (hf : n ≤ fuel) :
    2 ^ halvings fuel n ≤ n ∧ n < 2 ^ (halvings fuel n + 1) := by
  induction fuel generalizing n with
  | zero => omega
  | succ f ih =>
    unfold halvings
    split
    · rename_i h2
      have := ih (n / 2) (by omega) (by omega)
      rw [pow_succ, pow_succ]
      constructor <;> omega
    · simp
      omega

theorem bitLog_spec (n : Nat) (h1 : 1 ≤ n) : 2 ^ bitLog n ≤ n ∧ n < 2 ^ (bitLog n + 1) :=
  halvings_spec n n h1 (le_refl n)

/-- `binade q` is the exponent of the leading binary digit of `q`. -/
theorem binade_spec (q : ℚ) (hq : q ≠ 0) :
    (2 : ℚ) ^ binade q ≤ |q| ∧ |q| < 2 ^ (binade q + 1) := by
  have hn : 1 ≤ q.num.natAbs := by
    have : q.num ≠ 0 := Rat.num_ne_zero.2 hq
    omega
  have hd : 1 ≤ q.den := q.den_pos
  obtain ⟨a1, a2⟩ := bitLog_spec _ hn
  obtain ⟨b1, b2⟩ := bitLog_spec _ hd
  have habs : |q| = (q.num.natAbs : ℚ) / (q.den : ℚ) := by
    conv_lhs => rw [← Rat.num_div_den q]
    rw [abs_div, Nat.abs_cast, Nat.cast_natAbs, Int.cast_abs]
  have A1 : (2 : ℚ) ^ (bitLog q.num.natAbs : Int) ≤ (q.num.natAbs : ℚ) := by
    rw [zpow_natCast]; exact_mod_cast a1
  have A2 : (q.num.natAbs : ℚ) < (2 : ℚ) ^ ((bitLog q.num.natAbs : Int) + 1) := by
    have : ((bitLog q.num.natAbs : Int) + 1) = ((bitLog q.num.natAbs + 1 : Nat) : Int) := by
      push_cast; rfl
    rw [this, zpow_natCast]; exact_mod_cast a2
  have B1 : (2 : ℚ) ^ (bitLog q.den : Int) ≤ (q.den : ℚ) := by
    rw [zpow_natCast]; exact_mod_cast b1
  have B2 : (q.den : ℚ) < (2 : ℚ) ^ ((bitLog q.den : Int) + 1) := by
    have : ((bitLog q.den : Int) + 1) = ((bitLog q.den + 1 : Nat) : Int) := by
      push_cast; rfl
    rw [this, zpow_natCast]; exact_mod_cast b2
  have hD : (0 : ℚ) < (q.den : ℚ) := by exact_mod_cast hd
  have hN : (0 : ℚ) ≤ (q.num.natAbs : ℚ) := Nat.cast_nonneg _
  have p1 : (0 : ℚ) < (2 : ℚ) ^ (bitLog q.den : Int) := zpow_pos (by norm_num) _
  have p2 : (0 : ℚ) < (2 : ℚ) ^ ((bitLog q.den : Int) + 1) := zpow_pos (by norm_num) _
  have two : (2 : ℚ) ≠ 0 := by norm_num
  unfold binade
  rw [habs]
  split
  · rename_i h
    refine ⟨h, ?_⟩
    have e : (2 : ℚ) ^ ((bitLog q.num.natAbs : Int) - (bitLog q.den : Int) + 1)
        = (2 : ℚ) ^ ((bitLog q.num.natAbs : Int) + 1) / (2 : ℚ) ^ (bitLog q.den : Int) := by
      rw [← zpow_sub₀ two]; congr 1; ring
    rw [e, div_lt_div_iff₀ hD p1]
    calc (q.num.natAbs : ℚ) * (2 : ℚ) ^ (bitLog q.den : Int)
        ≤ (q.num.natAbs : ℚ) * (q.den : ℚ) := mul_le_mul_of_nonneg_left B1 hN
      _ < (2 : ℚ) ^ ((bitLog q.num.natAbs : Int) + 1) * (q.den : ℚ) :=
          mul_lt_mul_of_pos_right A2 hD
  · rename_i h
    constructor
    · have e : (2 : ℚ) ^ ((bitLog q.num.natAbs : Int) - (bitLog q.den : Int) - 1)
          = (2 : ℚ) ^ (bitLog q.num.natAbs : Int) / (2 : ℚ) ^ ((bitLog q.den : Int) + 1) := by
        rw [← zpow_sub₀ two]; congr 1; ring
      rw [e, div_le_div_iff₀ p2 hD]
      have q1 : (0 : ℚ) ≤ (2 : ℚ) ^ (bitLog q.num.natAbs : Int) :=
        le_of_lt (zpow_pos (by norm_num) _)
      calc (2 : ℚ) ^ (bitLog q.num.natAbs : Int) * (q.den : ℚ)
          ≤ (2 : ℚ) ^ (bitLog q.num.natAbs : Int) * (2 : ℚ) ^ ((bitLog q.den : Int) + 1) :=
            mul_le_mul_of_nonneg_left (le_of_lt B2) q1
        _ ≤ (q.num.natAbs : ℚ) * (2 : ℚ) ^ ((bitLog q.den : Int) + 1) :=
            mul_le_mul_of_nonneg_right A1 (le_of_lt p2)
    · have e : (bitLog q.num.natAbs : Int) - (bitLog q.den : Int) - 1 + 1
          = (bitLog q.num.natAbs : Int) - (bitLog q.den : Int) := by ring
      rw [e]
      exact not_le.1 h

/-- Values of the `float` model at known points of IEEE 754 binary32: the first
integers that are not `float`s round to the even neighbour, one tenth rounds to
`13421773 / 2 ^ 27`, half of the least subnormal rounds to 0, and the `float`
next below 2 is a `float`. -/
theorem toFloat_examples :
    toFloat 16777217 = 16777216 ∧ toFloat 16777219 = 16777220 ∧
    toFloat (-16777217) = -16777216 ∧ toFloat (1 / 10) = 13421773 / 134217728 ∧
    toFloat (1 / 2 ^ 150) = 0 ∧ toFloat (3 / 2 ^ 150) = 1 / 2 ^ 148 ∧
    toFloat (2 - 1 / 8388608) = 2 - 1 / 8388608 ∧ toFloat (11 / 2) = 11 / 2 := by
  refine ⟨?_, ?_, ?_, ?_, ?_, ?_, ?_, ?_⟩ <;> decide!

/-- A value that is a whole number of units in its last place is a `float`:
rounding leaves it as it is. -/
theorem toFloat_of_scaled (q : ℚ) (m : Int) (h : q / 2 ^ ulpExponent q = (m : ℚ)) :
    toFloat q = q := by
  unfold toFloat
  rw [h, roundHalfEven_intCast, ← h]
  exact div_mul_cancel₀ _ (zpow_ne_zero _ (by norm_num))

/-- An integer of magnitude at most `2 ^ 24` is a `float`. -/
theorem toFloat_intCast (n : Int) (h : -16777216 ≤ n ∧ n ≤ 16777216) :
    toFloat (n : ℚ) = n := by
  by_cases hlt : n.natAbs < 2 ^ 24
  · have hb := binade_intCast_le n 23 hlt
    have he : ulpExponent (n : ℚ) ≤ 0 := by
      unfold ulpExponent
      omega
    obtain ⟨k, hk⟩ : ∃ k : Nat, ulpExponent (n : ℚ) = -(k : Int) :=
      ⟨(-ulpExponent (n : ℚ)).toNat, by omega⟩
    apply toFloat_of_scaled _ (n * 2 ^ k)
    rw [hk, zpow_neg, zpow_natCast, div_inv_eq_mul]
    push_cast
    rfl
  · have : n = 16777216 ∨ n = -16777216 := by omega
    rcases this with rfl | rfl <;> decide!

/-- Below `2 ^ 24` the `float` computation `int - float` of a step of 0 or 1 is
exact. -/
theorem toInt_float_sub (a b : Int) (ha : -16777216 < a ∧ a < 16777216)
    (hb : 0 ≤ b ∧ b ≤ 1) : toInt (toFloat (toFloat (a : ℚ) - (b : ℚ))) = a - b := by
  rw [toFloat_intCast a (by omega)]
  have : ((a : ℚ) - (b : ℚ)) = ((a - b : Int) : ℚ) := by push_cast; rfl
  rw [this, toFloat_intCast _ (by omega), toInt_intCast]

/-- Below `2 ^ 24` the `float` computation `int + float` of a step of 0 or 1 is
exact. -/
theorem toInt_float_add (a b : Int) (ha : -16777216 < a ∧ a < 16777216)
    (hb : 0 ≤ b ∧ b ≤ 1) : toInt (toFloat (toFloat (a : ℚ) + (b : ℚ))) = a + b := by
  rw [toFloat_intCast a (by omega)]
  have : ((a : ℚ) + (b : ℚ)) = ((a + b : Int) : ℚ) := by push_cast; rfl
  rw [this, toFloat_intCast _ (by omega), toInt_intCast]

/-! ## C3: reading a block of an unloaded column -/

/-- C3. `getBlock` at a world position whose owning column is not in the chunk
store returns the `Air` block; it returns a value (it is a total function here)
and the world, the store included, is as before. -/
theorem getBlock_unloaded_is_air (M : Maths) (w : World) (position : Vector3)
    (h : w.m_chunks.existsAt (M.worldToChunkPos position) = false) :
    World.getBlock M w position = (Block.ID.Air, w) := by
  simp [World.getBlock, h]

/-- Witness for C3: an empty store, any position. -/
theorem getBlock_unloaded_is_air_witness :
    World.getBlock Maths.standard ⟨⟨21, false⟩, [], [], [], 1, ⟨0, 0⟩⟩ ⟨100, 5, 7⟩
      = (Block.ID.Air, ⟨⟨21, false⟩, [], [], [], 1, ⟨0, 0⟩⟩) :=
  getBlock_unloaded_is_air Maths.standard ⟨⟨21, false⟩, [], [], [], 1, ⟨0, 0⟩⟩ ⟨100, 5, 7⟩ rfl

/-! ## C4: an edit in a column that is not loaded -/

/-- An edit at the head of the queue whose column is not in the store: whatever
the fuel, `regenerateChunks` dereferences the null column pointer. -/
theorem regenerateChunks_head_unloaded (M : Maths) (fuel : Nat) (w : World) (e : New_Block)
    (rest : List New_Block) (hq : w.m_newBlocks = e :: rest)
    (hcol : w.m_chunks.get ⟨(M.worldToChunkletPos e.position).x,
      (M.worldToChunkletPos e.position).z⟩ = none) :
    World.regenerateChunks M fuel w = .error .nullDereference := by
  simp [World.regenerateChunks, hq, World.applyNewBlocks, World.applyNewBlock, hcol]

/-- C4 (the code at the failing input). The store holds column (0,0) only; the
queue holds an edit in the unloaded column (5,5) followed by an edit in column
(0,0).  The claim wants the first edit skipped and the second applied; whatever
the fuel, `regenerateChunks` dereferences the null column pointer at the first
edit and returns nothing. -/
theorem regenerateChunks_unloaded_column_faults (fuel : Nat) :
    Maths.standard.worldToChunkletPos ⟨85, 3, 85⟩ = ⟨5, 0, 5⟩ ∧
    Chunk.Map.existsAt [⟨⟨0, 0⟩, [⟨[]⟩], false, true⟩] ⟨5, 5⟩ = false ∧
    World.regenerateChunks Maths.standard fuel
      ⟨⟨21, false⟩, [⟨⟨0, 0⟩, [⟨[]⟩], false, true⟩],
       [⟨⟨1⟩, ⟨85, 3, 85⟩⟩, ⟨⟨1⟩, ⟨5, 3, 5⟩⟩], [], 1, ⟨0, 0⟩⟩
      = .error .nullDereference :=
  ⟨by decide!, by decide,
   regenerateChunks_head_unloaded Maths.standard fuel _ _ _ rfl (by decide!)⟩

/-! ## The chunk store as a finite map -/

namespace Chunk.Map

theorem existsAt_iff_mem_keys (m : Map) (p : Position) :
    m.existsAt p = true ↔ p ∈ m.keys := by
  simp [existsAt, keys]

theorem existsAt_eq_false_iff (m : Map) (p : Position) :
    m.existsAt p = false ↔ p ∉ m.keys := by
  rw [← existsAt_iff_mem_keys]; simp

theorem get_position {m : Map} {p : Position} {c : Full_Chunk} (h : m.get p = some c) :
    c.position = p := by
  have := List.find?_some h
  simpa using this

theorem get_mem {m : Map} {p : Position} {c : Full_Chunk} (h : m.get p = some c) : c ∈ m :=
  List.mem_of_find?_eq_some h

theorem get_eq_none_iff (m : Map) (p : Position) : m.get p = none ↔ p ∉ m.keys := by
  simp [get, keys]

theorem get_isSome_of_mem_keys {m : Map} {p : Position} (h : p ∈ m.keys) :
    ∃ c, m.get p = some c := by
  cases hg : m.get p with
  | none => exact absurd h ((get_eq_none_iff m p).1 hg)
  | some c => exact ⟨c, rfl⟩

theorem keys_put (m : Map) (p : Position) (c : Full_Chunk) (h : c.position = p) :
    (m.put p c).keys = m.keys := by
  induction m with
  | nil => rfl
  | cons d ds ih =>
    simp only [put, keys, List.map_cons] at ih ⊢
    rw [ih]
    by_cases hd : d.position = p
    · simp [hd, h]
    · simp [hd]

theorem get_put_self (m : Map) (p : Position) (c : Full_Chunk) (h : c.position = p)
    (hp : p ∈ m.keys) : (m.put p c).get p = some c := by
  induction m with
  | nil => simp [keys] at hp
  | cons d ds ih =>
    by_cases hd : d.position = p
    · simp [put, get, hd, h]
    · have hp1 : p ∈ keys ds := by
        simp only [keys, List.map_cons, List.mem_cons] at hp
        rcases hp with hp | hp
        · exact absurd hp.symm hd
        · exact hp
      have := ih hp1
      simp only [put, get] at this
      simp [put, get, hd, this]

theorem get_put_other (m : Map) (p q : Position) (c : Full_Chunk) (h : c.position = p)
    (hq : q ≠ p) : (m.put p c).get q = m.get q := by
  induction m with
  | nil => rfl
  | cons d ds ih =>
    have ih1 : get (put ds p c) q = get ds q := ih
    show get ((if d.position = p then c else d) :: put ds p c) q = get (d :: ds) q
    by_cases hd : d.position = p
    · have h1 : ¬ c.position = q := by rw [h]; exact fun e => hq e.symm
      have h2 : ¬ d.position = q := by rw [hd]; exact fun e => hq e.symm
      rw [if_pos hd]
      show List.find? _ (c :: put ds p c) = List.find? _ (d :: ds)
      rw [List.find?_cons_of_neg _ (by simpa using h1), List.find?_cons_of_neg _ (by simpa using h2)]
      exact ih1
    · rw [if_neg hd]
      show List.find? _ (d :: put ds p c) = List.find? _ (d :: ds)
      by_cases hdq : d.position = q
      · rw [List.find?_cons_of_pos _ (by simpa using hdq),
          List.find?_cons_of_pos _ (by simpa using hdq)]
      · rw [List.find?_cons_of_neg _ (by simpa using hdq),
          List.find?_cons_of_neg _ (by simpa using hdq)]
        exact ih1

theorem keys_addChunk_of_mem (m : Map) (p : Position) (h : p ∈ m.keys) :
    m.addChunk p = m := by
  simp [addChunk, (existsAt_iff_mem_keys m p).2 h]

theorem keys_addChunk_of_not_mem (m : Map) (p : Position) (h : p ∉ m.keys) :
    (m.addChunk p).keys = m.keys ++ [p] := by
  simp [addChunk, (existsAt_eq_false_iff m p).2 h, keys]

theorem mem_keys_addChunk (m : Map) (p q : Position) :
    q ∈ (m.addChunk p).keys ↔ q ∈ m.keys ∨ q = p := by
  by_cases h : p ∈ m.keys
  · rw [keys_addChunk_of_mem m p h]
    constructor
    · exact Or.inl
    · rintro (h1 | h1)
      · exact h1
      · exact h1 ▸ h
  · rw [keys_addChunk_of_not_mem m p h]; simp

theorem get_addChunk_other (m : Map) (p q : Position) (hq : q ≠ p) :
    (m.addChunk p).get q = m.get q := by
  unfold addChunk
  split
  · rfl
  · have hne : ¬ p = q := fun e => hq e.symm
    simp [get, List.find?_append, hne]

theorem get_addChunk_self_of_not_mem (m : Map) (p : Position) (h : p ∉ m.keys) :
    (m.addChunk p).get p = some ⟨p, [], false, false⟩ := by
  have h1 : m.get p = none := (get_eq_none_iff m p).2 h
  simp only [get] at h1
  simp [addChunk, (existsAt_eq_false_iff m p).2 h, get, List.find?_append, h1]

theorem flagAt_addChunk (m : Map) (p q : Position) :
    (m.addChunk p).flagAt q = m.flagAt q := by
  by_cases h : p ∈ m.keys
  · rw [keys_addChunk_of_mem m p h]
  · by_cases hq : q = p
    · subst hq
      simp [flagAt, get_addChunk_self_of_not_mem m q h, (get_eq_none_iff m q).2 h]
    · simp [flagAt, get_addChunk_other m p q hq]

theorem flagAt_put (m : Map) (p q : Position) (c : Full_Chunk) (h : c.position = p)
    (hflag : ∀ d, m.get p = some d → c.hasDeleteFlag = d.hasDeleteFlag) :
    (m.put p c).flagAt q = m.flagAt q := by
  by_cases hq : q = p
  · subst hq
    by_cases hm : q ∈ m.keys
    · obtain ⟨d, hd⟩ := get_isSome_of_mem_keys hm
      simp [flagAt, get_put_self m q c h hm, hd, hflag d hd]
    · have h1 : q ∉ (m.put q c).keys := by rw [keys_put m q c h]; exact hm
      simp [flagAt, (get_eq_none_iff m q).2 hm, (get_eq_none_iff _ q).2 h1]
  · simp [flagAt, get_put_other m p q c h hq]

theorem flagAt_of_mem {m : Map} (hwf : m.WF) {c : Full_Chunk} (hc : c ∈ m) :
    m.flagAt c.position = c.hasDeleteFlag := by
  induction m with
  | nil => simp at hc
  | cons d ds ih =>
    simp only [WF, List.map_cons, List.nodup_cons] at hwf
    rcases List.mem_cons.1 hc with rfl | hc1
    · simp [flagAt, get]
    · have hne : ¬ d.position = c.position := by
        intro e
        exact hwf.1 (e ▸ List.mem_map_of_mem _ hc1)
      have := ih hwf.2 hc1
      simp only [flagAt, get] at this
      simp [flagAt, get, hne, this]

end Chunk.Map

/-! ## The scan loops -/

theorem Chunk.Map.get_addChunk_self (m : Chunk.Map) (p : Chunk.Position) :
    ∃ c, (m.addChunk p).get p = some c ∧ c.position = p ∧
      c.hasDeleteFlag = m.flagAt p := by
  by_cases h : p ∈ m.keys
  · obtain ⟨c, hc⟩ := Chunk.Map.get_isSome_of_mem_keys h
    refine ⟨c, ?_, Chunk.Map.get_position hc, ?_⟩
    · rw [Chunk.Map.keys_addChunk_of_mem m p h]; exact hc
    · simp [Chunk.Map.flagAt, hc]
  · refine ⟨_, Chunk.Map.get_addChunk_self_of_not_mem m p h, rfl, ?_⟩
    simp [Chunk.Map.flagAt, (Chunk.Map.get_eq_none_iff m p).2 h]

theorem addChunk_guard (m : Chunk.Map) (p : Chunk.Position) :
    (if !m.existsAt p then m.addChunk p else m) = m.addChunk p := by
  cases h : m.existsAt p
  · simp
  · simp [Chunk.Map.addChunk, h]

theorem scanZ_eq_scanList (tryGen : Generator) (x : Int) (zs : List Int) (st : ScanState) :
    World.scanZ tryGen x zs st
      = .ok (scanList tryGen (zs.map (fun z => (⟨x, z⟩ : Chunk.Position))) st) := by
  induction zs generalizing st with
  | nil => rfl
  | cons z zs ih =>
    obtain ⟨c, hc, -, -⟩ := Chunk.Map.get_addChunk_self st.chunks ⟨x, z⟩
    simp only [World.scanZ, addChunk_guard, hc, List.map_cons, scanList]
    split
    · rfl
    · exact ih _

theorem scanList_append (tryGen : Generator) (ps qs : List Chunk.Position) (st : ScanState)
    (h : st.isMeshMade = false) :
    scanList tryGen (ps ++ qs) st
      = if (scanList tryGen ps st).isMeshMade then scanList tryGen ps st
        else scanList tryGen qs (scanList tryGen ps st) := by
  induction ps generalizing st with
  | nil => simp [scanList, h]
  | cons p ps ih =>
    obtain ⟨c, hc, -, -⟩ := Chunk.Map.get_addChunk_self st.chunks p
    simp only [List.cons_append, scanList, hc]
    split
    · simp
    · exact ih _ h

theorem scanX_eq_scanList (tryGen : Generator) (zs xs : List Int) (st : ScanState)
    (h : st.isMeshMade = false) :
    World.scanX tryGen zs xs st = .ok (scanList tryGen (scanOrder xs zs) st) := by
  induction xs generalizing st with
  | nil => rfl
  | cons x xs ih =>
    simp only [World.scanX, scanZ_eq_scanList, scanOrder, List.flatMap_cons]
    rw [scanList_append tryGen _ _ st h]
    split
    · rfl
    · rename_i hm
      have hm1 : (scanList tryGen (List.map (fun z => (⟨x, z⟩ : Chunk.Position)) zs) st).isMeshMade
          = false := by simpa using hm
      exact ih _ hm1

theorem Chunk.Map.WF_addChunk {m : Chunk.Map} (h : m.WF) (p : Chunk.Position) :
    (m.addChunk p).WF := by
  by_cases hp : p ∈ m.keys
  · rw [Chunk.Map.keys_addChunk_of_mem m p hp]; exact h
  · have hk := Chunk.Map.keys_addChunk_of_not_mem m p hp
    unfold Chunk.Map.WF at h ⊢
    unfold Chunk.Map.keys at hk hp
    rw [hk]
    exact List.Nodup.append h (List.nodup_singleton p) (by simpa using hp)

theorem Chunk.Map.WF_put {m : Chunk.Map} (h : m.WF) (p : Chunk.Position) (c : Chunk.Full_Chunk)
    (hc : c.position = p) : (m.put p c).WF := by
  have hk := Chunk.Map.keys_put m p c hc
  unfold Chunk.Map.WF at h ⊢
  unfold Chunk.Map.keys at hk
  rw [hk]; exact h

/-- The log written by a scan: the columns visited form an initial segment of
the scan order; every visit but the last reported `false`; the last one reported
`true` exactly when the scan stopped early. -/
theorem scanList_calls (tryGen : Generator) (ps : List Chunk.Position) (st : ScanState)
    (h : st.isMeshMade = false) :
    ∃ newCalls rest, ps = newCalls.map Prod.fst ++ rest ∧
      (scanList tryGen ps st).calls = st.calls ++ newCalls ∧
      (((scanList tryGen ps st).isMeshMade = false ∧ rest = [] ∧ ∀ c ∈ newCalls, c.2 = false) ∨
       ((scanList tryGen ps st).isMeshMade = true ∧
          ∃ init p, newCalls = init ++ [(p, true)] ∧ ∀ c ∈ init, c.2 = false)) := by
  induction ps generalizing st with
  | nil => exact ⟨[], [], rfl, by simp [scanList], Or.inl ⟨by simpa [scanList] using h, rfl, by simp⟩⟩
  | cons p ps ih =>
    obtain ⟨c, hc, -, -⟩ := Chunk.Map.get_addChunk_self st.chunks p
    simp only [scanList, hc]
    by_cases hr : (tryGen c).1 = true
    · rw [if_pos hr]
      refine ⟨[(p, true)], ps, rfl, by simp [hr], Or.inr ⟨rfl, [], p, rfl, by simp⟩⟩
    · rw [if_neg hr]
      have hr1 : (tryGen c).1 = false := by simpa using hr
      obtain ⟨nc, rest, h1, h2, h3⟩ := ih
        { chunks := (st.chunks.addChunk p).put p (tryGen c).2
          isMeshMade := st.isMeshMade
          calls := st.calls ++ [(p, (tryGen c).1)] } h
      refine ⟨(p, false) :: nc, rest, by simp [h1], by rw [h2, hr1]; simp, ?_⟩
      rcases h3 with ⟨h4, h5, h6⟩ | ⟨h4, init, q, h5, h6⟩
      · refine Or.inl ⟨h4, h5, ?_⟩
        intro c hc
        rcases List.mem_cons.1 hc with rfl | hc
        · rfl
        · exact h6 c hc
      · refine Or.inr ⟨h4, (p, false) :: init, q, by rw [h5]; rfl, ?_⟩
        intro c hc
        rcases List.mem_cons.1 hc with rfl | hc
        · rfl
        · exact h6 c hc

theorem scanList_calls_extend (tryGen : Generator) (ps : List Chunk.Position) (st : ScanState) :
    ∃ newCalls, (scanList tryGen ps st).calls = st.calls ++ newCalls := by
  induction ps generalizing st with
  | nil => exact ⟨[], by simp [scanList]⟩
  | cons p ps ih =>
    obtain ⟨c, hc, -, -⟩ := Chunk.Map.get_addChunk_self st.chunks p
    simp only [scanList, hc]
    split
    · exact ⟨_, rfl⟩
    · obtain ⟨nc, h⟩ := ih
        { chunks := (st.chunks.addChunk p).put p (tryGen c).2
          isMeshMade := st.isMeshMade
          calls := st.calls ++ [(p, (tryGen c).1)] }
      exact ⟨(p, (tryGen c).1) :: nc, by rw [h]; simp⟩

/-- The store after a scan, for a generator that leaves positions and delete
flags alone: the columns loaded are the old ones and the visited ones, delete
flags are as before, unique keys stay unique. -/
theorem scanList_store (tryGen : Generator) (hf : tryGen.Frame) (ps : List Chunk.Position)
    (st : ScanState) (newCalls : List (Chunk.Position × Bool))
    (hcalls : (scanList tryGen ps st).calls = st.calls ++ newCalls) :
    (∀ q, q ∈ (scanList tryGen ps st).chunks.keys ↔
        q ∈ st.chunks.keys ∨ q ∈ newCalls.map Prod.fst) ∧
    (∀ q, (scanList tryGen ps st).chunks.flagAt q = st.chunks.flagAt q) ∧
    (st.chunks.WF → (scanList tryGen ps st).chunks.WF) := by
  induction ps generalizing st newCalls with
  | nil =>
    have : newCalls = [] := by
      have h1 : st.calls ++ newCalls = st.calls ++ [] := by rw [← hcalls]; simp [scanList]
      exact List.append_cancel_left h1
    subst this
    simp [scanList]
  | cons p ps ih =>
    obtain ⟨c, hc, hcp, hcf⟩ := Chunk.Map.get_addChunk_self st.chunks p
    have hpos : (tryGen c).2.position = p := by rw [(hf c).1, hcp]
    have hkeys : ∀ q, q ∈ ((st.chunks.addChunk p).put p (tryGen c).2).keys ↔
        q ∈ st.chunks.keys ∨ q = p := by
      intro q
      rw [Chunk.Map.keys_put _ p _ hpos, Chunk.Map.mem_keys_addChunk]
    have hflag : ∀ q, ((st.chunks.addChunk p).put p (tryGen c).2).flagAt q
        = st.chunks.flagAt q := by
      intro q
      rw [Chunk.Map.flagAt_put _ p q _ hpos, Chunk.Map.flagAt_addChunk]
      intro d hd
      rw [hc] at hd
      cases hd
      exact (hf c).2
    have hwf : st.chunks.WF → ((st.chunks.addChunk p).put p (tryGen c).2).WF := fun hw =>
      Chunk.Map.WF_put (Chunk.Map.WF_addChunk hw p) p _ hpos
    simp only [scanList, hc] at hcalls ⊢
    by_cases hr : (tryGen c).1 = true
    · rw [if_pos hr] at hcalls ⊢
      have : newCalls = [(p, (tryGen c).1)] := by
        have h1 : st.calls ++ [(p, (tryGen c).1)] = st.calls ++ newCalls := hcalls
        exact (List.append_cancel_left h1).symm
      subst this
      refine ⟨?_, hflag, hwf⟩
      intro q
      simpa using hkeys q
    · rw [if_neg hr] at hcalls ⊢
      obtain ⟨nc, h2⟩ := scanList_calls_extend tryGen ps
        { chunks := (st.chunks.addChunk p).put p (tryGen c).2
          isMeshMade := st.isMeshMade
          calls := st.calls ++ [(p, (tryGen c).1)] }
      have hnew : newCalls = (p, (tryGen c).1) :: nc := by
        have h1 : st.calls ++ newCalls = st.calls ++ ((p, (tryGen c).1) :: nc) := by
          rw [← hcalls, h2]; simp
        exact List.append_cancel_left h1
      obtain ⟨i1, i2, i3⟩ := ih _ nc h2
      subst hnew
      refine ⟨?_, ?_, ?_⟩
      · intro q
        rw [i1 q, hkeys q]
        simp only [List.map_cons, List.mem_cons]
        tauto
      · intro q
        rw [i2 q, hflag q]
      · exact fun hw => i3 (hwf hw)

/-! ## The eviction pass and `buildMeshes` in closed form -/

theorem flagOutOfBounds_eq (cam : Chunk.Position) (ws : Int) (m : Chunk.Map)
    (q : List Chunk.Position) :
    World.flagOutOfBounds (cam.x - ws - 1) (cam.x + ws + 1) (cam.y - ws - 1) (cam.y + ws + 1) m q
      = (m.map (markOutOfBounds cam (ws + 1)), q ++ newlyQueued cam (ws + 1) m) := by
  induction m generalizing q with
  | nil => simp [World.flagOutOfBounds, newlyQueued]
  | cons c cs ih =>
    have hiff : (c.getPosition.x ≤ cam.x - ws - 1 ∨ c.getPosition.x ≥ cam.x + ws + 1 ∨
        c.getPosition.y ≤ cam.y - ws - 1 ∨ c.getPosition.y ≥ cam.y + ws + 1)
          ↔ outOfBounds cam (ws + 1) c.position := by
      unfold outOfBounds Chunk.Full_Chunk.getPosition
      constructor <;> intro h <;> omega
    unfold World.flagOutOfBounds
    by_cases ho : outOfBounds cam (ws + 1) c.position
    · rw [if_pos (hiff.2 ho)]
      cases hflag : c.hasDeleteFlag
      · simp [ih, markOutOfBounds, newlyQueued, ho, hflag, Chunk.Full_Chunk.getPosition]
      · have : ({ c with hasDeleteFlag := true } : Chunk.Full_Chunk) = c := by
          cases c; simp_all
        simp [ih, markOutOfBounds, newlyQueued, ho, hflag, this]
    · rw [if_neg (fun h => ho (hiff.1 h))]
      simp [ih, markOutOfBounds, newlyQueued, ho]

theorem buildMeshes_eq (M : Maths) (tryGen : Generator) (w : World) (camera : Camera) :
    World.buildMeshes M tryGen w camera = .ok
      ((if w.m_worldSettings.isInfiniteTerrain then
          { w with
            m_chunks := (World.scanResult M tryGen w camera).chunks.map
              (markOutOfBounds (M.worldToChunkPos camera.position)
                (w.m_worldSettings.worldSize.tdiv 2 + 1))
            m_deleteChunks := w.m_deleteChunks ++
              newlyQueued (M.worldToChunkPos camera.position)
                (w.m_worldSettings.worldSize.tdiv 2 + 1)
                (World.scanResult M tryGen w camera).chunks
            m_loadingDistance :=
              if (World.scanResult M tryGen w camera).isMeshMade then World.resetLoadingDistance w
              else World.resetLoadingDistance w + 1
            m_cameraPosition := M.worldToChunkPos camera.position }
        else
          { w with
            m_chunks := (World.scanResult M tryGen w camera).chunks
            m_loadingDistance :=
              if (World.scanResult M tryGen w camera).isMeshMade then World.resetLoadingDistance w
              else World.resetLoadingDistance w + 1
            m_cameraPosition := M.worldToChunkPos camera.position }),
       (World.scanResult M tryGen w camera).calls) := by
  have hscan : World.scanX tryGen
      (loopRange
        (World.scanBounds w.m_worldSettings (M.worldToChunkPos camera.position)
          (World.resetLoadingDistance w)).2.2.1
        (World.scanBounds w.m_worldSettings (M.worldToChunkPos camera.position)
          (World.resetLoadingDistance w)).2.2.2)
      (loopRange
        (World.scanBounds w.m_worldSettings (M.worldToChunkPos camera.position)
          (World.resetLoadingDistance w)).1
        (World.scanBounds w.m_worldSettings (M.worldToChunkPos camera.position)
          (World.resetLoadingDistance w)).2.1)
      { chunks := w.m_chunks, isMeshMade := false, calls := [] }
      = .ok (World.scanResult M tryGen w camera) :=
    scanX_eq_scanList tryGen _ _ _ rfl
  unfold World.buildMeshes
  simp only [hscan]
  cases hinf : w.m_worldSettings.isInfiniteTerrain
  · cases hm : (World.scanResult M tryGen w camera).isMeshMade <;> simp
  · rw [flagOutOfBounds_eq]
    cases hm : (World.scanResult M tryGen w camera).isMeshMade <;> simp

theorem mem_loopRange (lo hi x : Int) : x ∈ loopRange lo hi ↔ lo ≤ x ∧ x < hi := by
  unfold loopRange
  simp only [List.mem_map, List.mem_range]
  constructor
  · rintro ⟨i, hi1, rfl⟩
    omega
  · rintro ⟨h1, h2⟩
    refine ⟨(x - lo).toNat, by omega, by omega⟩

theorem nodup_loopRange (lo hi : Int) : (loopRange lo hi).Nodup := by
  unfold loopRange
  refine List.Nodup.map ?_ (List.nodup_range _)
  intro a b h
  have h1 : lo + (a : Int) = lo + (b : Int) := h
  omega

theorem mem_scanOrder (xs zs : List Int) (p : Chunk.Position) :
    p ∈ scanOrder xs zs ↔ p.x ∈ xs ∧ p.y ∈ zs := by
  unfold scanOrder
  simp only [List.mem_flatMap, List.mem_map]
  constructor
  · rintro ⟨x, hx, z, hz, rfl⟩
    exact ⟨hx, hz⟩
  · rintro ⟨hx, hz⟩
    exact ⟨p.x, hx, p.y, hz, rfl⟩

theorem nodup_scanOrder (xs zs : List Int) (hx : xs.Nodup) (hz : zs.Nodup) :
    (scanOrder xs zs).Nodup := by
  induction xs with
  | nil => simp [scanOrder]
  | cons x xs ih =>
    have hx' := List.nodup_cons.1 hx
    have hrow : (zs.map (fun z => (⟨x, z⟩ : Chunk.Position))).Nodup := by
      refine List.Nodup.map ?_ hz
      intro a b h
      simpa using h
    have : scanOrder (x :: xs) zs
        = zs.map (fun z => (⟨x, z⟩ : Chunk.Position)) ++ scanOrder xs zs := by
      simp [scanOrder]
    rw [this]
    refine List.Nodup.append hrow (ih hx'.2) ?_
    intro p hp1 hp2
    have h1 : p.x = x := by
      obtain ⟨z, -, rfl⟩ := List.mem_map.1 hp1
      rfl
    have h2 := ((mem_scanOrder xs zs p).1 hp2).1
    exact hx'.1 (h1 ▸ h2)

theorem mem_scanWindow (M : Maths) (w : World) (camera : Camera) (p : Chunk.Position) :
    p ∈ World.scanWindow M w camera ↔
      (World.scanBounds w.m_worldSettings (M.worldToChunkPos camera.position)
          (World.resetLoadingDistance w)).1 ≤ p.x ∧
      p.x < (World.scanBounds w.m_worldSettings (M.worldToChunkPos camera.position)
          (World.resetLoadingDistance w)).2.1 ∧
      (World.scanBounds w.m_worldSettings (M.worldToChunkPos camera.position)
          (World.resetLoadingDistance w)).2.2.1 ≤ p.y ∧
      p.y < (World.scanBounds w.m_worldSettings (M.worldToChunkPos camera.position)
          (World.resetLoadingDistance w)).2.2.2 := by
  unfold World.scanWindow
  simp only [mem_scanOrder, mem_loopRange]
  tauto

theorem nodup_scanWindow (M : Maths) (w : World) (camera : Camera) :
    (World.scanWindow M w camera).Nodup :=
  nodup_scanOrder _ _ (nodup_loopRange _ _) (nodup_loopRange _ _)

theorem markOutOfBounds_position (cam : Chunk.Position) (h : Int) (c : Chunk.Full_Chunk) :
    (markOutOfBounds cam h c).position = c.position := by
  unfold markOutOfBounds; split <;> rfl

theorem keys_map_markOutOfBounds (cam : Chunk.Position) (h : Int) (m : Chunk.Map) :
    Chunk.Map.keys (m.map (markOutOfBounds cam h)) = m.keys := by
  simp [Chunk.Map.keys, Function.comp_def, markOutOfBounds_position]

theorem get_map_markOutOfBounds (cam : Chunk.Position) (h : Int) (m : Chunk.Map)
    (p : Chunk.Position) :
    Chunk.Map.get (m.map (markOutOfBounds cam h)) p
      = (m.get p).map (markOutOfBounds cam h) := by
  induction m with
  | nil => rfl
  | cons c cs ih =>
    show List.find? _ (markOutOfBounds cam h c :: cs.map (markOutOfBounds cam h)) = _
    by_cases hc : c.position = p
    · have h1 : (markOutOfBounds cam h c).position = p := by
        rw [markOutOfBounds_position]; exact hc
      rw [List.find?_cons_of_pos _ (by simpa using h1)]
      show _ = Option.map _ (List.find? _ (c :: cs))
      rw [List.find?_cons_of_pos _ (by simpa using hc)]
      rfl
    · have h1 : ¬ (markOutOfBounds cam h c).position = p := by
        rw [markOutOfBounds_position]; exact hc
      rw [List.find?_cons_of_neg _ (by simpa using h1)]
      show _ = Option.map _ (List.find? _ (c :: cs))
      rw [List.find?_cons_of_neg _ (by simpa using hc)]
      exact ih

theorem flagAt_map_markOutOfBounds (cam : Chunk.Position) (h : Int) (m : Chunk.Map)
    (p : Chunk.Position) (hp : p ∈ m.keys) :
    Chunk.Map.flagAt (m.map (markOutOfBounds cam h)) p
      = (m.flagAt p || decide (outOfBounds cam h p)) := by
  obtain ⟨c, hc⟩ := Chunk.Map.get_isSome_of_mem_keys hp
  have hcp := Chunk.Map.get_position hc
  unfold Chunk.Map.flagAt
  rw [get_map_markOutOfBounds, hc]
  simp only [Option.map_some', markOutOfBounds, hcp]
  by_cases ho : outOfBounds cam h p
  · simp [ho]
  · simp [ho]

theorem mem_newlyQueued (cam : Chunk.Position) (h : Int) (m : Chunk.Map) (p : Chunk.Position) :
    p ∈ newlyQueued cam h m ↔
      ∃ c ∈ m, c.position = p ∧ outOfBounds cam h p ∧ c.hasDeleteFlag = false := by
  unfold newlyQueued
  simp only [List.mem_map, List.mem_filter, Bool.and_eq_true, decide_eq_true_eq,
    Bool.not_eq_true']
  constructor
  · rintro ⟨c, ⟨hc, ho, hfl⟩, rfl⟩
    exact ⟨c, hc, rfl, ho, hfl⟩
  · rintro ⟨c, hc, rfl, ho, hfl⟩
    exact ⟨c, ⟨hc, ho, hfl⟩, rfl⟩

theorem mem_newlyQueued_of_flagAt (cam : Chunk.Position) (h : Int) (m : Chunk.Map)
    (p : Chunk.Position) (hp : p ∈ m.keys) (ho : outOfBounds cam h p)
    (hfl : m.flagAt p = false) : p ∈ newlyQueued cam h m := by
  obtain ⟨c, hc⟩ := Chunk.Map.get_isSome_of_mem_keys hp
  refine (mem_newlyQueued cam h m p).2 ⟨c, Chunk.Map.get_mem hc, Chunk.Map.get_position hc, ho, ?_⟩
  simpa [Chunk.Map.flagAt, hc] using hfl

theorem scanResult_calls (M : Maths) (tryGen : Generator) (w : World) (camera : Camera) :
    ∃ rest, World.scanWindow M w camera
        = (World.scanResult M tryGen w camera).calls.map Prod.fst ++ rest ∧
      (((World.scanResult M tryGen w camera).isMeshMade = false ∧ rest = [] ∧
          ∀ c ∈ (World.scanResult M tryGen w camera).calls, c.2 = false) ∨
       ((World.scanResult M tryGen w camera).isMeshMade = true ∧
          ∃ init p, (World.scanResult M tryGen w camera).calls = init ++ [(p, true)] ∧
            ∀ c ∈ init, c.2 = false)) := by
  obtain ⟨nc, rest, h1, h2, h3⟩ := scanList_calls tryGen (World.scanWindow M w camera)
    { chunks := w.m_chunks, isMeshMade := false, calls := [] } rfl
  have h2' : (World.scanResult M tryGen w camera).calls = nc := by
    simpa [World.scanResult] using h2
  rw [h2']
  exact ⟨rest, h1, h3⟩

theorem scanResult_store (M : Maths) (tryGen : Generator) (hf : tryGen.Frame) (w : World)
    (camera : Camera) :
    (∀ q, q ∈ (World.scanResult M tryGen w camera).chunks.keys ↔
        q ∈ w.m_chunks.keys ∨ q ∈ (World.scanResult M tryGen w camera).calls.map Prod.fst) ∧
    (∀ q, (World.scanResult M tryGen w camera).chunks.flagAt q = w.m_chunks.flagAt q) ∧
    (w.m_chunks.WF → (World.scanResult M tryGen w camera).chunks.WF) :=
  scanList_store tryGen hf (World.scanWindow M w camera)
    { chunks := w.m_chunks, isMeshMade := false, calls := [] } _ (by simp [World.scanResult])

theorem Generator.standard_frame : Generator.standard.Frame := by
  intro c
  unfold Generator.standard
  split <;> exact ⟨rfl, rfl⟩

/-! ## C7: the eviction boundary -/

/-- C8 as stated fails. Bounded world, `worldSize` 1, `m_loadingDistance` 2 and
nothing left to generate: growing the distance takes it above
`worldSize / 2 + 1 = 1`, yet the head test `2 == 1` does not reset it and the
iteration ends with distance 3. -/
theorem loadingDistance_reset_counterexample :
    ∃ r, World.buildMeshes Maths.standard (fun c => (false, c))
        ⟨⟨1, false⟩, [], [], [], 2, ⟨0, 0⟩⟩ ⟨⟨0, 0, 0⟩⟩ = .ok r ∧
      (∀ c ∈ r.2, c.2 = false) ∧
      Int.tdiv 1 2 + 1 < (2 : Int) + 1 ∧
      World.resetLoadingDistance ⟨⟨1, false⟩, [], [], [], 2, ⟨0, 0⟩⟩ = 2 ∧
      r.1.m_loadingDistance = 3 := by
  refine ⟨_, buildMeshes_eq _ _ _ _, ?_, ?_, ?_, ?_⟩ <;> decide!

/-- C8, amended. From a state with `1 ≤ m_loadingDistance ≤ worldSize / 2 + 1`,
one scheduler iteration returns and: the distance is larger afterwards only if
no `tryGen` of the scan returned `true`, and is then larger by exactly 1; the
head test resets the distance to 1 exactly when growing it would exceed
`worldSize / 2 + 1` and leaves it alone otherwise; the distance afterwards is
the one in force for the scan, plus 1 when no `tryGen` returned `true`. -/
theorem loadingDistance_step (M : Maths) (tryGen : Generator) (w : World) (camera : Camera)
    (h1 : 1 ≤ w.m_loadingDistance)
    (h2 : w.m_loadingDistance ≤ w.m_worldSettings.worldSize.tdiv 2 + 1) :
    ∃ w1 calls, World.buildMeshes M tryGen w camera = .ok (w1, calls) ∧
      (w.m_loadingDistance < w1.m_loadingDistance →
        (∀ c ∈ calls, c.2 = false) ∧ w1.m_loadingDistance = w.m_loadingDistance + 1) ∧
      (w.m_worldSettings.worldSize.tdiv 2 + 1 < w.m_loadingDistance + 1 →
        World.resetLoadingDistance w = 1) ∧
      (w.m_loadingDistance + 1 ≤ w.m_worldSettings.worldSize.tdiv 2 + 1 →
        World.resetLoadingDistance w = w.m_loadingDistance) ∧
      ((∀ c ∈ calls, c.2 = false) →
        w1.m_loadingDistance = World.resetLoadingDistance w + 1) ∧
      ((∃ c ∈ calls, c.2 = true) →
        w1.m_loadingDistance = World.resetLoadingDistance w) := by
  obtain ⟨rest, -, hcalls⟩ := scanResult_calls M tryGen w camera
  have hld : ∀ w1 : World, ∀ calls, World.buildMeshes M tryGen w camera = .ok (w1, calls) →
      w1.m_loadingDistance =
        (if (World.scanResult M tryGen w camera).isMeshMade then World.resetLoadingDistance w
         else World.resetLoadingDistance w + 1) ∧
      calls = (World.scanResult M tryGen w camera).calls := by
    intro w1 calls h
    rw [buildMeshes_eq] at h
    have h' := Except.ok.inj h
    have ha := congrArg (fun r => r.1.m_loadingDistance) h'
    have hb := congrArg (fun r => r.2) h'
    simp only [] at ha hb
    refine ⟨?_, hb.symm⟩
    rw [← ha]
    split <;> rfl
  obtain ⟨ha, hb⟩ := hld _ _ (buildMeshes_eq M tryGen w camera)
  have hreset1 : w.m_worldSettings.worldSize.tdiv 2 + 1 < w.m_loadingDistance + 1 →
      World.resetLoadingDistance w = 1 := by
    intro h
    have : w.m_loadingDistance = w.m_worldSettings.worldSize.tdiv 2 + 1 := by omega
    simp [World.resetLoadingDistance, this]
  have hreset2 : w.m_loadingDistance + 1 ≤ w.m_worldSettings.worldSize.tdiv 2 + 1 →
      World.resetLoadingDistance w = w.m_loadingDistance := by
    intro h
    have : ¬ w.m_loadingDistance = w.m_worldSettings.worldSize.tdiv 2 + 1 := by omega
    simp [World.resetLoadingDistance, this]
  have hle : World.resetLoadingDistance w ≤ w.m_loadingDistance := by
    unfold World.resetLoadingDistance
    split <;> omega
  refine ⟨_, _, buildMeshes_eq M tryGen w camera, ?_, hreset1, hreset2, ?_, ?_⟩
  · intro hlt
    rw [ha] at hlt ⊢
    rcases hcalls with ⟨hm, -, hall⟩ | ⟨hm, -⟩
    · rw [hm] at hlt ⊢
      simp only [Bool.false_eq_true, if_false] at hlt ⊢
      refine ⟨by rw [hb]; exact hall, ?_⟩
      omega
    · rw [hm] at hlt
      simp only [if_true] at hlt
      omega
  · intro hall
    rw [ha]
    rcases hcalls with ⟨hm, -, -⟩ | ⟨hm, init, p, hc, -⟩
    · simp [hm]
    · have := hall (p, true) (by rw [hb, hc]; simp)
      simp at this
  · rintro ⟨c, hc, hct⟩
    rw [ha]
    rcases hcalls with ⟨hm, -, hall⟩ | ⟨hm, -⟩
    · have := hall c (by rw [← hb]; exact hc)
      rw [this] at hct
      cases hct
    · simp [hm]

/-- Witness for C8 (amended): bounded world of size 21 at distance 3. -/
theorem loadingDistance_step_witness :
    ∃ w1 calls, World.buildMeshes Maths.standard Generator.standard
        ⟨⟨21, false⟩, [], [], [], 3, ⟨0, 0⟩⟩ ⟨⟨160, 0, 160⟩⟩ = .ok (w1, calls) ∧
      (3 < w1.m_loadingDistance →
        (∀ c ∈ calls, c.2 = false) ∧ w1.m_loadingDistance = 3 + 1) := by
  obtain ⟨w1, calls, h, h3, -⟩ := loadingDistance_step Maths.standard Generator.standard
    ⟨⟨21, false⟩, [], [], [], 3, ⟨0, 0⟩⟩ ⟨⟨160, 0, 160⟩⟩ (by decide) (by decide)
  exact ⟨w1, calls, h, h3⟩

/-! ## C9: the scan window -/

/-- C9. With `r` the loading distance in force for the scan (the stored one,
unless the head test has just reset it to 1) and `cam` the camera column: the
scan window holds exactly the columns with `x`, `z` in
`[worldSize/2 - r, worldSize/2 + r)` on a bounded world, whatever the camera,
and in `[cam - r, cam + r)` on an infinite-terrain world.  The iteration returns
and visits only columns of the window; if no `tryGen` returned `true`, every
column of the window was visited, is in the store afterwards, and the loading
distance afterwards is `r + 1`. -/
theorem scan_window (M : Maths) (tryGen : Generator) (hf : tryGen.Frame) (w : World)
    (camera : Camera) :
    (w.m_loadingDistance ≠ w.m_worldSettings.worldSize.tdiv 2 + 1 →
      World.resetLoadingDistance w = w.m_loadingDistance) ∧
    (w.m_worldSettings.isInfiniteTerrain = false →
      ∀ p, p ∈ World.scanWindow M w camera ↔
        (w.m_worldSettings.worldSize.tdiv 2 - World.resetLoadingDistance w ≤ p.x ∧
          p.x < w.m_worldSettings.worldSize.tdiv 2 + World.resetLoadingDistance w) ∧
        (w.m_worldSettings.worldSize.tdiv 2 - World.resetLoadingDistance w ≤ p.y ∧
          p.y < w.m_worldSettings.worldSize.tdiv 2 + World.resetLoadingDistance w)) ∧
    (w.m_worldSettings.isInfiniteTerrain = true →
      ∀ p, p ∈ World.scanWindow M w camera ↔
        ((M.worldToChunkPos camera.position).x - World.resetLoadingDistance w ≤ p.x ∧
          p.x < (M.worldToChunkPos camera.position).x + World.resetLoadingDistance w) ∧
        ((M.worldToChunkPos camera.position).y - World.resetLoadingDistance w ≤ p.y ∧
          p.y < (M.worldToChunkPos camera.position).y + World.resetLoadingDistance w)) ∧
    ∃ w1 calls, World.buildMeshes M tryGen w camera = .ok (w1, calls) ∧
      (∀ c ∈ calls, c.1 ∈ World.scanWindow M w camera) ∧
      ((∀ c ∈ calls, c.2 = false) →
        (∀ p ∈ World.scanWindow M w camera,
          p ∈ calls.map Prod.fst ∧ w1.m_chunks.existsAt p = true) ∧
        w1.m_loadingDistance = World.resetLoadingDistance w + 1) := by
  obtain ⟨rest, hwin, hcalls⟩ := scanResult_calls M tryGen w camera
  obtain ⟨hkeys, -, -⟩ := scanResult_store M tryGen hf w camera
  refine ⟨?_, ?_, ?_, _, _, buildMeshes_eq M tryGen w camera, ?_, ?_⟩
  · intro h
    simp [World.resetLoadingDistance, h]
  · intro hinf p
    rw [mem_scanWindow]
    simp only [World.scanBounds, hinf]
    constructor
    · rintro ⟨a, b, c, d⟩
      exact ⟨⟨a, b⟩, c, d⟩
    · rintro ⟨⟨a, b⟩, c, d⟩
      exact ⟨a, b, c, d⟩
  · intro hinf p
    rw [mem_scanWindow]
    simp only [World.scanBounds, hinf]
    constructor
    · rintro ⟨a, b, c, d⟩
      exact ⟨⟨a, b⟩, c, d⟩
    · rintro ⟨⟨a, b⟩, c, d⟩
      exact ⟨a, b, c, d⟩
  · intro c hc
    rw [hwin]
    exact List.mem_append_left _ (List.mem_map_of_mem Prod.fst hc)
  · intro hall
    rcases hcalls with ⟨hm, hrest, -⟩ | ⟨-, init, p, hc, -⟩
    · subst hrest
      rw [List.append_nil] at hwin
      refine ⟨fun p hp => ?_, ?_⟩
      · have hp1 : p ∈ (World.scanResult M tryGen w camera).calls.map Prod.fst := hwin ▸ hp
        refine ⟨hp1, ?_⟩
        rw [Chunk.Map.existsAt_iff_mem_keys]
        have hk : p ∈ (World.scanResult M tryGen w camera).chunks.keys :=
          (hkeys p).2 (Or.inr hp1)
        cases hinf : w.m_worldSettings.isInfiniteTerrain
        · simpa [hinf] using hk
        · simp only [hinf, if_true]
          rw [keys_map_markOutOfBounds]
          exact hk
      · cases hinf : w.m_worldSettings.isInfiniteTerrain <;> simp [hinf, hm]
    · have := hall (p, true) (by rw [hc]; simp)
      simp at this

/-- Witness for C9: the scenario of the specification, a bounded world of size
21 at loading distance 3 with the camera in column (10,10). -/
theorem scan_window_witness :
    (∀ p, p ∈ World.scanWindow Maths.standard ⟨⟨21, false⟩, [], [], [], 3, ⟨0, 0⟩⟩
        ⟨⟨160, 0, 160⟩⟩ ↔ ((7 ≤ p.x ∧ p.x < 13) ∧ (7 ≤ p.y ∧ p.y < 13))) ∧
    ∃ w1 calls, World.buildMeshes Maths.standard (fun c => (false, c))
        ⟨⟨21, false⟩, [], [], [], 3, ⟨0, 0⟩⟩ ⟨⟨160, 0, 160⟩⟩ = .ok (w1, calls) ∧
      (∀ c ∈ calls, c.2 = false) ∧ calls.length = 36 ∧ w1.m_loadingDistance = 4 := by
  obtain ⟨-, h2, -, -⟩ := scan_window Maths.standard Generator.standard
    Generator.standard_frame ⟨⟨21, false⟩, [], [], [], 3, ⟨0, 0⟩⟩ ⟨⟨160, 0, 160⟩⟩
  obtain ⟨-, -, -, w1, calls, h4, -, h6⟩ := scan_window Maths.standard (fun c => (false, c))
    (fun c => ⟨rfl, rfl⟩) ⟨⟨21, false⟩, [], [], [], 3, ⟨0, 0⟩⟩ ⟨⟨160, 0, 160⟩⟩
  have he := buildMeshes_eq Maths.standard (fun c => (false, c))
    ⟨⟨21, false⟩, [], [], [], 3, ⟨0, 0⟩⟩ ⟨⟨160, 0, 160⟩⟩
  rw [h4] at he
  have hcalls := congrArg (fun r => r.2) (Except.ok.inj he)
  simp only [] at hcalls
  have hall : ∀ c ∈ calls, c.2 = false := by
    rw [hcalls]; decide!
  have hlen : calls.length = 36 := by
    rw [hcalls]; decide!
  refine ⟨fun p => ?_, w1, calls, h4, hall, hlen, ?_⟩
  · have := h2 rfl p
    have hr : World.resetLoadingDistance ⟨⟨21, false⟩, [], [], [], 3, ⟨0, 0⟩⟩ = 3 := by decide
    have hh : ((21 : Int).tdiv 2) = 10 := by decide
    simp only [hr, hh] at this
    rw [this]
    constructor <;> intro h <;> omega
  · have := (h6 hall).2
    have hr : World.resetLoadingDistance ⟨⟨21, false⟩, [], [], [], 3, ⟨0, 0⟩⟩ = 3 := by decide
    rw [this, hr]
    rfl

/-! ## C10: one successful generation per iteration -/

/-- C10. One scheduler iteration returns; the columns on which `tryGen` was
called, in call order, are an initial segment of the scan window in row-major
order (`x` outer, `z` inner), `rest` being the columns not reached.  Every call
but the last returned `false`, so at most one call returned `true` and the scan
stopped right after it; no column of `rest` had `tryGen` called on it or was
inserted into the store; and `rest` is empty when no call returned `true`. -/
theorem one_generation_per_iteration (M : Maths) (tryGen : Generator) (hf : tryGen.Frame)
    (w : World) (camera : Camera) :
    ∃ w1 calls rest, World.buildMeshes M tryGen w camera = .ok (w1, calls) ∧
      World.scanWindow M w camera = calls.map Prod.fst ++ rest ∧
      (∀ init last, calls = init ++ [last] → ∀ c ∈ init, c.2 = false) ∧
      (calls.filter (fun c => c.2)).length ≤ 1 ∧
      (∀ p ∈ rest, p ∉ calls.map Prod.fst ∧
        w1.m_chunks.existsAt p = w.m_chunks.existsAt p) ∧
      ((∀ c ∈ calls, c.2 = false) → rest = []) := by
  obtain ⟨rest, hwin, hcalls⟩ := scanResult_calls M tryGen w camera
  obtain ⟨hkeys, -, -⟩ := scanResult_store M tryGen hf w camera
  have hnd := nodup_scanWindow M w camera
  rw [hwin] at hnd
  have hdisj : ∀ p ∈ rest, p ∉ (World.scanResult M tryGen w camera).calls.map Prod.fst :=
    fun p hp hc => (List.nodup_append.1 hnd).2.2 hc hp
  refine ⟨_, _, rest, buildMeshes_eq M tryGen w camera, hwin, ?_, ?_, ?_, ?_⟩
  · intro init last hc c hci
    rcases hcalls with ⟨-, -, hall⟩ | ⟨-, init1, p, hc1, hall⟩
    · exact hall c (by rw [hc]; exact List.mem_append_left _ hci)
    · rw [hc] at hc1
      have := List.append_inj' hc1 rfl
      exact hall c (this.1 ▸ hci)
  · rcases hcalls with ⟨-, -, hall⟩ | ⟨-, init, p, hc, hall⟩
    · have : (World.scanResult M tryGen w camera).calls.filter (fun c => c.2) = [] := by
        rw [List.filter_eq_nil_iff]
        intro c hc
        simp [hall c hc]
      simp [this]
    · have : init.filter (fun c => c.2) = [] := by
        rw [List.filter_eq_nil_iff]
        intro c hc
        simp [hall c hc]
      rw [hc, List.filter_append, this]
      simp
  · intro p hp
    refine ⟨hdisj p hp, ?_⟩
    have hiff : p ∈ (World.scanResult M tryGen w camera).chunks.keys ↔ p ∈ w.m_chunks.keys := by
      rw [hkeys p]
      constructor
      · rintro (h | h)
        · exact h
        · exact absurd h (hdisj p hp)
      · exact Or.inl
    have hk : ∀ m : Chunk.Map, (m.keys = (World.scanResult M tryGen w camera).chunks.keys) →
        m.existsAt p = w.m_chunks.existsAt p := by
      intro m hm
      rw [Bool.eq_iff_iff, Chunk.Map.existsAt_iff_mem_keys, Chunk.Map.existsAt_iff_mem_keys,
        hm, hiff]
    cases hinf : w.m_worldSettings.isInfiniteTerrain
    · simpa [hinf] using hk _ rfl
    · simp only [hinf, if_true]
      exact hk _ (keys_map_markOutOfBounds _ _ _)
  · intro hall
    rcases hcalls with ⟨-, hrest, -⟩ | ⟨-, init, p, hc, -⟩
    · exact hrest
    · have := hall (p, true) (by rw [hc]; simp)
      simp at this

/-- Witness for C10: a fresh bounded world of size 21 at loading distance 3; the
first column of the window, (7,7), is inserted and generated and the scan stops
there. -/
theorem one_generation_per_iteration_witness :
    ∃ w1 calls rest, World.buildMeshes Maths.standard Generator.standard
        ⟨⟨21, false⟩, [], [], [], 3, ⟨0, 0⟩⟩ ⟨⟨160, 0, 160⟩⟩ = .ok (w1, calls) ∧
      World.scanWindow Maths.standard ⟨⟨21, false⟩, [], [], [], 3, ⟨0, 0⟩⟩ ⟨⟨160, 0, 160⟩⟩
        = calls.map Prod.fst ++ rest ∧
      calls = [(⟨7, 7⟩, true)] ∧
      (∀ p ∈ rest, w1.m_chunks.existsAt p = false) := by
  obtain ⟨w1, calls, rest, h1, h2, -, -, h5, -⟩ := one_generation_per_iteration Maths.standard
    Generator.standard Generator.standard_frame ⟨⟨21, false⟩, [], [], [], 3, ⟨0, 0⟩⟩
    ⟨⟨160, 0, 160⟩⟩
  have he := buildMeshes_eq Maths.standard Generator.standard
    ⟨⟨21, false⟩, [], [], [], 3, ⟨0, 0⟩⟩ ⟨⟨160, 0, 160⟩⟩
  rw [h1] at he
  have hcalls := congrArg (fun r => r.2) (Except.ok.inj he)
  simp only [] at hcalls
  refine ⟨w1, calls, rest, h1, h2, ?_, fun p hp => ?_⟩
  · rw [hcalls]; decide!
  · rw [(h5 p hp).2]; rfl

/-! ## C6: delete flagging is idempotent -/

theorem nodup_newlyQueued (cam : Chunk.Position) (h : Int) (m : Chunk.Map) (hwf : m.WF) :
    (newlyQueued cam h m).Nodup := by
  unfold newlyQueued
  exact List.Nodup.sublist (List.Sublist.map _ (List.filter_sublist _)) hwf

/-- One iteration on an infinite-terrain world keeps `DeleteInv`, only appends
to the queue, keeps the loaded columns loaded, and leaves every loaded
out-of-bounds column in the queue. -/
theorem buildMeshes_deleteInv (M : Maths) (tryGen : Generator) (hf : tryGen.Frame) (w : World)
    (camera : Camera) (hinf : w.m_worldSettings.isInfiniteTerrain = true) (hinv : DeleteInv w) :
    ∃ w1 calls, World.buildMeshes M tryGen w camera = .ok (w1, calls) ∧
      DeleteInv w1 ∧ w1.m_worldSettings = w.m_worldSettings ∧
      (∃ added, w1.m_deleteChunks = w.m_deleteChunks ++ added) ∧
      (∀ p, w.m_chunks.existsAt p = true → w1.m_chunks.existsAt p = true) ∧
      (∀ p, w1.m_chunks.existsAt p = true →
        outOfBounds (M.worldToChunkPos camera.position)
          (w.m_worldSettings.worldSize.tdiv 2 + 1) p → p ∈ w1.m_deleteChunks) := by
  obtain ⟨hwf, hnd, hiff⟩ := hinv
  obtain ⟨hkeys, hflag, hwf1⟩ := scanResult_store M tryGen hf w camera
  have hwfs := hwf1 hwf
  refine ⟨_, _, buildMeshes_eq M tryGen w camera, ?_, ?_, ?_, ?_, ?_⟩
  · simp only [hinf, if_true]
    refine ⟨?_, ?_, ?_⟩
    · show (List.map Chunk.Full_Chunk.position _).Nodup
      have := keys_map_markOutOfBounds (M.worldToChunkPos camera.position)
        (w.m_worldSettings.worldSize.tdiv 2 + 1) (World.scanResult M tryGen w camera).chunks
      unfold Chunk.Map.keys at this
      rw [this]
      exact hwfs
    · refine List.Nodup.append hnd (nodup_newlyQueued _ _ _ hwfs) ?_
      intro p hp1 hp2
      obtain ⟨c, hc, hcp, -, hcf⟩ := (mem_newlyQueued _ _ _ p).1 hp2
      have h1 := Chunk.Map.flagAt_of_mem hwfs hc
      rw [hcp, hflag p, hcf] at h1
      have h2 := (hiff p).1 hp1
      rw [h1] at h2
      cases h2
    · intro p
      show p ∈ w.m_deleteChunks ++ newlyQueued _ _ _ ↔ _
      by_cases hp : p ∈ (World.scanResult M tryGen w camera).chunks.keys
      · rw [flagAt_map_markOutOfBounds _ _ _ _ hp, hflag p, List.mem_append, hiff p]
        constructor
        · rintro (h | h)
          · simp [h]
          · obtain ⟨c, -, -, ho, -⟩ := (mem_newlyQueued _ _ _ p).1 h
            simp [ho]
        · intro h
          cases hfl : w.m_chunks.flagAt p
          · right
            rw [hfl] at h
            have ho : outOfBounds (M.worldToChunkPos camera.position)
                (w.m_worldSettings.worldSize.tdiv 2 + 1) p := by simpa using h
            exact mem_newlyQueued_of_flagAt _ _ _ p hp ho (by rw [hflag p]; exact hfl)
          · exact Or.inl rfl
      · have hnone : Chunk.Map.flagAt
            ((World.scanResult M tryGen w camera).chunks.map
              (markOutOfBounds (M.worldToChunkPos camera.position)
                (w.m_worldSettings.worldSize.tdiv 2 + 1))) p = false := by
          have hp1 : p ∉ Chunk.Map.keys ((World.scanResult M tryGen w camera).chunks.map
              (markOutOfBounds (M.worldToChunkPos camera.position)
                (w.m_worldSettings.worldSize.tdiv 2 + 1))) := by
            rw [keys_map_markOutOfBounds]; exact hp
          simp [Chunk.Map.flagAt, (Chunk.Map.get_eq_none_iff _ p).2 hp1]
        rw [hnone]
        constructor
        · intro h
          exfalso
          rcases List.mem_append.1 h with h | h
          · have h1 := (hiff p).1 h
            have h2 : w.m_chunks.flagAt p = false := by
              rw [← hflag p]
              simp [Chunk.Map.flagAt, (Chunk.Map.get_eq_none_iff _ p).2 hp]
            rw [h2] at h1
            cases h1
          · obtain ⟨c, hc, hcp, -, -⟩ := (mem_newlyQueued _ _ _ p).1 h
            exact hp (hcp ▸ List.mem_map_of_mem _ hc)
        · intro h
          cases h
  · simp only [hinf, if_true]
  · simp only [hinf, if_true]
    exact ⟨_, rfl⟩
  · intro p hp
    simp only [hinf, if_true]
    rw [Chunk.Map.existsAt_iff_mem_keys] at hp ⊢
    rw [keys_map_markOutOfBounds]
    exact (hkeys p).2 (Or.inl hp)
  · intro p hp ho
    simp only [hinf, if_true] at hp ⊢
    rw [Chunk.Map.existsAt_iff_mem_keys, keys_map_markOutOfBounds] at hp
    have hfl : Chunk.Map.flagAt
        ((World.scanResult M tryGen w camera).chunks.map
          (markOutOfBounds (M.worldToChunkPos camera.position)
            (w.m_worldSettings.worldSize.tdiv 2 + 1))) p = true := by
      rw [flagAt_map_markOutOfBounds _ _ _ _ hp]
      simp [ho]
    rw [flagAt_map_markOutOfBounds _ _ _ _ hp, hflag p] at hfl
    cases hfl0 : w.m_chunks.flagAt p
    · exact List.mem_append_right _
        (mem_newlyQueued_of_flagAt _ _ _ p hp ho (by rw [hflag p]; exact hfl0))
    · exact List.mem_append_left _ ((hiff p).2 hfl0)

/-- Any number of further iterations keeps `DeleteInv` and only appends to the
queue. -/
theorem buildMeshesRun_deleteInv (M : Maths) (tryGen : Generator) (hf : tryGen.Frame)
    (cameras : List Camera) (w : World)
    (hinf : w.m_worldSettings.isInfiniteTerrain = true) (hinv : DeleteInv w) :
    ∃ w1, World.buildMeshesRun M tryGen w cameras = .ok w1 ∧
      DeleteInv w1 ∧ w1.m_worldSettings = w.m_worldSettings ∧
      (∃ added, w1.m_deleteChunks = w.m_deleteChunks ++ added) ∧
      (∀ p, w.m_chunks.existsAt p = true → w1.m_chunks.existsAt p = true) := by
  induction cameras generalizing w with
  | nil => exact ⟨w, rfl, hinv, rfl, ⟨[], by simp⟩, fun p h => h⟩
  | cons camera rest ih =>
    obtain ⟨w1, calls, h1, h2, h3, ⟨a1, h4⟩, h5, -⟩ :=
      buildMeshes_deleteInv M tryGen hf w camera hinf hinv
    obtain ⟨w2, g1, g2, g3, ⟨a2, g4⟩, g5⟩ := ih w1 (by rw [h3]; exact hinf) h2
    refine ⟨w2, ?_, g2, by rw [g3, h3], ⟨a1 ++ a2, by rw [g4, h4, List.append_assoc]⟩,
      fun p hp => g5 p (h5 p hp)⟩
    simp only [World.buildMeshesRun, h1]
    exact g1

theorem buildMeshesRun_append (M : Maths) (tryGen : Generator) (as bs : List Camera)
    (w w1 : World) (h : World.buildMeshesRun M tryGen w as = .ok w1) :
    World.buildMeshesRun M tryGen w (as ++ bs) = World.buildMeshesRun M tryGen w1 bs := by
  induction as generalizing w with
  | nil =>
    simp only [World.buildMeshesRun] at h
    cases h
    rfl
  | cons a as ih =>
    simp only [List.cons_append, World.buildMeshesRun] at h ⊢
    cases hb : World.buildMeshes M tryGen w a with
    | error e => rw [hb] at h; cases h
    | ok r =>
      rw [hb] at h
      exact ih r.1 h

/-- A world with an empty deletion queue, unique store keys and no flagged column
(the state after construction, and after a drain that removed the flagged
columns) satisfies `DeleteInv`. -/
theorem deleteInv_of_unflagged (w : World) (hwf : w.m_chunks.WF) (hq : w.m_deleteChunks = [])
    (hfl : ∀ c ∈ w.m_chunks, c.hasDeleteFlag = false) : DeleteInv w := by
  refine ⟨hwf, by rw [hq]; exact List.nodup_nil, fun p => ?_⟩
  rw [hq]
  constructor
  · intro h
    cases h
  · intro h
    exfalso
    unfold Chunk.Map.flagAt at h
    cases hg : w.m_chunks.get p with
    | none => rw [hg] at h; cases h
    | some c =>
      rw [hg] at h
      have := hfl c (Chunk.Map.get_mem hg)
      simp only [] at h
      rw [this] at h
      cases h

/-- C6. On an infinite-terrain world, start from a state in which the queue has
no duplicate and holds exactly the flagged columns (`DeleteInv`; so after
construction or after a drain) and run any scheduler iterations `before`, one
iteration with camera `camera`, and any iterations `after`, with no drain in
between.  All of them return, the deletion queue at the end has no duplicate,
and every column that was loaded and out of bounds at the iteration with
`camera` occurs in the final queue exactly once, whatever the other iterations
observed. -/
theorem delete_flagging_idempotent (M : Maths) (tryGen : Generator) (hf : tryGen.Frame)
    (w : World) (hinf : w.m_worldSettings.isInfiniteTerrain = true) (hinv : DeleteInv w)
    (before : List Camera) (camera : Camera) (after : List Camera) :
    ∃ w1 w2, World.buildMeshesRun M tryGen w (before ++ [camera]) = .ok w1 ∧
      World.buildMeshesRun M tryGen w (before ++ camera :: after) = .ok w2 ∧
      w2.m_deleteChunks.Nodup ∧
      ∀ p, w1.m_chunks.existsAt p = true →
        outOfBounds (M.worldToChunkPos camera.position)
          (w.m_worldSettings.worldSize.tdiv 2 + 1) p →
        w2.m_deleteChunks.count p = 1 := by
  obtain ⟨wa, ha1, ha2, ha3, -, -⟩ := buildMeshesRun_deleteInv M tryGen hf before w hinf hinv
  have hinfa : wa.m_worldSettings.isInfiniteTerrain = true := by rw [ha3]; exact hinf
  obtain ⟨w1, calls, hb1, hb2, hb3, -, -, hb6⟩ :=
    buildMeshes_deleteInv M tryGen hf wa camera hinfa ha2
  have hinf1 : w1.m_worldSettings.isInfiniteTerrain = true := by rw [hb3]; exact hinfa
  obtain ⟨w2, hc1, hc2, -, ⟨added, hc4⟩, -⟩ :=
    buildMeshesRun_deleteInv M tryGen hf after w1 hinf1 hb2
  have hstep : World.buildMeshesRun M tryGen wa [camera] = .ok w1 := by
    simp [World.buildMeshesRun, hb1]
  have hrun1 : World.buildMeshesRun M tryGen w (before ++ [camera]) = .ok w1 := by
    rw [buildMeshesRun_append M tryGen before [camera] w wa ha1]; exact hstep
  have hrun2 : World.buildMeshesRun M tryGen w (before ++ camera :: after) = .ok w2 := by
    rw [buildMeshesRun_append M tryGen before (camera :: after) w wa ha1]
    simp only [World.buildMeshesRun, hb1]
    exact hc1
  refine ⟨w1, w2, hrun1, hrun2, hc2.2.1, ?_⟩
  intro p hp ho
  rw [ha3] at hb6
  have hmem : p ∈ w2.m_deleteChunks := by
    rw [hc4]
    exact List.mem_append_left _ (hb6 p hp ho)
  exact List.count_eq_one_of_mem hc2.2.1 hmem

/-- Witness for C6: camera column (10,10), `worldSize` 21, a loaded column
(30,30) seen out of bounds by four successive iterations. -/
theorem delete_flagging_idempotent_witness :
    ∃ w1 w2, World.buildMeshesRun Maths.standard Generator.standard
        ⟨⟨21, true⟩, [⟨⟨30, 30⟩, [], false, true⟩], [], [], 1, ⟨0, 0⟩⟩
        ([⟨⟨160, 0, 160⟩⟩] ++ [⟨⟨160, 0, 160⟩⟩]) = .ok w1 ∧
      World.buildMeshesRun Maths.standard Generator.standard
        ⟨⟨21, true⟩, [⟨⟨30, 30⟩, [], false, true⟩], [], [], 1, ⟨0, 0⟩⟩
        ([⟨⟨160, 0, 160⟩⟩] ++ ⟨⟨160, 0, 160⟩⟩ :: [⟨⟨160, 0, 160⟩⟩, ⟨⟨160, 0, 160⟩⟩]) = .ok w2 ∧
      w2.m_deleteChunks.Nodup ∧ w2.m_deleteChunks.count ⟨30, 30⟩ = 1 := by
  have hinv : DeleteInv ⟨⟨21, true⟩, [⟨⟨30, 30⟩, [], false, true⟩], [], [], 1, ⟨0, 0⟩⟩ :=
    deleteInv_of_unflagged _ (by unfold Chunk.Map.WF; decide) rfl (by decide)
  obtain ⟨w1, w2, h1, h2, h3, h4⟩ := delete_flagging_idempotent Maths.standard
    Generator.standard Generator.standard_frame
    ⟨⟨21, true⟩, [⟨⟨30, 30⟩, [], false, true⟩], [], [], 1, ⟨0, 0⟩⟩ rfl hinv
    [⟨⟨160, 0, 160⟩⟩] ⟨⟨160, 0, 160⟩⟩ [⟨⟨160, 0, 160⟩⟩, ⟨⟨160, 0, 160⟩⟩]
  refine ⟨w1, w2, h1, h2, h3, h4 ⟨30, 30⟩ ?_ ?_⟩
  · have : w1 = (World.buildMeshesRun Maths.standard Generator.standard
        ⟨⟨21, true⟩, [⟨⟨30, 30⟩, [], false, true⟩], [], [], 1, ⟨0, 0⟩⟩
        ([⟨⟨160, 0, 160⟩⟩] ++ [⟨⟨160, 0, 160⟩⟩])).toOption.getD
          ⟨⟨21, true⟩, [], [], [], 1, ⟨0, 0⟩⟩ := by
      rw [h1]; rfl
    rw [this]
    decide!
  · have hcam : Maths.standard.worldToChunkPos ⟨160, 0, 160⟩ = ⟨10, 10⟩ := by decide!
    rw [hcam]
    decide

/-! ## Growing a column -/

theorem Chunk.Full_Chunk.getSection_isSome_iff (c : Chunk.Full_Chunk) (y : Int) :
    (c.getSection y).isSome = true ↔ 0 ≤ y ∧ y.toNat < c.sections.length := by
  unfold Chunk.Full_Chunk.getSection
  split
  · rename_i h
    constructor
    · intro hs
      refine ⟨h, ?_⟩
      by_contra hlt
      have : c.sections.get? y.toNat = none := List.get?_eq_none.2 (by omega)
      rw [this] at hs
      cases hs
    · rintro ⟨-, hlt⟩
      cases hg : c.sections.get? y.toNat with
      | none => exact absurd (List.get?_eq_none.1 hg) (by omega)
      | some s => rfl
  · rename_i h
    simp [h]

theorem Chunk.Full_Chunk.grown_zero (c : Chunk.Full_Chunk) : c.grown 0 = c := by
  cases c; simp [Chunk.Full_Chunk.grown]

theorem Chunk.Full_Chunk.addSection_grown (c : Chunk.Full_Chunk) (k : Nat) :
    (c.addSection).grown k = c.grown (k + 1) := by
  simp [Chunk.Full_Chunk.grown, Chunk.Full_Chunk.addSection, List.replicate_succ,
    List.append_assoc]

/-- The section-adding loop returns when the target index is not negative and
the fuel covers the sections to add: it adds one section when the target exists
already, and otherwise exactly those up to the target. -/
theorem Chunk.Full_Chunk.addSectionsUntil_eq (fuel : Nat) (c : Chunk.Full_Chunk) (y : Int)
    (hy : 0 ≤ y) (hfuel : max 1 (y.toNat + 1 - c.sections.length) ≤ fuel) :
    c.addSectionsUntil fuel y = .ok (c.grown (max 1 (y.toNat + 1 - c.sections.length))) := by
  induction fuel generalizing c with
  | zero => omega
  | succ n ih =>
    unfold Chunk.Full_Chunk.addSectionsUntil
    have hlen : c.addSection.sections.length = c.sections.length + 1 := by
      simp [Chunk.Full_Chunk.addSection]
    cases hg : c.addSection.getSection y with
    | some s =>
      have h1 := (Chunk.Full_Chunk.getSection_isSome_iff c.addSection y).1 (by rw [hg]; rfl)
      rw [hlen] at h1
      have hk : max 1 (y.toNat + 1 - c.sections.length) = 1 := by omega
      rw [hk, ← Chunk.Full_Chunk.addSection_grown, Chunk.Full_Chunk.grown_zero]
      simp only [hg]
    | none =>
      have h1 : ¬ (0 ≤ y ∧ y.toNat < c.addSection.sections.length) := by
        rw [← Chunk.Full_Chunk.getSection_isSome_iff, hg]; simp
      rw [hlen] at h1
      have hge : c.sections.length + 1 ≤ y.toNat := by omega
      have hk : max 1 (y.toNat + 1 - c.sections.length)
          = max 1 (y.toNat + 1 - c.addSection.sections.length) + 1 := by
        rw [hlen]; omega
      have hf : max 1 (y.toNat + 1 - c.addSection.sections.length) ≤ n := by
        rw [hk] at hfuel; omega
      simp only [hg]
      rw [ih c.addSection hf, Chunk.Full_Chunk.addSection_grown, hk]

/-- With a negative target index the section-adding loop never returns. -/
theorem Chunk.Full_Chunk.addSectionsUntil_negative (fuel : Nat) (c : Chunk.Full_Chunk) (y : Int)
    (hy : y < 0) : c.addSectionsUntil fuel y = .error .fuelExhausted := by
  induction fuel generalizing c with
  | zero => rfl
  | succ n ih =>
    unfold Chunk.Full_Chunk.addSectionsUntil
    have : c.addSection.getSection y = none := by
      simp [Chunk.Full_Chunk.getSection, not_le.2 hy]
    simp only [this]
    exact ih _

theorem Chunk.Full_Chunk.grown_position (c : Chunk.Full_Chunk) (k : Nat) :
    (c.grown k).position = c.position := rfl

theorem Chunk.Full_Chunk.grown_length (c : Chunk.Full_Chunk) (k : Nat) :
    (c.grown k).sections.length = c.sections.length + k := by
  simp [Chunk.Full_Chunk.grown]

theorem Chunk.Full_Chunk.setSectionBlock_position (c : Chunk.Full_Chunk) (y : Int)
    (p : Block.Small_Position) (b : CBlock) : (c.setSectionBlock y p b).position = c.position := by
  unfold Chunk.Full_Chunk.setSectionBlock; split <;> rfl

theorem Chunk.Full_Chunk.setSectionBlock_length (c : Chunk.Full_Chunk) (y : Int)
    (p : Block.Small_Position) (b : CBlock) :
    (c.setSectionBlock y p b).sections.length = c.sections.length := by
  unfold Chunk.Full_Chunk.setSectionBlock; split <;> simp

/-! ## Stores that only grow -/

namespace Chunk.Map

theorem Extends.refl (m : Map) : m.Extends m :=
  ⟨rfl, fun _ c h => ⟨c, h, Nat.le_refl _⟩⟩

theorem Extends.trans {m m1 m2 : Map} (h1 : m.Extends m1) (h2 : m1.Extends m2) :
    m.Extends m2 := by
  refine ⟨h2.1.trans h1.1, fun p c hc => ?_⟩
  obtain ⟨c1, hc1, hl1⟩ := h1.2 p c hc
  obtain ⟨c2, hc2, hl2⟩ := h2.2 p c1 hc1
  exact ⟨c2, hc2, Nat.le_trans hl1 hl2⟩

theorem Extends.put {m : Map} {p : Position} {c c1 : Full_Chunk} (hc : m.get p = some c)
    (hpos : c1.position = p) (hlen : c.sections.length ≤ c1.sections.length) :
    m.Extends (m.put p c1) := by
  have hp : p ∈ m.keys := by
    by_contra h
    rw [(get_eq_none_iff m p).2 h] at hc
    cases hc
  refine ⟨keys_put m p c1 hpos, fun q d hd => ?_⟩
  by_cases hq : q = p
  · subst hq
    rw [hc] at hd
    cases hd
    exact ⟨c1, get_put_self m q c1 hpos hp, hlen⟩
  · exact ⟨d, by rw [get_put_other m p q c1 hpos hq]; exact hd, Nat.le_refl _⟩

theorem columnLoaded_iff (m : Map) (q : Chunklet_Position) :
    m.columnLoaded q = true ↔ (⟨q.x, q.z⟩ : Position) ∈ m.keys :=
  existsAt_iff_mem_keys m _

theorem Extends.columnLoaded {m m1 : Map} (h : m.Extends m1) (q : Chunklet_Position) :
    m1.columnLoaded q = m.columnLoaded q := by
  rw [Bool.eq_iff_iff, columnLoaded_iff, columnLoaded_iff, h.1]

theorem sectionLoaded_iff (m : Map) (q : Chunklet_Position) :
    (m.getSection q).isSome = true ↔
      ∃ c, m.get ⟨q.x, q.z⟩ = some c ∧ 0 ≤ q.y ∧ q.y.toNat < c.sections.length := by
  unfold getSection
  cases hg : m.get ⟨q.x, q.z⟩ with
  | none => simp
  | some c =>
    simp only [Full_Chunk.getSection_isSome_iff]
    constructor
    · intro h
      exact ⟨c, rfl, h⟩
    · rintro ⟨c1, h1, h2⟩
      cases h1
      exact h2

theorem Extends.getSection {m m1 : Map} (h : m.Extends m1) (q : Chunklet_Position)
    (hq : (m.getSection q).isSome = true) : (m1.getSection q).isSome = true := by
  obtain ⟨c, hc, hy, hlt⟩ := (sectionLoaded_iff m q).1 hq
  obtain ⟨c1, hc1, hl⟩ := h.2 _ c hc
  exact (sectionLoaded_iff m1 q).2 ⟨c1, hc1, hy, by omega⟩

end Chunk.Map

/-! ## The lambdas of `regenerateChunks` -/

theorem insertKeys_cons (l : List Chunk.Chunklet_Position) (q : Chunk.Chunklet_Position)
    (ps : List Chunk.Chunklet_Position) :
    insertKeys l (q :: ps) = insertKeys (World.insertKey l q) ps := rfl

theorem insertKeys_append (l ps qs : List Chunk.Chunklet_Position) :
    insertKeys l (ps ++ qs) = insertKeys (insertKeys l ps) qs := by
  simp [insertKeys]

theorem mem_insertKey (l : List Chunk.Chunklet_Position) (q p : Chunk.Chunklet_Position) :
    p ∈ World.insertKey l q ↔ p ∈ l ∨ p = q := by
  unfold World.insertKey
  split
  · rename_i h
    constructor
    · exact Or.inl
    · rintro (h1 | h1)
      · exact h1
      · exact h1 ▸ h
  · simp

theorem nodup_insertKey (l : List Chunk.Chunklet_Position) (q : Chunk.Chunklet_Position)
    (h : l.Nodup) : (World.insertKey l q).Nodup := by
  unfold World.insertKey
  split
  · exact h
  · rename_i hq
    exact List.Nodup.append h (List.nodup_singleton q) (by simpa using hq)

theorem mem_insertKeys (l ps : List Chunk.Chunklet_Position) (p : Chunk.Chunklet_Position) :
    p ∈ insertKeys l ps ↔ p ∈ l ∨ p ∈ ps := by
  induction ps generalizing l with
  | nil => simp [insertKeys]
  | cons q qs ih =>
    rw [insertKeys_cons, ih, mem_insertKey, List.mem_cons]
    tauto

theorem nodup_insertKeys (l ps : List Chunk.Chunklet_Position) (h : l.Nodup) :
    (insertKeys l ps).Nodup := by
  induction ps generalizing l with
  | nil => exact h
  | cons q qs ih => exact ih _ (nodup_insertKey l q h)

theorem insertChunk_spec (fuel : Nat) (st : RegenState) (q : Chunk.Chunklet_Position)
    (hy : st.chunks.columnLoaded q = true → 0 ≤ q.y) (hfuel : q.y + 1 ≤ fuel) :
    ∃ st1, World.insertChunk fuel st q (st.chunks.getSection q) = .ok st1 ∧
      st.chunks.Extends st1.chunks ∧
      st1.chunksToUpdate
        = insertKeys st.chunksToUpdate ([q].filter (fun p => st.chunks.columnLoaded p)) ∧
      (st.chunks.columnLoaded q = true → (st1.chunks.getSection q).isSome = true) := by
  cases hg : st.chunks.get ⟨q.x, q.z⟩ with
  | none =>
    have hl : st.chunks.columnLoaded q = false := by
      rw [Chunk.Map.columnLoaded, Chunk.Map.existsAt_eq_false_iff]
      exact (Chunk.Map.get_eq_none_iff _ _).1 hg
    refine ⟨st, ?_, Chunk.Map.Extends.refl _, ?_, ?_⟩
    · simp [World.insertChunk, hg]
    · simp [hl, insertKeys]
    · intro h; rw [hl] at h; cases h
  | some c =>
    have hmem : (⟨q.x, q.z⟩ : Chunk.Position) ∈ st.chunks.keys := by
      by_contra h
      rw [(Chunk.Map.get_eq_none_iff _ _).2 h] at hg
      cases hg
    have hl : st.chunks.columnLoaded q = true := (Chunk.Map.columnLoaded_iff _ q).2 hmem
    have hy0 := hy hl
    have hsec : st.chunks.getSection q = c.getSection q.y := by
      simp [Chunk.Map.getSection, hg]
    have hkeys : insertKeys st.chunksToUpdate ([q].filter (fun p => st.chunks.columnLoaded p))
        = World.insertKey st.chunksToUpdate q := by
      simp [hl, insertKeys]
    rw [hkeys, hsec]
    cases hs : c.getSection q.y with
    | some s =>
      refine ⟨{ st with chunksToUpdate := World.insertKey st.chunksToUpdate q }, ?_,
        Chunk.Map.Extends.refl _, rfl, fun _ => ?_⟩
      · simp [World.insertChunk, hg]
      · show (st.chunks.getSection q).isSome = true
        rw [hsec, hs]; rfl
    | none =>
      have hfu : max 1 (q.y.toNat + 1 - c.sections.length) ≤ fuel := by omega
      have hgrow := Chunk.Full_Chunk.addSectionsUntil_eq fuel c q.y hy0 hfu
      have hcp := Chunk.Map.get_position hg
      refine ⟨{ chunks := st.chunks.put ⟨q.x, q.z⟩
                  (c.grown (max 1 (q.y.toNat + 1 - c.sections.length)))
                chunksToUpdate := World.insertKey st.chunksToUpdate q }, ?_, ?_, rfl, fun _ => ?_⟩
      · simp [World.insertChunk, hg, hgrow]
      · exact Chunk.Map.Extends.put hg hcp (by rw [Chunk.Full_Chunk.grown_length]; omega)
      · rw [Chunk.Map.sectionLoaded_iff]
        refine ⟨_, Chunk.Map.get_put_self _ _ _ hcp hmem, hy0, ?_⟩
        rw [Chunk.Full_Chunk.grown_length]
        omega

theorem checkForBatchAdd_spec (M : Maths) (hCS : 1 < M.CHUNK_SIZE) (fuel : Nat)
    (st : RegenState) (coordinate : Int) (s : Chunk.Chunklet_Position) (dx dy dz : Int)
    (hs : s.inFloatRange)
    (hd : (0 ≤ dx ∧ dx ≤ 1) ∧ (0 ≤ dy ∧ dy ≤ 1) ∧ (0 ≤ dz ∧ dz ≤ 1))
    (hy : ∀ q ∈ axisNeighbours M.CHUNK_SIZE coordinate ⟨s.x - dx, s.y - dy, s.z - dz⟩
        ⟨s.x + dx, s.y + dy, s.z + dz⟩, st.chunks.columnLoaded q = true → 0 ≤ q.y)
    (hfuel : ∀ q ∈ axisNeighbours M.CHUNK_SIZE coordinate ⟨s.x - dx, s.y - dy, s.z - dz⟩
        ⟨s.x + dx, s.y + dy, s.z + dz⟩, q.y + 1 ≤ fuel) :
    ∃ st1, World.checkForBatchAdd M fuel st coordinate s ⟨dx, dy, dz⟩ = .ok st1 ∧
      st.chunks.Extends st1.chunks ∧
      st1.chunksToUpdate = insertKeys st.chunksToUpdate
        ((axisNeighbours M.CHUNK_SIZE coordinate ⟨s.x - dx, s.y - dy, s.z - dz⟩
          ⟨s.x + dx, s.y + dy, s.z + dz⟩).filter (fun p => st.chunks.columnLoaded p)) ∧
      (∀ q ∈ axisNeighbours M.CHUNK_SIZE coordinate ⟨s.x - dx, s.y - dy, s.z - dz⟩
          ⟨s.x + dx, s.y + dy, s.z + dz⟩,
        st.chunks.columnLoaded q = true → (st1.chunks.getSection q).isSome = true) := by
  have sx := toInt_float_sub s.x dx hs.1 hd.1
  have sy := toInt_float_sub s.y dy hs.2.1 hd.2.1
  have sz := toInt_float_sub s.z dz hs.2.2 hd.2.2
  have ax := toInt_float_add s.x dx hs.1 hd.1
  have ay := toInt_float_add s.y dy hs.2.1 hd.2.1
  have az := toInt_float_add s.z dz hs.2.2 hd.2.2
  unfold World.checkForBatchAdd
  by_cases h0 : coordinate = 0
  · have hax : axisNeighbours M.CHUNK_SIZE coordinate ⟨s.x - dx, s.y - dy, s.z - dz⟩
        ⟨s.x + dx, s.y + dy, s.z + dz⟩ = [⟨s.x - dx, s.y - dy, s.z - dz⟩] := by
      have : ¬ (0 : Int) = M.CHUNK_SIZE - 1 := by omega
      simp [axisNeighbours, h0, this]
    rw [hax] at hy hfuel ⊢
    simp only [h0, if_true, sx, sy, sz]
    obtain ⟨st1, h1, h2, h3, h4⟩ := insertChunk_spec fuel st ⟨s.x - dx, s.y - dy, s.z - dz⟩
      (hy _ (List.mem_singleton_self _)) (hfuel _ (List.mem_singleton_self _))
    refine ⟨st1, h1, h2, h3, ?_⟩
    intro q hq
    rw [List.mem_singleton.1 hq]
    exact h4
  · by_cases h1 : coordinate = M.CHUNK_SIZE - 1
    · have hax : axisNeighbours M.CHUNK_SIZE coordinate ⟨s.x - dx, s.y - dy, s.z - dz⟩
          ⟨s.x + dx, s.y + dy, s.z + dz⟩ = [⟨s.x + dx, s.y + dy, s.z + dz⟩] := by
        simp [axisNeighbours, h0, if_pos h1]
      rw [hax] at hy hfuel ⊢
      simp only [if_neg h0, if_pos h1, ax, ay, az]
      obtain ⟨st1, g1, g2, g3, g4⟩ := insertChunk_spec fuel st ⟨s.x + dx, s.y + dy, s.z + dz⟩
        (hy _ (List.mem_singleton_self _)) (hfuel _ (List.mem_singleton_self _))
      refine ⟨st1, g1, g2, g3, ?_⟩
      intro q hq
      rw [List.mem_singleton.1 hq]
      exact g4
    · have hax : axisNeighbours M.CHUNK_SIZE coordinate ⟨s.x - dx, s.y - dy, s.z - dz⟩
          ⟨s.x + dx, s.y + dy, s.z + dz⟩ = [] := by
        simp [axisNeighbours, h0, h1]
      rw [hax]
      simp only [if_neg h0, if_neg h1]
      exact ⟨st, rfl, Chunk.Map.Extends.refl _, rfl, by simp⟩

theorem checkForBatchAdd_x (M : Maths) (hCS : 1 < M.CHUNK_SIZE) (fuel : Nat)
    (st : RegenState) (coordinate : Int) (s : Chunk.Chunklet_Position) (hs : s.inFloatRange)
    (hy : ∀ q ∈ axisNeighbours M.CHUNK_SIZE coordinate ⟨s.x - 1, s.y, s.z⟩ ⟨s.x + 1, s.y, s.z⟩,
      st.chunks.columnLoaded q = true → 0 ≤ q.y)
    (hfuel : ∀ q ∈ axisNeighbours M.CHUNK_SIZE coordinate ⟨s.x - 1, s.y, s.z⟩
      ⟨s.x + 1, s.y, s.z⟩, q.y + 1 ≤ fuel) :
    ∃ st1, World.checkForBatchAdd M fuel st coordinate s ⟨1, 0, 0⟩ = .ok st1 ∧
      st.chunks.Extends st1.chunks ∧
      st1.chunksToUpdate = insertKeys st.chunksToUpdate
        ((axisNeighbours M.CHUNK_SIZE coordinate ⟨s.x - 1, s.y, s.z⟩
          ⟨s.x + 1, s.y, s.z⟩).filter (fun p => st.chunks.columnLoaded p)) ∧
      (∀ q ∈ axisNeighbours M.CHUNK_SIZE coordinate ⟨s.x - 1, s.y, s.z⟩ ⟨s.x + 1, s.y, s.z⟩,
        st.chunks.columnLoaded q = true → (st1.chunks.getSection q).isSome = true) := by
  have h := checkForBatchAdd_spec M hCS fuel st coordinate s 1 0 0 hs (by decide)
  simp only [sub_zero, add_zero, Int.cast_one, Int.cast_zero] at h
  exact h hy hfuel

theorem checkForBatchAdd_y (M : Maths) (hCS : 1 < M.CHUNK_SIZE) (fuel : Nat)
    (st : RegenState) (coordinate : Int) (s : Chunk.Chunklet_Position) (hs : s.inFloatRange)
    (hy : ∀ q ∈ axisNeighbours M.CHUNK_SIZE coordinate ⟨s.x, s.y - 1, s.z⟩ ⟨s.x, s.y + 1, s.z⟩,
      st.chunks.columnLoaded q = true → 0 ≤ q.y)
    (hfuel : ∀ q ∈ axisNeighbours M.CHUNK_SIZE coordinate ⟨s.x, s.y - 1, s.z⟩
      ⟨s.x, s.y + 1, s.z⟩, q.y + 1 ≤ fuel) :
    ∃ st1, World.checkForBatchAdd M fuel st coordinate s ⟨0, 1, 0⟩ = .ok st1 ∧
      st.chunks.Extends st1.chunks ∧
      st1.chunksToUpdate = insertKeys st.chunksToUpdate
        ((axisNeighbours M.CHUNK_SIZE coordinate ⟨s.x, s.y - 1, s.z⟩
          ⟨s.x, s.y + 1, s.z⟩).filter (fun p => st.chunks.columnLoaded p)) ∧
      (∀ q ∈ axisNeighbours M.CHUNK_SIZE coordinate ⟨s.x, s.y - 1, s.z⟩ ⟨s.x, s.y + 1, s.z⟩,
        st.chunks.columnLoaded q = true → (st1.chunks.getSection q).isSome = true) := by
  have h := checkForBatchAdd_spec M hCS fuel st coordinate s 0 1 0 hs (by decide)
  simp only [sub_zero, add_zero, Int.cast_one, Int.cast_zero] at h
  exact h hy hfuel

theorem checkForBatchAdd_z (M : Maths) (hCS : 1 < M.CHUNK_SIZE) (fuel : Nat)
    (st : RegenState) (coordinate : Int) (s : Chunk.Chunklet_Position) (hs : s.inFloatRange)
    (hy : ∀ q ∈ axisNeighbours M.CHUNK_SIZE coordinate ⟨s.x, s.y, s.z - 1⟩ ⟨s.x, s.y, s.z + 1⟩,
      st.chunks.columnLoaded q = true → 0 ≤ q.y)
    (hfuel : ∀ q ∈ axisNeighbours M.CHUNK_SIZE coordinate ⟨s.x, s.y, s.z - 1⟩
      ⟨s.x, s.y, s.z + 1⟩, q.y + 1 ≤ fuel) :
    ∃ st1, World.checkForBatchAdd M fuel st coordinate s ⟨0, 0, 1⟩ = .ok st1 ∧
      st.chunks.Extends st1.chunks ∧
      st1.chunksToUpdate = insertKeys st.chunksToUpdate
        ((axisNeighbours M.CHUNK_SIZE coordinate ⟨s.x, s.y, s.z - 1⟩
          ⟨s.x, s.y, s.z + 1⟩).filter (fun p => st.chunks.columnLoaded p)) ∧
      (∀ q ∈ axisNeighbours M.CHUNK_SIZE coordinate ⟨s.x, s.y, s.z - 1⟩ ⟨s.x, s.y, s.z + 1⟩,
        st.chunks.columnLoaded q = true → (st1.chunks.getSection q).isSome = true) := by
  have h := checkForBatchAdd_spec M hCS fuel st coordinate s 0 0 1 hs (by decide)
  simp only [sub_zero, add_zero, Int.cast_one, Int.cast_zero] at h
  exact h hy hfuel

theorem columnLoaded_congr {m m1 : Chunk.Map} (h : m.Extends m1) :
    (fun p => m1.columnLoaded p) = (fun p => m.columnLoaded p) :=
  funext (fun p => h.columnLoaded p)

/-- One pending edit, applied with enough fuel, when its own column is loaded
and no touched section of a loaded column has a negative index: the turn of the
loop returns, the store only grows, the touched sections with a loaded column
are inserted into `chunksToUpdate` in order, and each of them exists afterwards. -/
theorem applyNewBlock_spec (M : Maths) (hCS : 1 < M.CHUNK_SIZE) (fuel : Nat) (st : RegenState)
    (e : New_Block)
    (hfl : (M.worldToChunkletPos e.position).inFloatRange)
    (hown : st.chunks.columnLoaded (M.worldToChunkletPos e.position) = true)
    (hy : ∀ q ∈ touchedSections M e, st.chunks.columnLoaded q = true → 0 ≤ q.y)
    (hfuel : ∀ q ∈ touchedSections M e, q.y + 1 ≤ fuel) :
    ∃ st1, World.applyNewBlock M fuel st e = .ok st1 ∧
      st.chunks.Extends st1.chunks ∧
      st1.chunksToUpdate = insertKeys st.chunksToUpdate
        ((touchedSections M e).filter (fun p => st.chunks.columnLoaded p)) ∧
      (∀ q ∈ touchedSections M e,
        st.chunks.columnLoaded q = true → (st1.chunks.getSection q).isSome = true) := by
  obtain ⟨s, hs⟩ : ∃ s, s = M.worldToChunkletPos e.position := ⟨_, rfl⟩
  obtain ⟨b, hb⟩ : ∃ b, b = M.blockToSmallBlockPos (M.worldToBlockPos e.position) := ⟨_, rfl⟩
  have htouched : touchedSections M e
      = [s] ++ axisNeighbours M.CHUNK_SIZE b.x ⟨s.x - 1, s.y, s.z⟩ ⟨s.x + 1, s.y, s.z⟩ ++
        axisNeighbours M.CHUNK_SIZE b.y ⟨s.x, s.y - 1, s.z⟩ ⟨s.x, s.y + 1, s.z⟩ ++
        axisNeighbours M.CHUNK_SIZE b.z ⟨s.x, s.y, s.z - 1⟩ ⟨s.x, s.y, s.z + 1⟩ := by
    rw [hs, hb]; simp [touchedSections]
  rw [htouched] at hy hfuel ⊢
  rw [← hs] at hown hfl
  have hmem : (⟨s.x, s.z⟩ : Chunk.Position) ∈ st.chunks.keys :=
    (Chunk.Map.columnLoaded_iff _ s).1 hown
  obtain ⟨c, hc⟩ := Chunk.Map.get_isSome_of_mem_keys hmem
  have hcp := Chunk.Map.get_position hc
  have hy0 : 0 ≤ s.y := hy s (by simp) hown
  have hf0 : s.y + 1 ≤ fuel := hfuel s (by simp)
  have hgrow := Chunk.Full_Chunk.addSectionsUntil_eq fuel c s.y hy0 (by omega)
  obtain ⟨c2, hc2⟩ : ∃ c2, c2 = (c.grown (max 1 (s.y.toNat + 1 - c.sections.length))).setSectionBlock
      s.y b e.block := ⟨_, rfl⟩
  have hc2p : c2.position = ⟨s.x, s.z⟩ := by
    rw [hc2, Chunk.Full_Chunk.setSectionBlock_position, Chunk.Full_Chunk.grown_position, hcp]
  have hc2l : c.sections.length ≤ c2.sections.length := by
    rw [hc2, Chunk.Full_Chunk.setSectionBlock_length, Chunk.Full_Chunk.grown_length]; omega
  obtain ⟨st1, hst1⟩ : ∃ st1 : RegenState,
      st1 = { st with chunks := st.chunks.put ⟨s.x, s.z⟩ c2 } := ⟨_, rfl⟩
  have hext1 : st.chunks.Extends st1.chunks := by
    rw [hst1]; exact Chunk.Map.Extends.put hc hc2p hc2l
  have hsec1 : c2.getSection s.y = st1.chunks.getSection s := by
    rw [hst1]
    simp [Chunk.Map.getSection, Chunk.Map.get_put_self _ _ _ hc2p hmem]
  have hctu1 : st1.chunksToUpdate = st.chunksToUpdate := by rw [hst1]
  have hload : ∀ {m : Chunk.Map}, st.chunks.Extends m →
      ∀ q, m.columnLoaded q = st.chunks.columnLoaded q := fun h q => h.columnLoaded q
  obtain ⟨st2, i1, i2, i3, i4⟩ := insertChunk_spec fuel st1 s
    (fun _ => hy0) hf0
  have hext2 := hext1.trans i2
  obtain ⟨st3, j1, j2, j3, j4⟩ := checkForBatchAdd_x M hCS fuel st2 b.x s hfl
    (fun q hq hl => hy q (by simp [hq]) (by rw [← hload hext2 q]; exact hl))
    (fun q hq => hfuel q (by simp [hq]))
  have hext3 := hext2.trans j2
  obtain ⟨st4, k1, k2, k3, k4⟩ := checkForBatchAdd_y M hCS fuel st3 b.y s hfl
    (fun q hq hl => hy q (by simp [hq]) (by rw [← hload hext3 q]; exact hl))
    (fun q hq => hfuel q (by simp [hq]))
  have hext4 := hext3.trans k2
  obtain ⟨st5, l1, l2, l3, l4⟩ := checkForBatchAdd_z M hCS fuel st4 b.z s hfl
    (fun q hq hl => hy q (by simp [hq]) (by rw [← hload hext4 q]; exact hl))
    (fun q hq => hfuel q (by simp [hq]))
  have hext5 := hext4.trans l2
  refine ⟨st5, ?_, hext5, ?_, ?_⟩
  · unfold World.applyNewBlock
    simp only [← hs, ← hb, hc, hgrow, ← hc2, ← hst1, hsec1, i1, j1, k1, l1]
  · rw [l3, k3, j3, i3, hctu1, columnLoaded_congr hext4, columnLoaded_congr hext3,
      columnLoaded_congr hext2, columnLoaded_congr hext1]
    simp only [List.filter_append, insertKeys_append]
  · intro q hq hl
    simp only [List.mem_append, List.mem_singleton] at hq
    rcases hq with ((rfl | hq) | hq) | hq
    · exact (l2.trans (Chunk.Map.Extends.refl _)).getSection _
        (k2.getSection _ (j2.getSection _ (i4 (by rw [hload hext1]; exact hl))))
    · exact l2.getSection _ (k2.getSection _ (j4 q hq (by rw [hload hext2]; exact hl)))
    · exact l2.getSection _ (k4 q hq (by rw [hload hext3]; exact hl))
    · exact l4 q hq (by rw [hload hext4]; exact hl)

/-! ## `regenerateChunks` as a whole -/

theorem applyNewBlocks_spec (M : Maths) (hCS : 1 < M.CHUNK_SIZE) (fuel : Nat)
    (es : List New_Block) (st : RegenState)
    (hfl : ∀ e ∈ es, (M.worldToChunkletPos e.position).inFloatRange)
    (hown : ∀ e ∈ es, st.chunks.columnLoaded (M.worldToChunkletPos e.position) = true)
    (hy : ∀ e ∈ es, ∀ q ∈ touchedSections M e, st.chunks.columnLoaded q = true → 0 ≤ q.y)
    (hfuel : ∀ e ∈ es, ∀ q ∈ touchedSections M e, q.y + 1 ≤ fuel) :
    ∃ st1, World.applyNewBlocks M fuel st es = .ok st1 ∧
      st.chunks.Extends st1.chunks ∧
      st1.chunksToUpdate = insertKeys st.chunksToUpdate
        ((es.flatMap (touchedSections M)).filter (fun p => st.chunks.columnLoaded p)) ∧
      (∀ e ∈ es, ∀ q ∈ touchedSections M e,
        st.chunks.columnLoaded q = true → (st1.chunks.getSection q).isSome = true) := by
  induction es generalizing st with
  | nil => exact ⟨st, rfl, Chunk.Map.Extends.refl _, rfl, by simp⟩
  | cons e es ih =>
    obtain ⟨st1, h1, h2, h3, h4⟩ := applyNewBlock_spec M hCS fuel st e
      (hfl e (List.mem_cons_self _ _)) (hown e (List.mem_cons_self _ _)) (hy e (List.mem_cons_self _ _))
      (hfuel e (List.mem_cons_self _ _))
    have hl : ∀ q, st1.chunks.columnLoaded q = st.chunks.columnLoaded q :=
      fun q => h2.columnLoaded q
    obtain ⟨st2, g1, g2, g3, g4⟩ := ih st1
      (fun e1 he1 => hfl e1 (List.mem_cons_of_mem _ he1))
      (fun e1 he1 => by rw [hl]; exact hown e1 (List.mem_cons_of_mem _ he1))
      (fun e1 he1 q hq hq1 => hy e1 (List.mem_cons_of_mem _ he1) q hq (by rw [← hl]; exact hq1))
      (fun e1 he1 => hfuel e1 (List.mem_cons_of_mem _ he1))
    refine ⟨st2, ?_, h2.trans g2, ?_, ?_⟩
    · simp only [World.applyNewBlocks, h1]
      exact g1
    · rw [g3, h3, columnLoaded_congr h2, List.flatMap_cons, List.filter_append,
        insertKeys_append]
    · intro e1 he1 q hq hq1
      rcases List.mem_cons.1 he1 with rfl | he1
      · exact g2.getSection _ (h4 q hq hq1)
      · exact g4 e1 he1 q hq (by rw [hl]; exact hq1)

theorem count_regenerateCalls_makeMesh (l : List Chunk.Chunklet_Position)
    (q : Chunk.Chunklet_Position) :
    (World.regenerateCalls l).count (MeshCall.makeMesh q) = l.count q := by
  induction l with
  | nil => rfl
  | cons p ps ih =>
    have hc : World.regenerateCalls (p :: ps)
        = [MeshCall.makeMesh p, MeshCall.bufferMesh p] ++ World.regenerateCalls ps := by
      simp [World.regenerateCalls]
    rw [hc, List.count_append, ih, List.count_cons]
    by_cases hp : p = q
    · subst hp
      simp [List.count_cons, Nat.add_comm]
    · have : ¬ q = p := fun h => hp h.symm
      simp [List.count_cons, hp, this]

theorem count_regenerateCalls_bufferMesh (l : List Chunk.Chunklet_Position)
    (q : Chunk.Chunklet_Position) :
    (World.regenerateCalls l).count (MeshCall.bufferMesh q) = l.count q := by
  induction l with
  | nil => rfl
  | cons p ps ih =>
    have hc : World.regenerateCalls (p :: ps)
        = [MeshCall.makeMesh p, MeshCall.bufferMesh p] ++ World.regenerateCalls ps := by
      simp [World.regenerateCalls]
    rw [hc, List.count_append, ih, List.count_cons]
    by_cases hp : p = q
    · subst hp
      simp [List.count_cons, Nat.add_comm]
    · have : ¬ q = p := fun h => hp h.symm
      simp [List.count_cons, hp, this]

theorem count_of_nodup (l : List Chunk.Chunklet_Position) (h : l.Nodup)
    (q : Chunk.Chunklet_Position) : l.count q = if q ∈ l then 1 else 0 := by
  split
  · rename_i hq
    exact List.count_eq_one_of_mem h hq
  · rename_i hq
    exact List.count_eq_zero_of_not_mem hq

/-- The batch as a whole: with every own column loaded, no touched section of a
loaded column at a negative index, and fuel above every touched index,
`regenerateChunks` returns; the remesh set is the touched sections with a loaded
column, inserted in queue order; it has no duplicate; each of its sections
exists in the store afterwards; the calls made are one `makeMesh` and one
`bufferMesh` per entry; the queue is cleared. -/
theorem regenerateChunks_spec (M : Maths) (hCS : 1 < M.CHUNK_SIZE) (fuel : Nat) (w : World)
    (hfl : ∀ e ∈ w.m_newBlocks, (M.worldToChunkletPos e.position).inFloatRange)
    (hown : ∀ e ∈ w.m_newBlocks,
      w.m_chunks.columnLoaded (M.worldToChunkletPos e.position) = true)
    (hy : ∀ e ∈ w.m_newBlocks, ∀ q ∈ touchedSections M e,
      w.m_chunks.columnLoaded q = true → 0 ≤ q.y)
    (hfuel : ∀ e ∈ w.m_newBlocks, ∀ q ∈ touchedSections M e, q.y + 1 ≤ fuel) :
    ∃ w1 remesh, World.regenerateChunks M fuel w
        = .ok (w1, remesh, World.regenerateCalls remesh) ∧
      remesh = insertKeys []
        ((w.m_newBlocks.flatMap (touchedSections M)).filter
          (fun p => w.m_chunks.columnLoaded p)) ∧
      remesh.Nodup ∧
      w.m_chunks.Extends w1.m_chunks ∧
      w1.m_newBlocks = [] ∧
      (∀ q ∈ remesh, (w1.m_chunks.getSection q).isSome = true) := by
  obtain ⟨st1, h1, h2, h3, h4⟩ := applyNewBlocks_spec M hCS fuel w.m_newBlocks
    { chunks := w.m_chunks, chunksToUpdate := [] } hfl hown hy hfuel
  refine ⟨{ w with m_chunks := st1.chunks, m_newBlocks := [] }, st1.chunksToUpdate, ?_, h3,
    ?_, h2, rfl, ?_⟩
  · simp only [World.regenerateChunks, h1]
  · rw [h3]; exact nodup_insertKeys _ _ List.nodup_nil
  · intro q hq
    rw [h3, mem_insertKeys] at hq
    rcases hq with hq | hq
    · cases hq
    · obtain ⟨hq1, hq2⟩ := List.mem_filter.1 hq
      obtain ⟨e, he, hqe⟩ := List.mem_flatMap.1 hq1
      exact h4 e he q hqe hq2

theorem mem_touchedSections (M : Maths) (e : New_Block) (q : Chunk.Chunklet_Position) :
    q ∈ touchedSections M e ↔
      q = M.worldToChunkletPos e.position ∨
      q ∈ axisNeighbours M.CHUNK_SIZE (M.blockToSmallBlockPos (M.worldToBlockPos e.position)).x
        ⟨(M.worldToChunkletPos e.position).x - 1, (M.worldToChunkletPos e.position).y,
          (M.worldToChunkletPos e.position).z⟩
        ⟨(M.worldToChunkletPos e.position).x + 1, (M.worldToChunkletPos e.position).y,
          (M.worldToChunkletPos e.position).z⟩ ∨
      q ∈ axisNeighbours M.CHUNK_SIZE (M.blockToSmallBlockPos (M.worldToBlockPos e.position)).y
        ⟨(M.worldToChunkletPos e.position).x, (M.worldToChunkletPos e.position).y - 1,
          (M.worldToChunkletPos e.position).z⟩
        ⟨(M.worldToChunkletPos e.position).x, (M.worldToChunkletPos e.position).y + 1,
          (M.worldToChunkletPos e.position).z⟩ ∨
      q ∈ axisNeighbours M.CHUNK_SIZE (M.blockToSmallBlockPos (M.worldToBlockPos e.position)).z
        ⟨(M.worldToChunkletPos e.position).x, (M.worldToChunkletPos e.position).y,
          (M.worldToChunkletPos e.position).z - 1⟩
        ⟨(M.worldToChunkletPos e.position).x, (M.worldToChunkletPos e.position).y,
          (M.worldToChunkletPos e.position).z + 1⟩ := by
  simp only [touchedSections, List.mem_cons, List.mem_append]
  tauto

theorem mem_axisNeighbours_negative (chunkSize coordinate : Int)
    (negative positive : Chunk.Chunklet_Position) (h : coordinate = 0) :
    negative ∈ axisNeighbours chunkSize coordinate negative positive := by
  simp [axisNeighbours, h]

theorem mem_axisNeighbours_positive (chunkSize coordinate : Int)
    (negative positive : Chunk.Chunklet_Position) (h : coordinate = chunkSize - 1) :
    positive ∈ axisNeighbours chunkSize coordinate negative positive := by
  simp [axisNeighbours, if_pos h]

/-! ## C1: boundary remesh completeness -/

/-- C1 as stated fails. The store holds column (0,0) only; the edit at world
position (0,5,5) has within-section coordinate (0,5,5) in section (0,0,0).  Its
`x` coordinate is 0, yet the remesh set is `{(0,0,0)}`: the neighbour
(-1,0,0) is not in it and is not created, because `insertChunk` returns at once
when the neighbour's column is not loaded. -/
theorem boundary_neighbour_unloaded_counterexample :
    Maths.standard.worldToChunkletPos ⟨0, 5, 5⟩ = ⟨0, 0, 0⟩ ∧
    Maths.standard.blockToSmallBlockPos (Maths.standard.worldToBlockPos ⟨0, 5, 5⟩)
      = ⟨0, 5, 5⟩ ∧
    World.regenerateChunks Maths.standard 8
      ⟨⟨21, false⟩, [⟨⟨0, 0⟩, [⟨[]⟩], false, true⟩], [⟨⟨1⟩, ⟨0, 5, 5⟩⟩], [], 1, ⟨0, 0⟩⟩
      = .ok (⟨⟨21, false⟩, [⟨⟨0, 0⟩, [⟨[(⟨0, 5, 5⟩, ⟨1⟩)]⟩, ⟨[]⟩], false, true⟩], [], [], 1,
                ⟨0, 0⟩⟩,
             [⟨0, 0, 0⟩],
             [MeshCall.makeMesh ⟨0, 0, 0⟩, MeshCall.bufferMesh ⟨0, 0, 0⟩]) ∧
    (⟨-1, 0, 0⟩ : Chunk.Chunklet_Position) ∉ [(⟨0, 0, 0⟩ : Chunk.Chunklet_Position)] := by
  refine ⟨?_, ?_, ?_, ?_⟩ <;> decide!

/-- Beyond `2 ^ 24` sections the neighbour is computed inexactly, whatever is
loaded.  Columns (-16777218,0), (-16777219,0) and (-16777220,0) are loaded; the
edit at world position (-268435488,5,5), a `float`, has within-section
coordinate (0,5,5) in section (-16777218,0,0).  The `float` difference
`-16777218 - 1` is -16777220, so the remesh set holds (-16777220,0,0) and not the
neighbour (-16777219,0,0). -/
theorem boundary_neighbour_float_example :
    toFloat (-268435488) = -268435488 ∧
    Maths.standard.worldToChunkletPos ⟨-268435488, 5, 5⟩ = ⟨-16777218, 0, 0⟩ ∧
    Maths.standard.blockToSmallBlockPos (Maths.standard.worldToBlockPos ⟨-268435488, 5, 5⟩)
      = ⟨0, 5, 5⟩ ∧
    toInt (toFloat (toFloat ((-16777218 : Int) : ℚ) - 1)) = -16777220 ∧
    World.regenerateChunks Maths.standard 8
      ⟨⟨21, false⟩,
        [⟨⟨-16777218, 0⟩, [⟨[]⟩], false, true⟩, ⟨⟨-16777219, 0⟩, [⟨[]⟩], false, true⟩,
          ⟨⟨-16777220, 0⟩, [⟨[]⟩], false, true⟩],
        [⟨⟨1⟩, ⟨-268435488, 5, 5⟩⟩], [], 1, ⟨0, 0⟩⟩
      = .ok (⟨⟨21, false⟩,
               [⟨⟨-16777218, 0⟩, [⟨[(⟨0, 5, 5⟩, ⟨1⟩)]⟩, ⟨[]⟩], false, true⟩,
                 ⟨⟨-16777219, 0⟩, [⟨[]⟩], false, true⟩,
                 ⟨⟨-16777220, 0⟩, [⟨[]⟩], false, true⟩],
               [], [], 1, ⟨0, 0⟩⟩,
             [⟨-16777218, 0, 0⟩, ⟨-16777220, 0, 0⟩],
             [MeshCall.makeMesh ⟨-16777218, 0, 0⟩, MeshCall.bufferMesh ⟨-16777218, 0, 0⟩,
               MeshCall.makeMesh ⟨-16777220, 0, 0⟩, MeshCall.bufferMesh ⟨-16777220, 0, 0⟩]) := by
  refine ⟨?_, ?_, ?_, ?_, ?_⟩ <;> decide!

/-- C1, amended. Let every pending edit have its own column loaded and its
section coordinate of magnitude below `2 ^ 24` on each axis, let no section
touched in a loaded column have a negative index, and let the fuel exceed every
touched index.  Then `regenerateChunks` returns, rebuilding exactly the sections
of the remesh set, and for every pending edit the remesh set contains the edit's
own section and, on each axis independently, when the within-section coordinate
is 0 the section one step negative on that axis, and when it is
`CHUNK_SIZE - 1` the section one step positive on that axis, in both cases
provided that neighbour's column is loaded, the neighbour then existing in the
store afterwards.  A neighbour whose column is not loaded is skipped: it is not
in the remesh set, and neither its column nor the section is in the store
afterwards. -/
theorem boundary_remesh (M : Maths) (hCS : 1 < M.CHUNK_SIZE) (fuel : Nat) (w : World)
    (hfl : ∀ e ∈ w.m_newBlocks, (M.worldToChunkletPos e.position).inFloatRange)
    (hown : ∀ e ∈ w.m_newBlocks,
      w.m_chunks.columnLoaded (M.worldToChunkletPos e.position) = true)
    (hy : ∀ e ∈ w.m_newBlocks, ∀ q ∈ touchedSections M e,
      w.m_chunks.columnLoaded q = true → 0 ≤ q.y)
    (hfuel : ∀ e ∈ w.m_newBlocks, ∀ q ∈ touchedSections M e, q.y + 1 ≤ fuel) :
    ∃ w1 remesh, World.regenerateChunks M fuel w
        = .ok (w1, remesh, World.regenerateCalls remesh) ∧
      ∀ e ∈ w.m_newBlocks,
        M.worldToChunkletPos e.position ∈ remesh ∧
        ((M.blockToSmallBlockPos (M.worldToBlockPos e.position)).x = 0 →
          neighbourRemeshed w.m_chunks w1.m_chunks remesh
            ⟨(M.worldToChunkletPos e.position).x - 1, (M.worldToChunkletPos e.position).y,
              (M.worldToChunkletPos e.position).z⟩) ∧
        ((M.blockToSmallBlockPos (M.worldToBlockPos e.position)).x = M.CHUNK_SIZE - 1 →
          neighbourRemeshed w.m_chunks w1.m_chunks remesh
            ⟨(M.worldToChunkletPos e.position).x + 1, (M.worldToChunkletPos e.position).y,
              (M.worldToChunkletPos e.position).z⟩) ∧
        ((M.blockToSmallBlockPos (M.worldToBlockPos e.position)).y = 0 →
          neighbourRemeshed w.m_chunks w1.m_chunks remesh
            ⟨(M.worldToChunkletPos e.position).x, (M.worldToChunkletPos e.position).y - 1,
              (M.worldToChunkletPos e.position).z⟩) ∧
        ((M.blockToSmallBlockPos (M.worldToBlockPos e.position)).y = M.CHUNK_SIZE - 1 →
          neighbourRemeshed w.m_chunks w1.m_chunks remesh
            ⟨(M.worldToChunkletPos e.position).x, (M.worldToChunkletPos e.position).y + 1,
              (M.worldToChunkletPos e.position).z⟩) ∧
        ((M.blockToSmallBlockPos (M.worldToBlockPos e.position)).z = 0 →
          neighbourRemeshed w.m_chunks w1.m_chunks remesh
            ⟨(M.worldToChunkletPos e.position).x, (M.worldToChunkletPos e.position).y,
              (M.worldToChunkletPos e.position).z - 1⟩) ∧
        ((M.blockToSmallBlockPos (M.worldToBlockPos e.position)).z = M.CHUNK_SIZE - 1 →
          neighbourRemeshed w.m_chunks w1.m_chunks remesh
            ⟨(M.worldToChunkletPos e.position).x, (M.worldToChunkletPos e.position).y,
              (M.worldToChunkletPos e.position).z + 1⟩) := by
  obtain ⟨w1, remesh, h1, h2, -, hext, -, h6⟩ :=
    regenerateChunks_spec M hCS fuel w hfl hown hy hfuel
  have key : ∀ e ∈ w.m_newBlocks, ∀ q ∈ touchedSections M e,
      neighbourRemeshed w.m_chunks w1.m_chunks remesh q := by
    intro e he q hq
    constructor
    · intro hl
      have hmem : q ∈ remesh := by
        rw [h2, mem_insertKeys]
        exact Or.inr (List.mem_filter.2 ⟨List.mem_flatMap.2 ⟨e, he, hq⟩, hl⟩)
      exact ⟨hmem, h6 q hmem⟩
    · intro hl
      have hl1 : w1.m_chunks.columnLoaded q = false := by
        rw [hext.columnLoaded q]; exact hl
      refine ⟨?_, hl1, ?_⟩
      · intro hmem
        rw [h2, mem_insertKeys] at hmem
        rcases hmem with hmem | hmem
        · cases hmem
        · have := (List.mem_filter.1 hmem).2
          rw [hl] at this
          cases this
      · cases hsec : w1.m_chunks.getSection q with
        | none => rfl
        | some sec =>
          have hsome : (w1.m_chunks.getSection q).isSome = true := by rw [hsec]; rfl
          obtain ⟨c, hc, -, -⟩ := (Chunk.Map.sectionLoaded_iff _ q).1 hsome
          have hk : (⟨q.x, q.z⟩ : Chunk.Position) ∈ w1.m_chunks.keys := by
            by_contra hn
            rw [(Chunk.Map.get_eq_none_iff _ _).2 hn] at hc
            cases hc
          rw [(Chunk.Map.columnLoaded_iff _ q).2 hk] at hl1
          cases hl1
  refine ⟨w1, remesh, h1, fun e he => ⟨?_, ?_, ?_, ?_, ?_, ?_, ?_⟩⟩
  · exact ((key e he _ ((mem_touchedSections M e _).2 (Or.inl rfl))).1 (hown e he)).1
  · intro h
    exact key e he _ ((mem_touchedSections M e _).2
      (Or.inr (Or.inl (mem_axisNeighbours_negative _ _ _ _ h))))
  · intro h
    exact key e he _ ((mem_touchedSections M e _).2
      (Or.inr (Or.inl (mem_axisNeighbours_positive _ _ _ _ h))))
  · intro h
    exact key e he _ ((mem_touchedSections M e _).2
      (Or.inr (Or.inr (Or.inl (mem_axisNeighbours_negative _ _ _ _ h)))))
  · intro h
    exact key e he _ ((mem_touchedSections M e _).2
      (Or.inr (Or.inr (Or.inl (mem_axisNeighbours_positive _ _ _ _ h)))))
  · intro h
    exact key e he _ ((mem_touchedSections M e _).2
      (Or.inr (Or.inr (Or.inr (mem_axisNeighbours_negative _ _ _ _ h)))))
  · intro h
    exact key e he _ ((mem_touchedSections M e _).2
      (Or.inr (Or.inr (Or.inr (mem_axisNeighbours_positive _ _ _ _ h)))))

/-- Witness for C1 (amended): the scenario of the specification with one more
boundary.  Columns (2,2) and (1,2) are loaded, the latter without any section,
column (2,1) is not loaded; the edit at world position (32,21,32) lies at
within-section coordinate (0,5,0) of section (2,1,2).  The remesh set holds
(2,1,2) and (1,1,2), and section (1,1,2) has been created; the neighbour
(2,1,1) is not in the remesh set and its column is still not loaded. -/
theorem boundary_remesh_witness :
    ∃ w1 remesh, World.regenerateChunks Maths.standard 8
        ⟨⟨21, false⟩, [⟨⟨2, 2⟩, [⟨[]⟩, ⟨[]⟩, ⟨[]⟩], false, true⟩, ⟨⟨1, 2⟩, [], false, true⟩],
          [⟨⟨1⟩, ⟨32, 21, 32⟩⟩], [], 1, ⟨0, 0⟩⟩
          = .ok (w1, remesh, World.regenerateCalls remesh) ∧
      (⟨2, 1, 2⟩ : Chunk.Chunklet_Position) ∈ remesh ∧
      (⟨1, 1, 2⟩ : Chunk.Chunklet_Position) ∈ remesh ∧
      (w1.m_chunks.getSection ⟨1, 1, 2⟩).isSome = true ∧
      (⟨2, 1, 1⟩ : Chunk.Chunklet_Position) ∉ remesh ∧
      w1.m_chunks.columnLoaded ⟨2, 1, 1⟩ = false := by
  obtain ⟨w1, remesh, h1, h2⟩ := boundary_remesh Maths.standard (by decide) 8
    ⟨⟨21, false⟩, [⟨⟨2, 2⟩, [⟨[]⟩, ⟨[]⟩, ⟨[]⟩], false, true⟩, ⟨⟨1, 2⟩, [], false, true⟩],
      [⟨⟨1⟩, ⟨32, 21, 32⟩⟩], [], 1, ⟨0, 0⟩⟩
    (by decide!) (by decide!) (by decide!) (by decide!)
  obtain ⟨h3, h4, -, -, -, h5, -⟩ := h2 ⟨⟨1⟩, ⟨32, 21, 32⟩⟩ (List.mem_singleton_self _)
  have hs : Maths.standard.worldToChunkletPos ⟨32, 21, 32⟩ = ⟨2, 1, 2⟩ := by decide!
  have hbx : (Maths.standard.blockToSmallBlockPos
      (Maths.standard.worldToBlockPos ⟨32, 21, 32⟩)).x = 0 := by decide!
  have hbz : (Maths.standard.blockToSmallBlockPos
      (Maths.standard.worldToBlockPos ⟨32, 21, 32⟩)).z = 0 := by decide!
  simp only [hs] at h3 h4 h5
  obtain ⟨h6, h7⟩ := (h4 hbx).1 (by decide)
  obtain ⟨h8, h9, -⟩ := (h5 hbz).2 (by decide)
  exact ⟨w1, remesh, h1, h3, h6, h7, h8, h9⟩

/-! ## C2: the remesh set is exactly the touched sections, each rebuilt once -/

/-- C2 as stated fails. Column (16777218,0), its four neighbours in `x` and `z`
and column (16777216,0) are loaded, each with one section.  The edit at world
position (268435488,5,5), a `float`, has within-section coordinate (0,5,5) in
section (16777218,0,0), so the sections it touches are (16777218,0,0) and the
neighbour (16777217,0,0).  `checkForBatchAdd` computes the neighbour as
`16777218 - 1` in `float`, which is 16777216: the sections rebuilt are
(16777218,0,0) and (16777216,0,0), the neighbour (16777217,0,0) is not
rebuilt. -/
theorem remesh_float_rounding_counterexample :
    toFloat 268435488 = 268435488 ∧
    touchedSections Maths.standard ⟨⟨1⟩, ⟨268435488, 5, 5⟩⟩
      = [⟨16777218, 0, 0⟩, ⟨16777217, 0, 0⟩] ∧
    (∀ p ∈ [(⟨16777218, 0⟩ : Chunk.Position), ⟨16777217, 0⟩, ⟨16777219, 0⟩, ⟨16777218, 1⟩,
        ⟨16777218, -1⟩],
      Chunk.Map.existsAt
        [⟨⟨16777218, 0⟩, [⟨[]⟩], false, true⟩, ⟨⟨16777217, 0⟩, [⟨[]⟩], false, true⟩,
          ⟨⟨16777219, 0⟩, [⟨[]⟩], false, true⟩, ⟨⟨16777218, 1⟩, [⟨[]⟩], false, true⟩,
          ⟨⟨16777218, -1⟩, [⟨[]⟩], false, true⟩, ⟨⟨16777216, 0⟩, [⟨[]⟩], false, true⟩] p
        = true) ∧
    toInt (toFloat (toFloat ((16777218 : Int) : ℚ) - 1)) = 16777216 ∧
    World.regenerateChunks Maths.standard 8
      ⟨⟨21, false⟩,
        [⟨⟨16777218, 0⟩, [⟨[]⟩], false, true⟩, ⟨⟨16777217, 0⟩, [⟨[]⟩], false, true⟩,
          ⟨⟨16777219, 0⟩, [⟨[]⟩], false, true⟩, ⟨⟨16777218, 1⟩, [⟨[]⟩], false, true⟩,
          ⟨⟨16777218, -1⟩, [⟨[]⟩], false, true⟩, ⟨⟨16777216, 0⟩, [⟨[]⟩], false, true⟩],
        [⟨⟨1⟩, ⟨268435488, 5, 5⟩⟩], [], 1, ⟨0, 0⟩⟩
      = .ok (⟨⟨21, false⟩,
               [⟨⟨16777218, 0⟩, [⟨[(⟨0, 5, 5⟩, ⟨1⟩)]⟩, ⟨[]⟩], false, true⟩,
                 ⟨⟨16777217, 0⟩, [⟨[]⟩], false, true⟩,
                 ⟨⟨16777219, 0⟩, [⟨[]⟩], false, true⟩, ⟨⟨16777218, 1⟩, [⟨[]⟩], false, true⟩,
                 ⟨⟨16777218, -1⟩, [⟨[]⟩], false, true⟩,
                 ⟨⟨16777216, 0⟩, [⟨[]⟩], false, true⟩],
               [], [], 1, ⟨0, 0⟩⟩,
             [⟨16777218, 0, 0⟩, ⟨16777216, 0, 0⟩],
             [MeshCall.makeMesh ⟨16777218, 0, 0⟩, MeshCall.bufferMesh ⟨16777218, 0, 0⟩,
               MeshCall.makeMesh ⟨16777216, 0, 0⟩, MeshCall.bufferMesh ⟨16777216, 0, 0⟩]) ∧
    (⟨16777217, 0, 0⟩ : Chunk.Chunklet_Position) ∉
      [(⟨16777218, 0, 0⟩ : Chunk.Chunklet_Position), ⟨16777216, 0, 0⟩] := by
  refine ⟨?_, ?_, ?_, ?_, ?_, ?_⟩ <;> decide!

/-- C2, amended. Let every pending edit have its section coordinate of magnitude
below `2 ^ 24` on each axis, let every section touched by a pending edit (its
own section and its boundary neighbours) lie in a loaded column at a
non-negative index, and let the fuel exceed every touched index.  Then
`regenerateChunks` returns; a section is
in the remesh set exactly when some pending edit touches it; `makeMesh` and
`bufferMesh` are each called exactly once on every section of the remesh set and
never on another section.  In particular, for a single edit at within-section
coordinate (0,5,3) of section (2,1,2) with `CHUNK_SIZE` 16 the remesh set is
{(2,1,2), (1,1,2)}, and for a single edit with all three within-section
coordinates strictly between 0 and `CHUNK_SIZE - 1` it is the own section
alone. -/
theorem remesh_set_exact (M : Maths) (hCS : 1 < M.CHUNK_SIZE) (fuel : Nat) (w : World)
    (hfl : ∀ e ∈ w.m_newBlocks, (M.worldToChunkletPos e.position).inFloatRange)
    (hloaded : ∀ e ∈ w.m_newBlocks, ∀ q ∈ touchedSections M e,
      w.m_chunks.columnLoaded q = true)
    (hnonneg : ∀ e ∈ w.m_newBlocks, ∀ q ∈ touchedSections M e, 0 ≤ q.y)
    (hfuel : ∀ e ∈ w.m_newBlocks, ∀ q ∈ touchedSections M e, q.y + 1 ≤ fuel) :
    ∃ w1 remesh calls, World.regenerateChunks M fuel w = .ok (w1, remesh, calls) ∧
      (∀ q, q ∈ remesh ↔ ∃ e ∈ w.m_newBlocks, q ∈ touchedSections M e) ∧
      (∀ q, calls.count (MeshCall.makeMesh q) = if q ∈ remesh then 1 else 0) ∧
      (∀ q, calls.count (MeshCall.bufferMesh q) = if q ∈ remesh then 1 else 0) ∧
      (∀ e, w.m_newBlocks = [e] → M.CHUNK_SIZE = 16 →
        M.worldToChunkletPos e.position = ⟨2, 1, 2⟩ →
        M.blockToSmallBlockPos (M.worldToBlockPos e.position) = ⟨0, 5, 3⟩ →
        ∀ q, q ∈ remesh ↔ q = ⟨2, 1, 2⟩ ∨ q = ⟨1, 1, 2⟩) ∧
      (∀ e, w.m_newBlocks = [e] →
        (0 < (M.blockToSmallBlockPos (M.worldToBlockPos e.position)).x ∧
          (M.blockToSmallBlockPos (M.worldToBlockPos e.position)).x < M.CHUNK_SIZE - 1) →
        (0 < (M.blockToSmallBlockPos (M.worldToBlockPos e.position)).y ∧
          (M.blockToSmallBlockPos (M.worldToBlockPos e.position)).y < M.CHUNK_SIZE - 1) →
        (0 < (M.blockToSmallBlockPos (M.worldToBlockPos e.position)).z ∧
          (M.blockToSmallBlockPos (M.worldToBlockPos e.position)).z < M.CHUNK_SIZE - 1) →
        ∀ q, q ∈ remesh ↔ q = M.worldToChunkletPos e.position) := by
  obtain ⟨w1, remesh, h1, h2, h3, -, -, -⟩ := regenerateChunks_spec M hCS fuel w hfl
    (fun e he => hloaded e he _ ((mem_touchedSections M e _).2 (Or.inl rfl)))
    (fun e he q hq _ => hnonneg e he q hq) hfuel
  have hmem : ∀ q, q ∈ remesh ↔ ∃ e ∈ w.m_newBlocks, q ∈ touchedSections M e := by
    intro q
    rw [h2, mem_insertKeys, List.mem_filter, List.mem_flatMap]
    constructor
    · rintro (h | ⟨h, -⟩)
      · cases h
      · exact h
    · rintro ⟨e, he, hq⟩
      exact Or.inr ⟨⟨e, he, hq⟩, hloaded e he q hq⟩
  refine ⟨w1, remesh, _, h1, hmem, ?_, ?_, ?_, ?_⟩
  · intro q
    rw [count_regenerateCalls_makeMesh, count_of_nodup remesh h3 q]
  · intro q
    rw [count_regenerateCalls_bufferMesh, count_of_nodup remesh h3 q]
  · intro e he hcs hs hb q
    rw [hmem q, he]
    simp only [List.mem_singleton, exists_eq_left, touchedSections, axisNeighbours, hs, hb, hcs]
    simp
  · intro e he hx hyy hz q
    rw [hmem q, he]
    have hx0 : ¬ (M.blockToSmallBlockPos (M.worldToBlockPos e.position)).x = 0 := by omega
    have hx1 : ¬ (M.blockToSmallBlockPos (M.worldToBlockPos e.position)).x
        = M.CHUNK_SIZE - 1 := by omega
    have hy0 : ¬ (M.blockToSmallBlockPos (M.worldToBlockPos e.position)).y = 0 := by omega
    have hy1 : ¬ (M.blockToSmallBlockPos (M.worldToBlockPos e.position)).y
        = M.CHUNK_SIZE - 1 := by omega
    have hz0 : ¬ (M.blockToSmallBlockPos (M.worldToBlockPos e.position)).z = 0 := by omega
    have hz1 : ¬ (M.blockToSmallBlockPos (M.worldToBlockPos e.position)).z
        = M.CHUNK_SIZE - 1 := by omega
    simp [touchedSections, axisNeighbours, hx0, hx1, hy0, hy1, hz0, hz1]

/-- Witness for C2 (amended): the scenario of the specification, two edits to the same
block at within-section coordinate (0,5,3) of section (2,1,2); the remesh set is
{(2,1,2), (1,1,2)} and each of the two is rebuilt once. -/
theorem remesh_set_exact_witness :
    ∃ w1 remesh calls, World.regenerateChunks Maths.standard 8
        ⟨⟨21, false⟩, [⟨⟨2, 2⟩, [⟨[]⟩, ⟨[]⟩, ⟨[]⟩], false, true⟩, ⟨⟨1, 2⟩, [], false, true⟩],
          [⟨⟨1⟩, ⟨32, 21, 35⟩⟩, ⟨⟨2⟩, ⟨32, 21, 35⟩⟩], [], 1, ⟨0, 0⟩⟩
          = .ok (w1, remesh, calls) ∧
      (∀ q, q ∈ remesh ↔ q = ⟨2, 1, 2⟩ ∨ q = ⟨1, 1, 2⟩) ∧
      calls.count (MeshCall.makeMesh ⟨2, 1, 2⟩) = 1 ∧
      calls.count (MeshCall.bufferMesh ⟨1, 1, 2⟩) = 1 := by
  obtain ⟨w1, remesh, calls, h1, h2, h3, h4, -⟩ := remesh_set_exact Maths.standard
    (by decide) 8
    ⟨⟨21, false⟩, [⟨⟨2, 2⟩, [⟨[]⟩, ⟨[]⟩, ⟨[]⟩], false, true⟩, ⟨⟨1, 2⟩, [], false, true⟩],
      [⟨⟨1⟩, ⟨32, 21, 35⟩⟩, ⟨⟨2⟩, ⟨32, 21, 35⟩⟩], [], 1, ⟨0, 0⟩⟩
    (by decide!) (by decide!) (by decide!) (by decide!)
  have ht : ∀ b : CBlock, touchedSections Maths.standard ⟨b, ⟨32, 21, 35⟩⟩
      = [⟨2, 1, 2⟩, ⟨1, 1, 2⟩] := by
    intro b
    have hs : Maths.standard.worldToChunkletPos ⟨32, 21, 35⟩ = ⟨2, 1, 2⟩ := by decide!
    have hb : Maths.standard.blockToSmallBlockPos
        (Maths.standard.worldToBlockPos ⟨32, 21, 35⟩) = ⟨0, 5, 3⟩ := by decide!
    have hc : Maths.standard.CHUNK_SIZE = 16 := rfl
    simp only [touchedSections, hs, hb, hc]
    decide
  have hset : ∀ q, q ∈ remesh ↔ q = ⟨2, 1, 2⟩ ∨ q = ⟨1, 1, 2⟩ := by
    intro q
    rw [h2 q]
    simp [ht]
  refine ⟨w1, remesh, calls, h1, hset, ?_, ?_⟩
  · rw [h3, if_pos ((hset _).2 (Or.inl rfl))]
  · rw [h4, if_pos ((hset _).2 (Or.inr rfl))]

/-! ## C5: sections are created only when needed -/

/-- C5 (the code at the failing input). Column (0,0) has one section, so the
target section (0,0,0) of the edit at world position (5,5,5) exists already; the
edit is nowhere near a section boundary.  The claim wants no section added;
`regenerateChunks` leaves the column with two sections, because the loop of
World.cpp 198-202 starts from `chunk = nullptr` and calls `addSection` before
its first test. -/
theorem regenerateChunks_adds_section_above_target :
    Maths.standard.worldToChunkletPos ⟨5, 5, 5⟩ = ⟨0, 0, 0⟩ ∧
    Maths.standard.blockToSmallBlockPos (Maths.standard.worldToBlockPos ⟨5, 5, 5⟩)
      = ⟨5, 5, 5⟩ ∧
    (Chunk.Map.getSection [⟨⟨0, 0⟩, [⟨[]⟩], false, true⟩] ⟨0, 0, 0⟩).isSome = true ∧
    World.regenerateChunks Maths.standard 8
      ⟨⟨21, false⟩, [⟨⟨0, 0⟩, [⟨[]⟩], false, true⟩], [⟨⟨1⟩, ⟨5, 5, 5⟩⟩], [], 1, ⟨0, 0⟩⟩
      = .ok (⟨⟨21, false⟩, [⟨⟨0, 0⟩, [⟨[(⟨5, 5, 5⟩, ⟨1⟩)]⟩, ⟨[]⟩], false, true⟩], [], [], 1,
                ⟨0, 0⟩⟩,
             [⟨0, 0, 0⟩],
             [MeshCall.makeMesh ⟨0, 0, 0⟩, MeshCall.bufferMesh ⟨0, 0, 0⟩]) := by
  refine ⟨?_, ?_, ?_, ?_⟩ <;> decide!

/-! ## C18: the loading distance stays in range -/

theorem tdiv_two_eq (n : Int) (h : 0 ≤ n) : n.tdiv 2 = n / 2 :=
  Int.tdiv_eq_ediv h (by decide)

theorem buildMeshes_loadingDistance (M : Maths) (tryGen : Generator) (w : World)
    (camera : Camera) :
    ∃ w1 calls, World.buildMeshes M tryGen w camera = .ok (w1, calls) ∧
      w1.m_worldSettings = w.m_worldSettings ∧
      (w1.m_loadingDistance = World.resetLoadingDistance w ∨
        w1.m_loadingDistance = World.resetLoadingDistance w + 1) := by
  refine ⟨_, _, buildMeshes_eq M tryGen w camera, ?_, ?_⟩
  · cases hinf : w.m_worldSettings.isInfiniteTerrain <;> simp [hinf]
  · cases hinf : w.m_worldSettings.isInfiniteTerrain <;>
      cases hm : (World.scanResult M tryGen w camera).isMeshMade <;> simp [hinf, hm]

theorem resetLoadingDistance_range (w : World) (hws : 2 ≤ w.m_worldSettings.worldSize)
    (h1 : 1 ≤ w.m_loadingDistance)
    (h2 : w.m_loadingDistance ≤ w.m_worldSettings.worldSize.tdiv 2 + 1) :
    1 ≤ World.resetLoadingDistance w ∧
      World.resetLoadingDistance w ≤ w.m_worldSettings.worldSize.tdiv 2 := by
  have hd := tdiv_two_eq w.m_worldSettings.worldSize (by omega)
  unfold World.resetLoadingDistance
  split
  · constructor
    · exact Int.le_refl 1
    · rw [hd]; omega
  · constructor
    · exact h1
    · omega

theorem scanOrder_ne_nil (lo hi loz hiz : Int) (h : lo < hi) (hz : loz < hiz) :
    scanOrder (loopRange lo hi) (loopRange loz hiz) ≠ [] := by
  have hm : (⟨lo, loz⟩ : Chunk.Position) ∈ scanOrder (loopRange lo hi) (loopRange loz hiz) := by
    rw [mem_scanOrder, mem_loopRange, mem_loopRange]
    simp only []
    omega
  intro hnil
  rw [hnil] at hm
  cases hm

/-- The scan of `buildMeshes` in terms of the radius `r` left by the head test:
the columns attempted, in call order, are an initial part of the window of
half-width `r` around the centre of the scan, all of it when no attempt
succeeded, and the distance stored afterwards is `r` after a success and `r + 1`
otherwise. -/
theorem buildMeshes_radius (M : Maths) (tryGen : Generator) (w : World) (camera : Camera)
    (r : Int) (hr : r = World.resetLoadingDistance w) (c : Chunk.Position)
    (hc : c = if w.m_worldSettings.isInfiniteTerrain then M.worldToChunkPos camera.position
      else ⟨w.m_worldSettings.worldSize.tdiv 2, w.m_worldSettings.worldSize.tdiv 2⟩) :
    ∃ w1 calls rest, World.buildMeshes M tryGen w camera = .ok (w1, calls) ∧
      w1.m_worldSettings = w.m_worldSettings ∧
      calls.map Prod.fst ++ rest
        = scanOrder (loopRange (c.x - r) (c.x + r)) (loopRange (c.y - r) (c.y + r)) ∧
      (((∀ call ∈ calls, call.2 = false) ∧ rest = [] ∧ w1.m_loadingDistance = r + 1) ∨
        ((∃ call ∈ calls, call.2 = true) ∧ w1.m_loadingDistance = r)) := by
  obtain ⟨rest, hsplit, hcase⟩ := scanResult_calls M tryGen w camera
  have hwin : World.scanWindow M w camera
      = scanOrder (loopRange (c.x - r) (c.x + r)) (loopRange (c.y - r) (c.y + r)) := by
    rw [hc, hr]
    unfold World.scanWindow World.scanBounds
    cases hinf : w.m_worldSettings.isInfiniteTerrain <;> simp
  have hld : ∀ b : Bool, (World.scanResult M tryGen w camera).isMeshMade = b →
      ∃ w1, World.buildMeshes M tryGen w camera
          = .ok (w1, (World.scanResult M tryGen w camera).calls) ∧
        w1.m_worldSettings = w.m_worldSettings ∧
        w1.m_loadingDistance = if b then r else r + 1 := by
    intro b hb
    refine ⟨_, buildMeshes_eq M tryGen w camera, ?_, ?_⟩
    · cases hinf : w.m_worldSettings.isInfiniteTerrain <;> simp
    · cases hinf : w.m_worldSettings.isInfiniteTerrain <;> simp [hb, hr]
  rcases hcase with ⟨hm, hrest, hall⟩ | ⟨hm, init, p, hcalls, -⟩
  · obtain ⟨w1, hb, hs, hl⟩ := hld false hm
    refine ⟨w1, _, rest, hb, hs, ?_, Or.inl ⟨hall, hrest, ?_⟩⟩
    · rw [← hwin, hsplit]
    · simpa using hl
  · obtain ⟨w1, hb, hs, hl⟩ := hld true hm
    refine ⟨w1, _, rest, hb, hs, ?_, Or.inr ⟨⟨(p, true), ?_, rfl⟩, ?_⟩⟩
    · rw [← hwin, hsplit]
    · rw [hcalls]; simp
    · simpa using hl

/-- C18. For `worldSize ≥ 2`, if `1 ≤ m_loadingDistance ≤ worldSize / 2 + 1`
holds before a scheduler iteration, the iteration returns and the same holds
after it, whatever the `tryGen` calls return.  The radius `r` the iteration
scans with is the stored distance, or 1 when the stored distance is
`worldSize / 2 + 1`, and `1 ≤ r ≤ worldSize / 2`: the iteration makes at least
one `tryGen` call, and the columns it calls `tryGen` on, in call order, are an
initial part of the window of half-width `r` (from `centre - r` up to, not
including, `centre + r` on both axes, `x` outer and `z` inner) around the camera
column on infinite terrain and around `(worldSize / 2, worldSize / 2)` on a
bounded world; they are the whole window when no call reports a generation, and
then the distance stored is `r + 1`, otherwise it is `r`. -/
theorem loadingDistance_range (M : Maths) (tryGen : Generator) (w : World) (camera : Camera)
    (hws : 2 ≤ w.m_worldSettings.worldSize) (h1 : 1 ≤ w.m_loadingDistance)
    (h2 : w.m_loadingDistance ≤ w.m_worldSettings.worldSize.tdiv 2 + 1) :
    ∃ w1 calls r rest c, World.buildMeshes M tryGen w camera = .ok (w1, calls) ∧
      (1 ≤ w1.m_loadingDistance ∧
        w1.m_loadingDistance ≤ w1.m_worldSettings.worldSize.tdiv 2 + 1) ∧
      r = (if w.m_loadingDistance = w.m_worldSettings.worldSize.tdiv 2 + 1 then 1
        else w.m_loadingDistance) ∧
      (1 ≤ r ∧ r ≤ w.m_worldSettings.worldSize.tdiv 2) ∧
      c = (if w.m_worldSettings.isInfiniteTerrain then M.worldToChunkPos camera.position
        else ⟨w.m_worldSettings.worldSize.tdiv 2, w.m_worldSettings.worldSize.tdiv 2⟩) ∧
      calls ≠ [] ∧
      calls.map Prod.fst ++ rest
        = scanOrder (loopRange (c.x - r) (c.x + r)) (loopRange (c.y - r) (c.y + r)) ∧
      (((∀ call ∈ calls, call.2 = false) ∧ rest = [] ∧ w1.m_loadingDistance = r + 1) ∨
        ((∃ call ∈ calls, call.2 = true) ∧ w1.m_loadingDistance = r)) := by
  have hr := resetLoadingDistance_range w hws h1 h2
  obtain ⟨w1, calls, rest, hb, hs, hwin, hcase⟩ := buildMeshes_radius M tryGen w camera
    (World.resetLoadingDistance w) rfl _ rfl
  refine ⟨w1, calls, World.resetLoadingDistance w, rest, _, hb, ?_, rfl, hr, rfl, ?_, hwin,
    hcase⟩
  · rw [hs]
    rcases hcase with ⟨-, -, hl⟩ | ⟨-, hl⟩ <;> omega
  · rcases hcase with ⟨-, hrest, -⟩ | ⟨⟨call, hcall, -⟩, -⟩
    · intro hnil
      rw [hnil, hrest] at hwin
      exact scanOrder_ne_nil _ _ _ _ (by omega) (by omega) hwin.symm
    · intro hnil
      rw [hnil] at hcall
      cases hcall

/-- Witness for C18: bounded world of size 3 at loading distance 2, the value at
which the head test resets the distance.  The scan runs at radius 1 around
column (1,1): its first call is on column (0,0), not on column (-1,-1) of the
window of radius 2, and the distance stays 1 because the call generates. -/
theorem loadingDistance_range_witness :
    ∃ w1 calls rest, World.buildMeshes Maths.standard Generator.standard
        ⟨⟨3, false⟩, [], [], [], 2, ⟨0, 0⟩⟩ ⟨⟨24, 0, 24⟩⟩ = .ok (w1, calls) ∧
      calls = [(⟨0, 0⟩, true)] ∧
      calls.map Prod.fst ++ rest = scanOrder (loopRange 0 2) (loopRange 0 2) ∧
      w1.m_loadingDistance = 1 := by
  obtain ⟨w1, calls, r, rest, c, hb, -, hr, -, hc, -, hwin, -⟩ :=
    loadingDistance_range Maths.standard Generator.standard
      ⟨⟨3, false⟩, [], [], [], 2, ⟨0, 0⟩⟩ ⟨⟨24, 0, 24⟩⟩ (by decide) (by decide) (by decide)
  have hr1 : r = 1 := by rw [hr]; decide
  have hc1 : c = ⟨1, 1⟩ := by rw [hc]; decide
  rw [hr1, hc1] at hwin
  have hval : World.buildMeshes Maths.standard Generator.standard
      ⟨⟨3, false⟩, [], [], [], 2, ⟨0, 0⟩⟩ ⟨⟨24, 0, 24⟩⟩
      = .ok (⟨⟨3, false⟩, [⟨⟨0, 0⟩, [], false, true⟩], [], [], 1, ⟨1, 1⟩⟩,
          [(⟨0, 0⟩, true)]) := by decide!
  rw [hval] at hb
  cases hb
  exact ⟨_, _, rest, hval, rfl, hwin, rfl⟩

/-! ## C19: no column is loaded and evicted in the same iteration -/

/-- C19. On an infinite-terrain world with `worldSize ≥ 2` and
`1 ≤ m_loadingDistance ≤ worldSize / 2 + 1` at the start of the iteration, every
column of the scan window lies strictly between `cam - worldSize/2 - 1` and
`cam + worldSize/2 + 1` on both axes, `cam` being the camera column.  The
iteration returns, and no column of the window (so no column it visited or
inserted) is appended to the deletion queue by it or has its delete flag
changed by it. -/
theorem scan_window_retained (M : Maths) (tryGen : Generator) (hf : tryGen.Frame) (w : World)
    (camera : Camera) (hinf : w.m_worldSettings.isInfiniteTerrain = true)
    (hws : 2 ≤ w.m_worldSettings.worldSize) (h1 : 1 ≤ w.m_loadingDistance)
    (h2 : w.m_loadingDistance ≤ w.m_worldSettings.worldSize.tdiv 2 + 1) :
    (∀ p ∈ World.scanWindow M w camera,
      ((M.worldToChunkPos camera.position).x - w.m_worldSettings.worldSize.tdiv 2 - 1 < p.x ∧
        p.x < (M.worldToChunkPos camera.position).x + w.m_worldSettings.worldSize.tdiv 2 + 1) ∧
      ((M.worldToChunkPos camera.position).y - w.m_worldSettings.worldSize.tdiv 2 - 1 < p.y ∧
        p.y < (M.worldToChunkPos camera.position).y + w.m_worldSettings.worldSize.tdiv 2 + 1)) ∧
    ∃ w1 calls added, World.buildMeshes M tryGen w camera = .ok (w1, calls) ∧
      w1.m_deleteChunks = w.m_deleteChunks ++ added ∧
      (∀ c ∈ calls, c.1 ∈ World.scanWindow M w camera) ∧
      (∀ p, w1.m_chunks.existsAt p = true → w.m_chunks.existsAt p = false →
        p ∈ World.scanWindow M w camera) ∧
      (∀ p ∈ World.scanWindow M w camera,
        p ∉ added ∧ w1.m_chunks.flagAt p = w.m_chunks.flagAt p) := by
  obtain ⟨hr1, hr2⟩ := resetLoadingDistance_range w hws h1 h2
  have hwin : ∀ p ∈ World.scanWindow M w camera,
      ((M.worldToChunkPos camera.position).x - w.m_worldSettings.worldSize.tdiv 2 - 1 < p.x ∧
        p.x < (M.worldToChunkPos camera.position).x + w.m_worldSettings.worldSize.tdiv 2 + 1) ∧
      ((M.worldToChunkPos camera.position).y - w.m_worldSettings.worldSize.tdiv 2 - 1 < p.y ∧
        p.y < (M.worldToChunkPos camera.position).y
          + w.m_worldSettings.worldSize.tdiv 2 + 1) := by
    intro p hp
    rw [mem_scanWindow] at hp
    simp only [World.scanBounds, hinf, if_true] at hp
    omega
  have hnot : ∀ p ∈ World.scanWindow M w camera,
      ¬ outOfBounds (M.worldToChunkPos camera.position)
        (w.m_worldSettings.worldSize.tdiv 2 + 1) p := by
    intro p hp ho
    have := hwin p hp
    unfold outOfBounds at ho
    omega
  obtain ⟨rest, hsplit, -⟩ := scanResult_calls M tryGen w camera
  obtain ⟨hkeys, hflag, -⟩ := scanResult_store M tryGen hf w camera
  have hcallwin : ∀ c ∈ (World.scanResult M tryGen w camera).calls,
      c.1 ∈ World.scanWindow M w camera := by
    intro c hc
    rw [hsplit]
    exact List.mem_append_left _ (List.mem_map_of_mem Prod.fst hc)
  refine ⟨hwin, _, _, newlyQueued (M.worldToChunkPos camera.position)
    (w.m_worldSettings.worldSize.tdiv 2 + 1) (World.scanResult M tryGen w camera).chunks,
    buildMeshes_eq M tryGen w camera, ?_, hcallwin, ?_, ?_⟩
  · simp only [hinf, if_true]
  · intro p hp hpn
    simp only [hinf, if_true] at hp
    rw [Chunk.Map.existsAt_iff_mem_keys, keys_map_markOutOfBounds] at hp
    rw [Chunk.Map.existsAt_eq_false_iff] at hpn
    rcases (hkeys p).1 hp with h | h
    · exact absurd h hpn
    · obtain ⟨c, hc, rfl⟩ := List.mem_map.1 h
      exact hcallwin c hc
  · intro p hp
    simp only [hinf, if_true]
    constructor
    · intro hmem
      obtain ⟨c, -, -, ho, -⟩ := (mem_newlyQueued _ _ _ p).1 hmem
      exact hnot p hp ho
    · by_cases hk : p ∈ (World.scanResult M tryGen w camera).chunks.keys
      · rw [flagAt_map_markOutOfBounds _ _ _ _ hk, hflag p]
        simp [hnot p hp]
      · have hk1 : p ∉ Chunk.Map.keys ((World.scanResult M tryGen w camera).chunks.map
            (markOutOfBounds (M.worldToChunkPos camera.position)
              (w.m_worldSettings.worldSize.tdiv 2 + 1))) := by
          rw [keys_map_markOutOfBounds]; exact hk
        have e1 : Chunk.Map.flagAt ((World.scanResult M tryGen w camera).chunks.map
            (markOutOfBounds (M.worldToChunkPos camera.position)
              (w.m_worldSettings.worldSize.tdiv 2 + 1))) p = false := by
          simp [Chunk.Map.flagAt, (Chunk.Map.get_eq_none_iff _ p).2 hk1]
        have e2 : (World.scanResult M tryGen w camera).chunks.flagAt p = false := by
          simp [Chunk.Map.flagAt, (Chunk.Map.get_eq_none_iff _ p).2 hk]
        rw [e1, ← hflag p, e2]

/-- Witness for C19: a fresh infinite-terrain world of size 21 at loading
distance 11 with the camera in column (10,10); column (9,9) is inserted, it is
not queued and not flagged. -/
theorem scan_window_retained_witness :
    ∃ w1 calls, World.buildMeshes Maths.standard Generator.standard
        ⟨⟨21, true⟩, [], [], [], 11, ⟨0, 0⟩⟩ ⟨⟨160, 0, 160⟩⟩ = .ok (w1, calls) ∧
      calls = [(⟨9, 9⟩, true)] ∧ w1.m_chunks.existsAt ⟨9, 9⟩ = true ∧
      w1.m_deleteChunks = [] ∧ w1.m_chunks.flagAt ⟨9, 9⟩ = false := by
  obtain ⟨-, w1, calls, added, h1, h2, -, -, h5⟩ := scan_window_retained Maths.standard
    Generator.standard Generator.standard_frame ⟨⟨21, true⟩, [], [], [], 11, ⟨0, 0⟩⟩
    ⟨⟨160, 0, 160⟩⟩ rfl (by decide) (by decide) (by decide)
  have he := buildMeshes_eq Maths.standard Generator.standard
    ⟨⟨21, true⟩, [], [], [], 11, ⟨0, 0⟩⟩ ⟨⟨160, 0, 160⟩⟩
  rw [h1] at he
  have hcalls := congrArg (fun r => r.2) (Except.ok.inj he)
  have hstore := congrArg (fun r => r.1.m_chunks.existsAt ⟨9, 9⟩) (Except.ok.inj he)
  have hq := congrArg (fun r => r.1.m_deleteChunks) (Except.ok.inj he)
  simp only [] at hcalls hstore hq
  have hwin : (⟨9, 9⟩ : Chunk.Position) ∈ World.scanWindow Maths.standard
      ⟨⟨21, true⟩, [], [], [], 11, ⟨0, 0⟩⟩ ⟨⟨160, 0, 160⟩⟩ := by decide!
  refine ⟨w1, calls, h1, ?_, ?_, ?_, ?_⟩
  · rw [hcalls]; decide!
  · rw [hstore]; decide!
  · rw [hq]; decide!
  · rw [(h5 _ hwin).2]; rfl

/-! ## C20: a bounded world never grows beyond its grid -/

/-- C20. On a bounded world with `worldSize ≥ 2` and
`1 ≤ m_loadingDistance ≤ worldSize / 2 + 1` at the start of the iteration, the
iteration returns and every column that is in the store after it and was not
before has `0 ≤ x < worldSize` and `0 ≤ z < worldSize`. -/
theorem bounded_scan_contained (M : Maths) (tryGen : Generator) (hf : tryGen.Frame)
    (w : World) (camera : Camera) (hb : w.m_worldSettings.isInfiniteTerrain = false)
    (hws : 2 ≤ w.m_worldSettings.worldSize) (h1 : 1 ≤ w.m_loadingDistance)
    (h2 : w.m_loadingDistance ≤ w.m_worldSettings.worldSize.tdiv 2 + 1) :
    ∃ w1 calls, World.buildMeshes M tryGen w camera = .ok (w1, calls) ∧
      ∀ p, w1.m_chunks.existsAt p = true → w.m_chunks.existsAt p = false →
        (0 ≤ p.x ∧ p.x < w.m_worldSettings.worldSize) ∧
        (0 ≤ p.y ∧ p.y < w.m_worldSettings.worldSize) := by
  obtain ⟨hr1, hr2⟩ := resetLoadingDistance_range w hws h1 h2
  have hd := tdiv_two_eq w.m_worldSettings.worldSize (by omega)
  obtain ⟨rest, hsplit, -⟩ := scanResult_calls M tryGen w camera
  obtain ⟨hkeys, -, -⟩ := scanResult_store M tryGen hf w camera
  refine ⟨_, _, buildMeshes_eq M tryGen w camera, ?_⟩
  intro p hp hpn
  simp only [hb] at hp
  rw [Chunk.Map.existsAt_iff_mem_keys] at hp
  rw [Chunk.Map.existsAt_eq_false_iff] at hpn
  have hwin : p ∈ World.scanWindow M w camera := by
    rcases (hkeys p).1 (by simpa using hp) with h | h
    · exact absurd h hpn
    · rw [hsplit]
      exact List.mem_append_left _ h
  rw [mem_scanWindow] at hwin
  simp only [World.scanBounds, hb] at hwin
  rw [hd] at hwin hr2
  simp only [Bool.false_eq_true, if_false] at hwin
  omega

/-- Witness for C20: a fresh bounded world of size 2 at loading distance 1; the
column inserted is (0,0). -/
theorem bounded_scan_contained_witness :
    ∃ w1 calls, World.buildMeshes Maths.standard Generator.standard
        ⟨⟨2, false⟩, [], [], [], 1, ⟨0, 0⟩⟩ ⟨⟨0, 0, 0⟩⟩ = .ok (w1, calls) ∧
      w1.m_chunks.existsAt ⟨0, 0⟩ = true ∧
      ∀ p, w1.m_chunks.existsAt p = true → (0 ≤ p.x ∧ p.x < 2) ∧ (0 ≤ p.y ∧ p.y < 2) := by
  obtain ⟨w1, calls, h1, h2⟩ := bounded_scan_contained Maths.standard Generator.standard
    Generator.standard_frame ⟨⟨2, false⟩, [], [], [], 1, ⟨0, 0⟩⟩ ⟨⟨0, 0, 0⟩⟩ rfl
    (by decide) (by decide) (by decide)
  have he := buildMeshes_eq Maths.standard Generator.standard
    ⟨⟨2, false⟩, [], [], [], 1, ⟨0, 0⟩⟩ ⟨⟨0, 0, 0⟩⟩
  rw [h1] at he
  have hstore := congrArg (fun r => r.1.m_chunks.existsAt ⟨0, 0⟩) (Except.ok.inj he)
  simp only [] at hstore
  refine ⟨w1, calls, h1, ?_, fun p hp => h2 p hp rfl⟩
  rw [hstore]; decide!

/-! ## C13: the player-bounds clamp on a bounded world -/

theorem worldExtent_ge_one (M : Maths) (w : World) (hws : 1 ≤ w.m_worldSettings.worldSize)
    (hcs : 1 ≤ M.CHUNK_SIZE) :
    (1 : ℚ) ≤ ((w.m_worldSettings.worldSize * M.CHUNK_SIZE : Int) : ℚ) := by
  have h : (1 : Int) ≤ w.m_worldSettings.worldSize * M.CHUNK_SIZE := by nlinarith
  exact_mod_cast h

/-- C13. On a bounded world with `worldSize ≥ 1` (and sections at least one block
wide), over exact rationals: after `checkPlayerBounds` the `x` and `z` of the
position lie in `[0.2, worldSize * CHUNK_SIZE - 0.3]`, `y` is as before, and a
position whose `x` and `z` were in `[0.2, worldSize * CHUNK_SIZE - 0.4]` is
unchanged. -/
theorem checkPlayerBounds_bounded (M : Maths) (w : World) (player : Player)
    (hb : w.m_worldSettings.isInfiniteTerrain = false)
    (hws : 1 ≤ w.m_worldSettings.worldSize) (hcs : 1 ≤ M.CHUNK_SIZE) :
    ((0.2 : ℚ) ≤ (World.checkPlayerBounds M w player).position.x ∧
      (World.checkPlayerBounds M w player).position.x
        ≤ ((w.m_worldSettings.worldSize * M.CHUNK_SIZE : Int) : ℚ) - 0.3) ∧
    ((0.2 : ℚ) ≤ (World.checkPlayerBounds M w player).position.z ∧
      (World.checkPlayerBounds M w player).position.z
        ≤ ((w.m_worldSettings.worldSize * M.CHUNK_SIZE : Int) : ℚ) - 0.3) ∧
    (World.checkPlayerBounds M w player).position.y = player.position.y ∧
    (((0.2 : ℚ) ≤ player.position.x ∧
        player.position.x ≤ ((w.m_worldSettings.worldSize * M.CHUNK_SIZE : Int) : ℚ) - 0.4) →
      ((0.2 : ℚ) ≤ player.position.z ∧
        player.position.z ≤ ((w.m_worldSettings.worldSize * M.CHUNK_SIZE : Int) : ℚ) - 0.4) →
      World.checkPlayerBounds M w player = player) := by
  have hE := worldExtent_ge_one M w hws hcs
  obtain ⟨⟨x, y, z⟩⟩ := player
  have clamp : ∀ v : ℚ,
      (0.2 : ℚ) ≤ (if (if v < 0.2 then 0.2 else v) + 0.2
            > ((w.m_worldSettings.worldSize * M.CHUNK_SIZE : Int) : ℚ) - 0.2
          then ((w.m_worldSettings.worldSize * M.CHUNK_SIZE : Int) : ℚ) - 0.3
          else (if v < 0.2 then 0.2 else v)) ∧
      (if (if v < 0.2 then 0.2 else v) + 0.2
            > ((w.m_worldSettings.worldSize * M.CHUNK_SIZE : Int) : ℚ) - 0.2
          then ((w.m_worldSettings.worldSize * M.CHUNK_SIZE : Int) : ℚ) - 0.3
          else (if v < 0.2 then 0.2 else v))
        ≤ ((w.m_worldSettings.worldSize * M.CHUNK_SIZE : Int) : ℚ) - 0.3 := by
    intro v
    by_cases h1 : v < 0.2
    · rw [if_pos h1]
      split_ifs with h2
      · constructor <;> first | (norm_num at *; done) | (norm_num at *; linarith)
      · constructor <;> first | (norm_num at *; done) | (norm_num at *; linarith)
    · rw [if_neg h1]
      split_ifs with h2
      · constructor <;> first | (norm_num at *; done) | (norm_num at *; linarith)
      · constructor <;> first | (norm_num at *; done) | (norm_num at *; linarith)
  simp only [World.checkPlayerBounds, hb, Bool.false_eq_true, if_false]
  refine ⟨clamp x, clamp z, trivial, ?_⟩
  rintro ⟨hx1, hx2⟩ ⟨hz1, hz2⟩
  have a1 : ¬ x < 0.2 := not_lt.2 hx1
  have a2 : ¬ z < 0.2 := not_lt.2 hz1
  have a3 : ¬ x + 0.2 > ((w.m_worldSettings.worldSize * M.CHUNK_SIZE : Int) : ℚ) - 0.2 := by
    norm_num at *; linarith
  have a4 : ¬ z + 0.2 > ((w.m_worldSettings.worldSize * M.CHUNK_SIZE : Int) : ℚ) - 0.2 := by
    norm_num at *; linarith
  rw [if_neg a1, if_neg a2, if_neg a3, if_neg a4]

/-- Witness for C13: a world of 21 columns of width 16; a player at
`(-3, 70, 400)` ends at `(0.2, 70, 335.7)`. -/
theorem checkPlayerBounds_bounded_witness :
    (World.checkPlayerBounds Maths.standard ⟨⟨21, false⟩, [], [], [], 1, ⟨0, 0⟩⟩
        ⟨⟨-3, 70, 400⟩⟩).position.y = 70 ∧
    (0.2 : ℚ) ≤ (World.checkPlayerBounds Maths.standard ⟨⟨21, false⟩, [], [], [], 1, ⟨0, 0⟩⟩
        ⟨⟨-3, 70, 400⟩⟩).position.x ∧
    (World.checkPlayerBounds Maths.standard ⟨⟨21, false⟩, [], [], [], 1, ⟨0, 0⟩⟩
        ⟨⟨-3, 70, 400⟩⟩).position.z ≤ (((21 : Int) * 16 : Int) : ℚ) - 0.3 := by
  obtain ⟨h1, h2, h3, -⟩ := checkPlayerBounds_bounded Maths.standard
    ⟨⟨21, false⟩, [], [], [], 1, ⟨0, 0⟩⟩ ⟨⟨-3, 70, 400⟩⟩ rfl (by decide) (by decide)
  exact ⟨h3, h1.1, h2.2⟩

/-! ## C14: the player-bounds clamp on an infinite-terrain world -/

/-- C14 as stated fails. On an infinite-terrain world a player at `(-5, 3, 7)` is
moved to `(0.2, 3, 7)`: the two lower clamps of World.cpp 73-80 run before the
test of `isInfiniteTerrain`. -/
theorem checkPlayerBounds_infinite_counterexample :
    World.checkPlayerBounds Maths.standard ⟨⟨21, true⟩, [], [], [], 1, ⟨0, 0⟩⟩ ⟨⟨-5, 3, 7⟩⟩
      = ⟨⟨0.2, 3, 7⟩⟩ ∧
    (⟨⟨0.2, 3, 7⟩⟩ : Player) ≠ ⟨⟨-5, 3, 7⟩⟩ := by
  constructor
  · simp only [World.checkPlayerBounds, if_true]
    norm_num
  · intro h
    have := congrArg (fun p => p.position.x) h
    norm_num at this

/-- C14, amended. On an infinite-terrain world `checkPlayerBounds` raises `x` and
`z` to `0.2` when they are below it and changes nothing else: `y` is as before,
`x` and `z` become `max x 0.2` and `max z 0.2`, there is no upper clamp, and a
position with `x ≥ 0.2` and `z ≥ 0.2` is unchanged. -/
theorem checkPlayerBounds_infinite (M : Maths) (w : World) (player : Player)
    (hinf : w.m_worldSettings.isInfiniteTerrain = true) :
    (World.checkPlayerBounds M w player).position.x = max player.position.x 0.2 ∧
    (World.checkPlayerBounds M w player).position.z = max player.position.z 0.2 ∧
    (World.checkPlayerBounds M w player).position.y = player.position.y ∧
    ((0.2 : ℚ) ≤ player.position.x → (0.2 : ℚ) ≤ player.position.z →
      World.checkPlayerBounds M w player = player) := by
  obtain ⟨⟨x, y, z⟩⟩ := player
  have clamp : ∀ v : ℚ, (if v < 0.2 then (0.2 : ℚ) else v) = max v 0.2 := by
    intro v
    split_ifs with h
    · exact (max_eq_right (le_of_lt h)).symm
    · exact (max_eq_left (not_lt.1 h)).symm
  simp only [World.checkPlayerBounds, hinf, if_true]
  refine ⟨clamp x, clamp z, trivial, ?_⟩
  intro hx hz
  rw [if_neg (not_lt.2 hx), if_neg (not_lt.2 hz)]

/-- Witness for C14 (amended): a player at `(1000000, 3, 7)` on an
infinite-terrain world is left where it is. -/
theorem checkPlayerBounds_infinite_witness :
    World.checkPlayerBounds Maths.standard ⟨⟨21, true⟩, [], [], [], 1, ⟨0, 0⟩⟩
      ⟨⟨1000000, 3, 7⟩⟩ = ⟨⟨1000000, 3, 7⟩⟩ :=
  (checkPlayerBounds_infinite Maths.standard ⟨⟨21, true⟩, [], [], [], 1, ⟨0, 0⟩⟩
    ⟨⟨1000000, 3, 7⟩⟩ rfl).2.2.2 (by norm_num) (by norm_num)

/-! ## The block catalog parser -/

theorem areStringsSame_eq_decide (a b : String) : areStringsSame a b = decide (a = b) := by
  unfold areStringsSame compareStrings
  by_cases h : a = b
  · simp [h]
  · by_cases h1 : a < b
    · simp [h, h1]
    · simp [h, h1]

theorem parseLine_of_skipped {σ : Type} (R : Block.Reader σ) (m_holder : Block.Data_Holder)
    (line : String) (inFile : σ) (h : line ∈ Block.Data.skippedLines) :
    Block.Data.parseLine R m_holder line inFile = .ok (m_holder, inFile) := by
  simp only [Block.Data.skippedLines, List.mem_cons, List.mem_singleton, List.mem_nil_iff,
    or_false] at h
  rcases h with rfl | rfl | rfl <;>
    simp [Block.Data.parseLine, areStringsSame_eq_decide]

theorem parseLine_of_unrecognised {σ : Type} (R : Block.Reader σ)
    (m_holder : Block.Data_Holder) (line : String) (inFile : σ)
    (hk : line ∉ Block.Data.recognisedKeys) (hs : line ∉ Block.Data.skippedLines) :
    Block.Data.parseLine R m_holder line inFile = .error (.unrecognisedToken line) := by
  simp only [Block.Data.recognisedKeys, Block.Data.skippedLines, List.mem_cons,
    List.mem_singleton, List.mem_nil_iff, or_false, not_or] at hk hs
  obtain ⟨k1, k2, k3, k4, k5, k6, k7, k8, k9, k10, k11⟩ := hk
  obtain ⟨s1, s2, s3⟩ := hs
  simp [Block.Data.parseLine, areStringsSame_eq_decide, k1, k2, k3, k4, k5, k6, k7, k8, k9,
    k10, k11, s1, s2, s3]

theorem parseLine_of_recognised {σ : Type} (R : Block.Reader σ) (m_holder : Block.Data_Holder)
    (line : String) (inFile : σ) (hk : line ∈ Block.Data.recognisedKeys) :
    ∃ r, Block.Data.parseLine R m_holder line inFile = .ok r := by
  simp only [Block.Data.recognisedKeys, List.mem_cons, List.mem_singleton, List.mem_nil_iff,
    or_false] at hk
  rcases hk with rfl | rfl | rfl | rfl | rfl | rfl | rfl | rfl | rfl | rfl | rfl <;>
    simp [Block.Data.parseLine, areStringsSame_eq_decide]

theorem isWhitespaceOnly_of_skipped (line : String) (h : line ∈ Block.Data.skippedLines) :
    Block.Data.isWhitespaceOnly line = true := by
  simp only [Block.Data.skippedLines, List.mem_cons, List.mem_singleton, List.mem_nil_iff,
    or_false] at h
  rcases h with rfl | rfl | rfl <;> decide

/-! ## C15: blank key lines -/

/-- C15 as stated fails. The line of two spaces is whitespace-only, yet
`parseLine` throws "Unrecognised block token" on it: only the empty line, the
line of one space and the line of one tab are compared for. -/
theorem parseLine_two_spaces_counterexample :
    Block.Data.isWhitespaceOnly "  " = true ∧
    Block.Data.parseLine Block.Reader.ofValues
        ⟨"", 0, false, false, false, 0, 0, 0, (0, 0), (0, 0), (0, 0)⟩ "  " ["Name", "Grass"]
      = .error (.unrecognisedToken "  ") := by
  constructor
  · decide
  · exact parseLine_of_unrecognised _ _ _ _ (by decide) (by decide)

/-- C15, amended. A key line that is empty, exactly one space or exactly one tab
is skipped by `parseLine`: no error is thrown, the property record and the
stream are as before.  Every other line of spaces and tabs only is not skipped:
`parseLine` throws "Unrecognised block token" on it. -/
theorem parseLine_skips_blank {σ : Type} (R : Block.Reader σ) (m_holder : Block.Data_Holder)
    (line : String) (inFile : σ) :
    (line = "" ∨ line = " " ∨ line = "\t" →
      Block.Data.parseLine R m_holder line inFile = .ok (m_holder, inFile)) ∧
    (Block.Data.isWhitespaceOnly line = true → ¬ (line = "" ∨ line = " " ∨ line = "\t") →
      Block.Data.parseLine R m_holder line inFile = .error (.unrecognisedToken line)) := by
  constructor
  · intro h
    apply parseLine_of_skipped
    rcases h with rfl | rfl | rfl <;> decide
  · intro hw hn
    apply parseLine_of_unrecognised
    · intro hk
      have hf : ∀ k ∈ Block.Data.recognisedKeys, Block.Data.isWhitespaceOnly k = false := by
        decide
      rw [hf line hk] at hw
      cases hw
    · intro hs
      apply hn
      simpa [Block.Data.skippedLines] using hs

/-- Witness for C15 (amended): the line of one tab is skipped, the line of a
space and a tab is fatal. -/
theorem parseLine_skips_blank_witness :
    Block.Data.parseLine Block.Reader.ofValues
        ⟨"Grass", 1, true, true, false, 0, 0, 0, (0, 0), (1, 0), (2, 0)⟩ "\t" ["Name", "Dirt"]
      = .ok (⟨"Grass", 1, true, true, false, 0, 0, 0, (0, 0), (1, 0), (2, 0)⟩,
             ["Name", "Dirt"]) ∧
    Block.Data.parseLine Block.Reader.ofValues
        ⟨"Grass", 1, true, true, false, 0, 0, 0, (0, 0), (1, 0), (2, 0)⟩ " \t" ["Name", "Dirt"]
      = .error (.unrecognisedToken " \t") :=
  ⟨(parseLine_skips_blank Block.Reader.ofValues
      ⟨"Grass", 1, true, true, false, 0, 0, 0, (0, 0), (1, 0), (2, 0)⟩ "\t"
      ["Name", "Dirt"]).1 (Or.inr (Or.inr rfl)),
   (parseLine_skips_blank Block.Reader.ofValues
      ⟨"Grass", 1, true, true, false, 0, 0, 0, (0, 0), (1, 0), (2, 0)⟩ " \t"
      ["Name", "Dirt"]).2 (by decide) (by decide)⟩

/-! ## C16: unknown keys are fatal -/

/-- C16. `parseLine` throws the "Unrecognised block token" error on every line
that is not one of the eleven recognised keys and not one of the three skipped
lines, in particular on every line that has a character other than space and
tab and is not a recognised key; the comparison is that of whole strings, so a
key in another letter case is not recognised.  On a line that is exactly one of
the recognised keys it returns without that error. -/
theorem parseLine_unknown_key_fatal {σ : Type} (R : Block.Reader σ)
    (m_holder : Block.Data_Holder) (line : String) (inFile : σ) :
    (line ∉ Block.Data.recognisedKeys → line ∉ Block.Data.skippedLines →
      Block.Data.parseLine R m_holder line inFile = .error (.unrecognisedToken line)) ∧
    (line ∉ Block.Data.recognisedKeys → Block.Data.isWhitespaceOnly line = false →
      Block.Data.parseLine R m_holder line inFile = .error (.unrecognisedToken line)) ∧
    (line ∈ Block.Data.recognisedKeys →
      ∃ r, Block.Data.parseLine R m_holder line inFile = .ok r) ∧
    Block.Data.recognisedKeys
      = ["Name", "ID", "Opaque", "Obstacle", "Update", "Mesht", "Style", "State",
         "Texture Top", "Texture Side", "Texture Bottom"] := by
  refine ⟨parseLine_of_unrecognised R m_holder line inFile, fun hk hw => ?_,
    parseLine_of_recognised R m_holder line inFile, rfl⟩
  refine parseLine_of_unrecognised R m_holder line inFile hk (fun hs => ?_)
  rw [isWhitespaceOnly_of_skipped line hs] at hw
  cases hw

/-- Witness for C16: `name` in lower case is fatal, `Name` is read. -/
theorem parseLine_unknown_key_fatal_witness :
    Block.Data.parseLine Block.Reader.ofValues
        ⟨"", 0, false, false, false, 0, 0, 0, (0, 0), (0, 0), (0, 0)⟩ "name" ["Grass"]
      = .error (.unrecognisedToken "name") ∧
    ∃ r, Block.Data.parseLine Block.Reader.ofValues
        ⟨"", 0, false, false, false, 0, 0, 0, (0, 0), (0, 0), (0, 0)⟩ "Name" ["Grass"]
      = .ok r :=
  ⟨(parseLine_unknown_key_fatal Block.Reader.ofValues
      ⟨"", 0, false, false, false, 0, 0, 0, (0, 0), (0, 0), (0, 0)⟩ "name" ["Grass"]).1
      (by decide) (by decide),
   (parseLine_unknown_key_fatal Block.Reader.ofValues
      ⟨"", 0, false, false, false, 0, 0, 0, (0, 0), (0, 0), (0, 0)⟩ "Name" ["Grass"]).2.2.1
      (by decide)⟩

/-! ## `setBlock` and its notifications -/

theorem getBlock_world (M : Maths) (w : World) (position : Vector3) :
    (World.getBlock M w position).2 = w := by
  unfold World.getBlock
  simp only []
  split
  · split <;> rfl
  · rfl

theorem toInt_add_offset (c : ℚ) (h : awayFromZero c) (d : Int)
    (hd : d = -1 ∨ d = 0 ∨ d = 1) : toInt (c + (d : ℚ)) = toInt c + d := by
  have hdq : (-1 : ℚ) ≤ (d : ℚ) ∧ (d : ℚ) ≤ 1 := by
    rcases hd with rfl | rfl | rfl <;> norm_num
  rcases h with h | h | h
  · have hc : ¬ (0 : ℚ) ≤ c := by linarith
    by_cases h0 : (0 : ℚ) ≤ c + (d : ℚ)
    · have hsum : c + (d : ℚ) = 0 := by linarith [hdq.2]
      have hc1 : c = ((-1 : Int) : ℚ) := by push_cast; linarith [hdq.2]
      have hd1 : d = 1 := by
        have : (d : ℚ) = 1 := by linarith [hdq.2]
        exact_mod_cast this
      simp only [toInt, hsum, le_refl, if_true, Int.floor_zero, hc, if_false]
      rw [hc1, Int.ceil_intCast, hd1]
      rfl
    · simp only [toInt, h0, hc, if_false]
      exact Int.ceil_add_int c d
  · subst h
    rw [zero_add, toInt_intCast]
    simp [toInt]
  · have hc : (0 : ℚ) ≤ c := by linarith
    have h0 : (0 : ℚ) ≤ c + (d : ℚ) := by linarith [hdq.1]
    simp only [toInt, h0, hc, if_true]
    exact Int.floor_add_int c d

theorem notifyNeighbours_calls (M : Maths) (trigger : Trigger) (position : Vector3)
    (offsets : List (Int × Int × Int)) (w : World) (calls : List TriggerCall) :
    ∃ new, (World.notifyNeighbours M trigger position offsets w calls).2 = calls ++ new ∧
      new.map (fun c => c.location) = offsets.map (triggerLocation position) ∧
      (∀ d rest, offsets = d :: rest → ∃ tail, new =
        (⟨(World.getBlock M w (position.add (offsetVector d))).1, w,
          triggerLocation position d⟩ : TriggerCall) :: tail) := by
  induction offsets generalizing w calls with
  | nil => exact ⟨[], by simp [World.notifyNeighbours], by simp, by simp⟩
  | cons d rest ih =>
    obtain ⟨new, h1, h2, -⟩ := ih
      (trigger (World.getBlock M w (position.add (offsetVector d))).1
        (World.getBlock M w (position.add (offsetVector d))).2
        (triggerLocation position d))
      (calls ++ [(⟨(World.getBlock M w (position.add (offsetVector d))).1,
          (World.getBlock M w (position.add (offsetVector d))).2,
          triggerLocation position d⟩ : TriggerCall)])
    refine ⟨(⟨(World.getBlock M w (position.add (offsetVector d))).1, w,
      triggerLocation position d⟩ : TriggerCall) :: new, ?_, ?_, ?_⟩
    · simp only [World.notifyNeighbours]
      rw [h1, getBlock_world]
      simp
    · simp [h2]
    · intro d1 rest1 h
      cases h
      exact ⟨new, rfl⟩

/-- With an exact `float` sum the coordinate passed for an offset is the integer
coordinate of the component plus the offset. -/
theorem toInt_float_add_offset (c : ℚ) (h : awayFromZero c) (he : offsetsExact c) (d : Int)
    (hd : -1 ≤ d ∧ d ≤ 1) : toInt (toFloat (c + toFloat (d : ℚ))) = toInt c + d := by
  rw [he d hd.1 hd.2]
  exact toInt_add_offset c h d (by omega)

/-- An integer component of magnitude below `2 ^ 24` is 0, at least 1 or at most
-1, and `float` addition adds -1, 0 and 1 to it exactly. -/
theorem offsetsExact_intCast (n : Int) (h : -16777216 < n ∧ n < 16777216) :
    awayFromZero (n : ℚ) ∧ offsetsExact (n : ℚ) := by
  constructor
  · rcases lt_trichotomy n 0 with h0 | h0 | h0
    · left
      have : n ≤ -1 := by omega
      exact_mod_cast this
    · right; left
      exact_mod_cast h0
    · right; right
      have : 1 ≤ n := by omega
      exact_mod_cast this
  · intro d h1 h2
    rw [toFloat_intCast d (by omega)]
    have : ((n : ℚ) + (d : ℚ)) = ((n + d : Int) : ℚ) := by push_cast; rfl
    rw [this, toFloat_intCast _ (by omega)]

theorem mem_neighbourOffsets (d : Int × Int × Int) :
    d ∈ neighbourOffsets ↔
      (-1 ≤ d.1 ∧ d.1 ≤ 1) ∧ (-1 ≤ d.2.1 ∧ d.2.1 ≤ 1) ∧ (-1 ≤ d.2.2 ∧ d.2.2 ≤ 1) := by
  obtain ⟨x, y, z⟩ := d
  simp only [neighbourOffsets, loopRangeInclusive, List.mem_flatMap, List.mem_map,
    mem_loopRange, Prod.mk.injEq]
  constructor
  · rintro ⟨y1, hy, x1, hx, z1, hz, rfl, rfl, rfl⟩
    omega
  · rintro ⟨hx, hy, hz⟩
    exact ⟨y, by omega, x, by omega, z, by omega, rfl, rfl, rfl⟩

theorem nodup_neighbourOffsets : neighbourOffsets.Nodup := by decide

/-! ## C17: the notifications of `setBlock` -/

/-- C17 as stated fails. For the position `(1/2, 5, 5)`, whose integer coordinate
is `(0, 5, 5)`, the conversion `int(position.x + x)` truncates `-1/2` and `1/2`
both to 0: the 27 coordinates passed are not pairwise distinct, and the
coordinate `(-1, 5, 5)` of the cube around `(0, 5, 5)` is not among them. -/
theorem setBlock_truncation_counterexample :
    (⟨toInt (1 / 2), toInt 5, toInt 5⟩ : Block.Position) = ⟨0, 5, 5⟩ ∧
    ¬ ((World.setBlock Maths.standard (fun _ w _ => w)
        ⟨⟨21, false⟩, [], [], [], 1, ⟨0, 0⟩⟩ ⟨1 / 2, 5, 5⟩ ⟨1⟩).2.map
          (fun c => c.location)).Nodup ∧
    (⟨-1, 5, 5⟩ : Block.Position) ∉
      (World.setBlock Maths.standard (fun _ w _ => w)
        ⟨⟨21, false⟩, [], [], [], 1, ⟨0, 0⟩⟩ ⟨1 / 2, 5, 5⟩ ⟨1⟩).2.map (fun c => c.location) := by
  refine ⟨?_, ?_, ?_⟩ <;> decide!

/-- Rounding alone breaks the cube as well.  At the position `(16777216, 5, 5)`,
whose components are integers, the `float` sum `16777216 + 1` is 16777216: the 27
coordinates passed are not pairwise distinct and `(16777217, 5, 5)` is not among
them.  At `(2 - 2^-23, 5, 5)`, the `float` next below 2, the `float` sum with 1
is 3: the coordinate passed for the offset `(1, 0, 0)` is `(3, 5, 5)` while the
edited block is `(1, 5, 5)`. -/
theorem setBlock_float_rounding_example :
    toFloat 16777216 = 16777216 ∧
    ¬ ((World.setBlock Maths.standard (fun _ w _ => w)
        ⟨⟨21, false⟩, [], [], [], 1, ⟨0, 0⟩⟩ ⟨16777216, 5, 5⟩ ⟨1⟩).2.map
          (fun c => c.location)).Nodup ∧
    (⟨16777217, 5, 5⟩ : Block.Position) ∉
      (World.setBlock Maths.standard (fun _ w _ => w)
        ⟨⟨21, false⟩, [], [], [], 1, ⟨0, 0⟩⟩ ⟨16777216, 5, 5⟩ ⟨1⟩).2.map
          (fun c => c.location) ∧
    toFloat (2 - 1 / 8388608) = 2 - 1 / 8388608 ∧
    toInt (2 - 1 / 8388608) = 1 ∧
    triggerLocation ⟨2 - 1 / 8388608, 5, 5⟩ (1, 0, 0) = ⟨3, 5, 5⟩ := by
  refine ⟨?_, ?_, ?_, ?_, ?_, ?_⟩ <;> decide!

/-- C17, amended. `setBlock` first appends the one edit `(block, position)` to
the end of the pending queue (the world handed to the first `trigger` is the
world before with exactly that edit appended) and then makes exactly 27
`trigger` calls, one for each offset `(dx, dy, dz)` of `{-1, 0, 1}³`, each
passing the coordinate `int(position + offset)`, the sum taken componentwise in
`float` and truncated.  When every component of the position is 0, at least 1
or at most -1 and `float` addition adds -1, 0 and 1 to it exactly, these 27
coordinates are pairwise distinct and are exactly the coordinates within
distance 1, on each axis, of the edited block's integer coordinate.  Every
integer component of magnitude below `2 ^ 24` is such a component. -/
theorem setBlock_notifies (M : Maths) (trigger : Trigger) (w : World) (position : Vector3)
    (block : CBlock) :
    ∃ w1 calls, World.setBlock M trigger w position block = (w1, calls) ∧
      (∃ first rest, calls = first :: rest ∧
        first.world = { w with m_newBlocks := w.m_newBlocks ++ [⟨block, position⟩] }) ∧
      calls.length = 27 ∧
      calls.map (fun c => c.location) = neighbourOffsets.map (triggerLocation position) ∧
      neighbourOffsets.Nodup ∧
      (∀ d, d ∈ neighbourOffsets ↔
        (-1 ≤ d.1 ∧ d.1 ≤ 1) ∧ (-1 ≤ d.2.1 ∧ d.2.1 ≤ 1) ∧ (-1 ≤ d.2.2 ∧ d.2.2 ≤ 1)) ∧
      (awayFromZero position.x ∧ offsetsExact position.x →
        awayFromZero position.y ∧ offsetsExact position.y →
        awayFromZero position.z ∧ offsetsExact position.z →
        (calls.map (fun c => c.location)).Nodup ∧
        ∀ q : Block.Position, q ∈ calls.map (fun c => c.location) ↔
          (toInt position.x - 1 ≤ q.x ∧ q.x ≤ toInt position.x + 1) ∧
          (toInt position.y - 1 ≤ q.y ∧ q.y ≤ toInt position.y + 1) ∧
          (toInt position.z - 1 ≤ q.z ∧ q.z ≤ toInt position.z + 1)) ∧
      (∀ n : Int, -16777216 < n ∧ n < 16777216 →
        awayFromZero (n : ℚ) ∧ offsetsExact (n : ℚ)) := by
  obtain ⟨new, h1, h2, h3⟩ := notifyNeighbours_calls M trigger position neighbourOffsets
    { w with m_newBlocks := w.m_newBlocks ++ [{ block := block, position := position }] } []
  rw [List.nil_append] at h1
  have hlen : new.length = 27 := by
    have := congrArg List.length h2
    simpa using this
  have hoff : ∃ d rest, neighbourOffsets = d :: rest := ⟨_, _, rfl⟩
  obtain ⟨d, rest, hd⟩ := hoff
  obtain ⟨tail, htail⟩ := h3 d rest hd
  have h1s : (World.setBlock M trigger w position block).2 = new := by
    unfold World.setBlock
    exact h1
  have hpair : World.setBlock M trigger w position block
      = ((World.setBlock M trigger w position block).1, new) := by
    rw [← h1s]
  refine ⟨(World.setBlock M trigger w position block).1, new, hpair, ⟨_, tail, htail, ?_⟩,
    hlen, h2, nodup_neighbourOffsets, mem_neighbourOffsets, ?_, offsetsExact_intCast⟩
  · simp only []
  intro hx hy hz
  have hloc : ∀ d ∈ neighbourOffsets, triggerLocation position d
      = ⟨toInt position.x + d.1, toInt position.y + d.2.1, toInt position.z + d.2.2⟩ := by
    intro d hd
    have hm := (mem_neighbourOffsets d).1 hd
    unfold triggerLocation
    rw [toInt_float_add_offset _ hx.1 hx.2 d.1 hm.1,
      toInt_float_add_offset _ hy.1 hy.2 d.2.1 hm.2.1,
      toInt_float_add_offset _ hz.1 hz.2 d.2.2 hm.2.2]
  have hmap : neighbourOffsets.map (triggerLocation position)
      = neighbourOffsets.map (fun d => (⟨toInt position.x + d.1, toInt position.y + d.2.1,
          toInt position.z + d.2.2⟩ : Block.Position)) :=
    List.map_congr_left hloc
  rw [h2, hmap]
  constructor
  · refine List.Nodup.map ?_ nodup_neighbourOffsets
    rintro ⟨a1, a2, a3⟩ ⟨b1, b2, b3⟩ h
    simp only [Block.Position.mk.injEq] at h
    obtain ⟨e1, e2, e3⟩ := h
    have f1 : a1 = b1 := by omega
    have f2 : a2 = b2 := by omega
    have f3 : a3 = b3 := by omega
    rw [f1, f2, f3]
  · intro q
    simp only [List.mem_map]
    constructor
    · rintro ⟨d, hd, rfl⟩
      have hm := (mem_neighbourOffsets d).1 hd
      simp only []
      omega
    · rintro ⟨qx, qy, qz⟩
      obtain ⟨x, y, z⟩ := q
      simp only [] at qx qy qz
      have hmem : (x - toInt position.x, y - toInt position.y, z - toInt position.z)
          ∈ neighbourOffsets := by
        rw [mem_neighbourOffsets]
        simp only []
        omega
      refine ⟨_, hmem, ?_⟩
      simp only [Block.Position.mk.injEq]
      omega

/-- Witness for C17 (amended): the position `(11/2, -281/4, 3)`, with fractional
and negative components, each at least 1 or at most -1 and each a `float` to
which -1, 0 and 1 are added exactly; the 27 coordinates are distinct and
`(5, -70, 3)`, the edited block, is among them. -/
theorem setBlock_notifies_witness :
    ∃ w1 calls, World.setBlock Maths.standard (fun _ w _ => w)
        ⟨⟨21, false⟩, [], [], [], 1, ⟨0, 0⟩⟩ ⟨11 / 2, -281 / 4, 3⟩ ⟨1⟩ = (w1, calls) ∧
      calls.length = 27 ∧ (calls.map (fun c => c.location)).Nodup ∧
      (⟨5, -70, 3⟩ : Block.Position) ∈ calls.map (fun c => c.location) := by
  obtain ⟨w1, calls, h1, -, h3, -, -, -, h7, -⟩ := setBlock_notifies Maths.standard
    (fun _ w _ => w) ⟨⟨21, false⟩, [], [], [], 1, ⟨0, 0⟩⟩ ⟨11 / 2, -281 / 4, 3⟩ ⟨1⟩
  have a1 : awayFromZero (11 / 2 : ℚ) := Or.inr (Or.inr (by norm_num))
  have a2 : awayFromZero (-281 / 4 : ℚ) := Or.inl (by norm_num)
  have a3 : awayFromZero (3 : ℚ) := Or.inr (Or.inr (by norm_num))
  have b1 : offsetsExact (11 / 2 : ℚ) := by
    intro d hd1 hd2
    have hd : d = -1 ∨ d = 0 ∨ d = 1 := by omega
    rcases hd with rfl | rfl | rfl <;> decide!
  have b2 : offsetsExact (-281 / 4 : ℚ) := by
    intro d hd1 hd2
    have hd : d = -1 ∨ d = 0 ∨ d = 1 := by omega
    rcases hd with rfl | rfl | rfl <;> decide!
  have b3 : offsetsExact (3 : ℚ) := by
    intro d hd1 hd2
    have hd : d = -1 ∨ d = 0 ∨ d = 1 := by omega
    rcases hd with rfl | rfl | rfl <;> decide!
  obtain ⟨h8, h9⟩ := h7 ⟨a1, b1⟩ ⟨a2, b2⟩ ⟨a3, b3⟩
  refine ⟨w1, calls, h1, h3, h8, (h9 _).2 ?_⟩
  have e1 : toInt (11 / 2 : ℚ) = 5 := by decide!
  have e2 : toInt (-281 / 4 : ℚ) = -70 := by decide!
  have e3 : toInt (3 : ℚ) = 3 := by decide!
  simp only [e1, e2, e3]
  decide

/-! ## What a batch leaves in the store, whenever it returns -/

theorem Chunk.Full_Chunk.addSectionsUntil_ok (fuel : Nat) (c c1 : Chunk.Full_Chunk) (y : Int)
    (h : c.addSectionsUntil fuel y = .ok c1) :
    ∃ k, c1 = c.grown k ∧ (c1.getSection y).isSome = true := by
  induction fuel generalizing c with
  | zero => simp [Chunk.Full_Chunk.addSectionsUntil] at h
  | succ n ih =>
    unfold Chunk.Full_Chunk.addSectionsUntil at h
    cases hg : c.addSection.getSection y with
    | some s =>
      simp only [hg] at h
      cases h
      refine ⟨1, ?_, by rw [hg]; rfl⟩
      rw [← Chunk.Full_Chunk.addSection_grown, Chunk.Full_Chunk.grown_zero]
    | none =>
      simp only [hg] at h
      obtain ⟨k, hk, hs⟩ := ih c.addSection h
      exact ⟨k + 1, by rw [hk, Chunk.Full_Chunk.addSection_grown], hs⟩

theorem Chunk.Full_Chunk.blocksAt_grown (c : Chunk.Full_Chunk) (k : Nat) (y : Int) :
    (c.grown k).blocksAt y = c.blocksAt y := by
  unfold Chunk.Full_Chunk.blocksAt Chunk.Full_Chunk.getSection Chunk.Full_Chunk.grown
  by_cases hy : 0 ≤ y
  · simp only [hy, if_true, List.get?_eq_getElem?]
    by_cases hlt : y.toNat < c.sections.length
    · rw [List.getElem?_append_left hlt]
    · have h1 : c.sections[y.toNat]? = none := List.getElem?_eq_none (by omega)
      rw [h1, List.getElem?_append_right (by omega)]
      cases hg : (List.replicate k ({ blocks := [] } : Chunk.Section))[y.toNat
          - c.sections.length]? with
      | none => rfl
      | some s =>
        have hmem := List.getElem?_mem hg
        rw [List.eq_of_mem_replicate hmem]
  · simp [hy]

theorem Chunk.Full_Chunk.blocksAt_setSectionBlock (c : Chunk.Full_Chunk) (y0 y : Int)
    (p : Block.Small_Position) (b : CBlock) (h : (c.getSection y0).isSome = true) :
    (c.setSectionBlock y0 p b).blocksAt y
      = (if y = y0 then [(p, b)] else []) ++ c.blocksAt y := by
  obtain ⟨hy0, hlt⟩ := (Chunk.Full_Chunk.getSection_isSome_iff c y0).1 h
  unfold Chunk.Full_Chunk.blocksAt Chunk.Full_Chunk.getSection Chunk.Full_Chunk.setSectionBlock
  simp only [hy0, if_true, List.get?_eq_getElem?]
  by_cases hy : 0 ≤ y
  · simp only [hy, if_true, List.getElem?_modify]
    by_cases he : y = y0
    · subst he
      simp only [if_true]
      obtain ⟨s, hs⟩ : ∃ s, c.sections[y.toNat]? = some s :=
        ⟨c.sections[y.toNat], List.getElem?_eq_getElem hlt⟩
      rw [hs]
      rfl
    · have hne : ¬ y0.toNat = y.toNat := by omega
      simp [hne, he]
  · have he : ¬ y = y0 := by omega
    simp [hy, he]

theorem Chunk.Map.blocksAt_put (m : Chunk.Map) (p : Chunk.Position) (c1 : Chunk.Full_Chunk)
    (hpos : c1.position = p) (hp : p ∈ m.keys) (r : Chunk.Chunklet_Position) :
    (m.put p c1).blocksAt r
      = if (⟨r.x, r.z⟩ : Chunk.Position) = p then c1.blocksAt r.y else m.blocksAt r := by
  unfold Chunk.Map.blocksAt
  by_cases h : (⟨r.x, r.z⟩ : Chunk.Position) = p
  · rw [if_pos h, h, Chunk.Map.get_put_self m p c1 hpos hp]
  · rw [if_neg h, Chunk.Map.get_put_other m p _ c1 hpos h]

theorem insertChunk_ok (fuel : Nat) (st st1 : RegenState) (q : Chunk.Chunklet_Position)
    (chunk : Option Chunk.Section) (h : World.insertChunk fuel st q chunk = .ok st1) :
    st1.chunks.keys = st.chunks.keys ∧ ∀ r, st1.chunks.blocksAt r = st.chunks.blocksAt r := by
  unfold World.insertChunk at h
  cases hg : st.chunks.get ⟨q.x, q.z⟩ with
  | none =>
    simp only [hg] at h
    cases h
    exact ⟨rfl, fun _ => rfl⟩
  | some c =>
    simp only [hg] at h
    cases chunk with
    | some s =>
      simp only [] at h
      cases h
      exact ⟨rfl, fun _ => rfl⟩
    | none =>
      simp only [] at h
      cases ha : c.addSectionsUntil fuel q.y with
      | error e => rw [ha] at h; cases h
      | ok c1 =>
        rw [ha] at h
        cases h
        obtain ⟨k, hk, -⟩ := Chunk.Full_Chunk.addSectionsUntil_ok fuel c c1 q.y ha
        have hcp := Chunk.Map.get_position hg
        have hpos : c1.position = ⟨q.x, q.z⟩ := by rw [hk]; exact hcp
        have hmem : (⟨q.x, q.z⟩ : Chunk.Position) ∈ st.chunks.keys := by
          by_contra hn
          rw [(Chunk.Map.get_eq_none_iff _ _).2 hn] at hg
          cases hg
        refine ⟨Chunk.Map.keys_put _ _ _ hpos, fun r => ?_⟩
        show (st.chunks.put ⟨q.x, q.z⟩ c1).blocksAt r = _
        rw [Chunk.Map.blocksAt_put _ _ _ hpos hmem]
        split
        · rename_i he
          rw [hk, Chunk.Full_Chunk.blocksAt_grown]
          unfold Chunk.Map.blocksAt
          rw [he, hg]
        · rfl

theorem checkForBatchAdd_ok (M : Maths) (fuel : Nat) (st st1 : RegenState) (coordinate : Int)
    (s : Chunk.Chunklet_Position) (direction : Vector3)
    (h : World.checkForBatchAdd M fuel st coordinate s direction = .ok st1) :
    st1.chunks.keys = st.chunks.keys ∧ ∀ r, st1.chunks.blocksAt r = st.chunks.blocksAt r := by
  unfold World.checkForBatchAdd at h
  split at h
  · exact insertChunk_ok _ _ _ _ _ h
  · split at h
    · exact insertChunk_ok _ _ _ _ _ h
    · cases h
      exact ⟨rfl, fun _ => rfl⟩

/-- One pending edit, whenever its turn of the loop returns: the loaded columns
are the same, and the edit's block has been written once, on top of the write
log of its own section; no other section's log has changed. -/
theorem applyNewBlock_ok (M : Maths) (fuel : Nat) (st st1 : RegenState) (e : New_Block)
    (h : World.applyNewBlock M fuel st e = .ok st1) :
    st1.chunks.keys = st.chunks.keys ∧
      ∀ r, st1.chunks.blocksAt r
        = (if r = M.worldToChunkletPos e.position then
            [(M.blockToSmallBlockPos (M.worldToBlockPos e.position), e.block)] else [])
          ++ st.chunks.blocksAt r := by
  obtain ⟨s, hs⟩ : ∃ s, s = M.worldToChunkletPos e.position := ⟨_, rfl⟩
  obtain ⟨b, hb⟩ : ∃ b, b = M.blockToSmallBlockPos (M.worldToBlockPos e.position) := ⟨_, rfl⟩
  unfold World.applyNewBlock at h
  simp only [← hs, ← hb] at h ⊢
  cases hg : st.chunks.get ⟨s.x, s.z⟩ with
  | none => rw [hg] at h; cases h
  | some c =>
    rw [hg] at h
    simp only [] at h
    cases ha : c.addSectionsUntil fuel s.y with
    | error err => rw [ha] at h; cases h
    | ok c1 =>
      rw [ha] at h
      simp only [] at h
      obtain ⟨k, hk, hsome⟩ := Chunk.Full_Chunk.addSectionsUntil_ok fuel c c1 _ ha
      have hcp := Chunk.Map.get_position hg
      have hmem : (⟨s.x, s.z⟩ : Chunk.Position) ∈ st.chunks.keys := by
        by_contra hn
        rw [(Chunk.Map.get_eq_none_iff _ _).2 hn] at hg
        cases hg
      obtain ⟨c2, hc2⟩ : ∃ c2, c2 = c1.setSectionBlock s.y b e.block := ⟨_, rfl⟩
      have hpos : c2.position = ⟨s.x, s.z⟩ := by
        rw [hc2, Chunk.Full_Chunk.setSectionBlock_position, hk]; exact hcp
      have hbase : ∀ r, (st.chunks.put ⟨s.x, s.z⟩ c2).blocksAt r
          = (if r = s then [(b, e.block)] else []) ++ st.chunks.blocksAt r := by
        intro r
        rw [Chunk.Map.blocksAt_put _ _ _ hpos hmem]
        by_cases hcol : (⟨r.x, r.z⟩ : Chunk.Position) = ⟨s.x, s.z⟩
        · rw [if_pos hcol, hc2, Chunk.Full_Chunk.blocksAt_setSectionBlock _ _ _ _ _ hsome, hk,
            Chunk.Full_Chunk.blocksAt_grown]
          have hbl : st.chunks.blocksAt r = c.blocksAt r.y := by
            unfold Chunk.Map.blocksAt
            rw [hcol, hg]
          rw [hbl]
          have hiff : (r.y = s.y) ↔ r = s := by
            simp only [Chunk.Position.mk.injEq] at hcol
            constructor
            · intro hy
              cases r
              cases s
              simp_all
            · intro hr
              rw [hr]
          by_cases hy : r.y = s.y
          · rw [if_pos hy, if_pos (hiff.1 hy)]
          · rw [if_neg hy, if_neg (fun hr => hy (hiff.2 hr))]
        · rw [if_neg hcol]
          have hne : ¬ r = s := by
            intro hr
            apply hcol
            rw [hr]
          rw [if_neg hne, List.nil_append]
      obtain ⟨stA, hstA⟩ : ∃ stA : RegenState,
          stA = { st with chunks := st.chunks.put ⟨s.x, s.z⟩ c2 } := ⟨_, rfl⟩
      have hkA : stA.chunks.keys = st.chunks.keys := by
        rw [hstA]; exact Chunk.Map.keys_put _ _ _ hpos
      have hbA : ∀ r, stA.chunks.blocksAt r
          = (if r = s then [(b, e.block)] else []) ++ st.chunks.blocksAt r := by
        rw [hstA]; exact hbase
      rw [← hc2, ← hstA] at h
      cases h1 : World.insertChunk fuel stA s (c2.getSection s.y) with
      | error err => rw [h1] at h; cases h
      | ok st2 =>
        rw [h1] at h
        simp only [] at h
        obtain ⟨k2, b2⟩ := insertChunk_ok _ _ _ _ _ h1
        cases h2 : World.checkForBatchAdd M fuel st2 b.x s ⟨1, 0, 0⟩ with
        | error err => rw [h2] at h; cases h
        | ok st3 =>
          rw [h2] at h
          simp only [] at h
          obtain ⟨k3, b3⟩ := checkForBatchAdd_ok _ _ _ _ _ _ _ h2
          cases h3 : World.checkForBatchAdd M fuel st3 b.y s ⟨0, 1, 0⟩ with
          | error err => rw [h3] at h; cases h
          | ok st4 =>
            rw [h3] at h
            simp only [] at h
            obtain ⟨k4, b4⟩ := checkForBatchAdd_ok _ _ _ _ _ _ _ h3
            obtain ⟨k5, b5⟩ := checkForBatchAdd_ok _ _ _ _ _ _ _ h
            refine ⟨?_, fun r => ?_⟩
            · rw [k5, k4, k3, k2, hkA]
            · rw [b5, b4, b3, b2]
              exact hbA r

theorem writesTo_cons (M : Maths) (q : Chunk.Chunklet_Position) (e : New_Block)
    (es : List New_Block) :
    writesTo M q (e :: es)
      = writesTo M q es ++
        (if q = M.worldToChunkletPos e.position then
          [(M.blockToSmallBlockPos (M.worldToBlockPos e.position), e.block)] else []) := by
  unfold writesTo
  by_cases h : q = M.worldToChunkletPos e.position
  · have h1 : M.worldToChunkletPos e.position = q := h.symm
    simp [List.filter_cons, h1]
  · have h1 : ¬ M.worldToChunkletPos e.position = q := fun h2 => h h2.symm
    simp [List.filter_cons, h1, h]

theorem applyNewBlocks_ok (M : Maths) (fuel : Nat) (es : List New_Block)
    (st st1 : RegenState) (h : World.applyNewBlocks M fuel st es = .ok st1) :
    st1.chunks.keys = st.chunks.keys ∧
      ∀ r, st1.chunks.blocksAt r = writesTo M r es ++ st.chunks.blocksAt r := by
  induction es generalizing st with
  | nil =>
    simp only [World.applyNewBlocks] at h
    cases h
    exact ⟨rfl, fun r => by simp [writesTo]⟩
  | cons e es ih =>
    simp only [World.applyNewBlocks] at h
    cases h1 : World.applyNewBlock M fuel st e with
    | error err => rw [h1] at h; cases h
    | ok st2 =>
      rw [h1] at h
      obtain ⟨k1, b1⟩ := applyNewBlock_ok M fuel st st2 e h1
      obtain ⟨k2, b2⟩ := ih st2 h
      refine ⟨by rw [k2, k1], fun r => ?_⟩
      rw [b2, b1, writesTo_cons, List.append_assoc]

/-- Whenever `regenerateChunks` returns: the loaded columns are the same, the
pending queue is empty, the deletion queue is as before, and the write log of
every section is the writes of the queue to that section, the latest first, on
top of what it was. -/
theorem regenerateChunks_ok (M : Maths) (fuel : Nat) (w : World)
    (r : World × List Chunk.Chunklet_Position × List MeshCall)
    (h : World.regenerateChunks M fuel w = .ok r) :
    r.1.m_chunks.keys = w.m_chunks.keys ∧
      r.1.m_newBlocks = [] ∧ r.1.m_deleteChunks = w.m_deleteChunks ∧
      ∀ q, r.1.m_chunks.blocksAt q = writesTo M q w.m_newBlocks ++ w.m_chunks.blocksAt q := by
  unfold World.regenerateChunks at h
  cases h1 : World.applyNewBlocks M fuel { chunks := w.m_chunks, chunksToUpdate := [] }
      w.m_newBlocks with
  | error err => rw [h1] at h; cases h
  | ok st =>
    rw [h1] at h
    cases h
    obtain ⟨k, b⟩ := applyNewBlocks_ok M fuel _ _ _ h1
    exact ⟨k, rfl, rfl, b⟩

theorem mem_of_mem_deleteChunk (m : Chunk.Map) (p : Chunk.Position) :
    ∀ c, c ∈ m.deleteChunk p → c ∈ m := by
  intro c hc
  exact (List.mem_filter.1 hc).1

theorem mem_of_mem_deleteChunks (locations : List Chunk.Position) (m : Chunk.Map)
    (c : Chunk.Full_Chunk) (h : c ∈ World.deleteChunks m locations) : c ∈ m := by
  induction locations generalizing m with
  | nil => exact h
  | cons p ps ih =>
    exact mem_of_mem_deleteChunk m p c (ih (m.deleteChunk p) h)

theorem keys_map_tick (tick : Ticker) (htick : ∀ c, (tick c).position = c.position)
    (m : Chunk.Map) : Chunk.Map.keys (m.map tick) = m.keys := by
  simp [Chunk.Map.keys, Function.comp_def, htick]

/-! ## C11: an update tick with empty queues -/

/-- C11. With an empty pending-edit queue `updateChunks` returns without calling
`regenerateChunks`: no `makeMesh` or `bufferMesh` call is made, and the store it
leaves is the store it found with every column ticked and the queued columns
removed, so every column left is the tick of a column that was there (no
section is created and no block written other than by `tick` itself).  With an
empty deletion queue, whenever `updateChunks` returns the loaded column
coordinates are as before, for a `tick` that keeps a column's position.  With
both queues empty it returns the world with every column ticked and nothing
else changed. -/
theorem updateChunks_empty_queues (M : Maths) (tick : Ticker) (fuel : Nat) (w : World) :
    (w.m_newBlocks = [] →
      World.updateChunks M tick fuel w
        = .ok ({ w with m_chunks := World.deleteChunks (w.m_chunks.map tick) w.m_deleteChunks
                        m_deleteChunks := [] }, []) ∧
      ∀ c1 ∈ World.deleteChunks (w.m_chunks.map tick) w.m_deleteChunks,
        ∃ c ∈ w.m_chunks, c1 = tick c) ∧
    (w.m_deleteChunks = [] → (∀ c, (tick c).position = c.position) →
      ∀ r, World.updateChunks M tick fuel w = .ok r → r.1.m_chunks.keys = w.m_chunks.keys) ∧
    (w.m_newBlocks = [] → w.m_deleteChunks = [] →
      World.updateChunks M tick fuel w = .ok ({ w with m_chunks := w.m_chunks.map tick }, []) ∧
      ((∀ c, (tick c).position = c.position) →
        Chunk.Map.keys (w.m_chunks.map tick) = w.m_chunks.keys)) := by
  have hfirst : w.m_newBlocks = [] →
      World.updateChunks M tick fuel w
        = .ok ({ w with m_chunks := World.deleteChunks (w.m_chunks.map tick) w.m_deleteChunks
                        m_deleteChunks := [] }, []) := by
    intro hq
    unfold World.updateChunks
    cases hd : w.m_deleteChunks with
    | nil =>
      simp only [hq, hd, List.isEmpty_nil, Bool.not_true, Bool.false_eq_true, if_false,
        World.deleteChunks, List.foldl_nil]
    | cons p ps =>
      simp only [hq, hd, List.isEmpty_nil, List.isEmpty_cons, Bool.not_true, Bool.not_false,
        Bool.false_eq_true, if_false, if_true]
  refine ⟨fun hq => ⟨hfirst hq, fun c1 hc1 => ?_⟩, ?_, ?_⟩
  · have := mem_of_mem_deleteChunks _ _ _ hc1
    obtain ⟨c, hc, rfl⟩ := List.mem_map.1 this
    exact ⟨c, hc, rfl⟩
  · intro hd htick r hr
    unfold World.updateChunks at hr
    cases hq : w.m_newBlocks with
    | nil =>
      simp only [hq, hd, List.isEmpty_nil, Bool.not_true, Bool.false_eq_true, if_false] at hr
      cases hr
      exact keys_map_tick tick htick _
    | cons e es =>
      simp only [hq, List.isEmpty_cons, Bool.not_false, if_true] at hr
      cases hreg : World.regenerateChunks M fuel w with
      | error err => rw [hreg] at hr; cases hr
      | ok r1 =>
        rw [hreg] at hr
        obtain ⟨k, -, hdel, -⟩ := regenerateChunks_ok M fuel w r1 hreg
        simp only [hdel, hd, List.isEmpty_nil, Bool.not_true, Bool.false_eq_true,
          if_false] at hr
        cases hr
        show Chunk.Map.keys (r1.1.m_chunks.map tick) = _
        rw [keys_map_tick tick htick, k]
  · intro hq hd
    refine ⟨?_, fun htick => keys_map_tick tick htick _⟩
    rw [hfirst hq]
    simp [hd, World.deleteChunks]

/-- Witness for C11: a world with one column and both queues empty, a `tick`
that does nothing. -/
theorem updateChunks_empty_queues_witness :
    World.updateChunks Maths.standard (fun c => c) 8
        ⟨⟨21, false⟩, [⟨⟨0, 0⟩, [⟨[]⟩], false, true⟩], [], [], 1, ⟨0, 0⟩⟩
      = .ok (⟨⟨21, false⟩, [⟨⟨0, 0⟩, [⟨[]⟩], false, true⟩], [], [], 1, ⟨0, 0⟩⟩, []) := by
  have h := (updateChunks_empty_queues Maths.standard (fun c => c) 8
    ⟨⟨21, false⟩, [⟨⟨0, 0⟩, [⟨[]⟩], false, true⟩], [], [], 1, ⟨0, 0⟩⟩).2.2 rfl rfl
  rw [h.1]
  rfl

/-! ## C12: the queue is consumed in order -/

/-- With enough fuel, every own column loaded, every own section coordinate of
magnitude below `2 ^ 24` and no touched section of a loaded column at a negative
index, the batch returns with the queue empty, the write
log of every section is the writes of the queue to it in queue order, the
latest first, on top of what it was, and the block read at the target of an edit
that no later edit of the queue overwrites is the block of that edit. -/
theorem regenerateChunks_fifo (M : Maths) (hCS : 1 < M.CHUNK_SIZE) (fuel : Nat) (w : World)
    (hfl : ∀ e ∈ w.m_newBlocks, (M.worldToChunkletPos e.position).inFloatRange)
    (hown : ∀ e ∈ w.m_newBlocks,
      w.m_chunks.columnLoaded (M.worldToChunkletPos e.position) = true)
    (hy : ∀ e ∈ w.m_newBlocks, ∀ q ∈ touchedSections M e,
      w.m_chunks.columnLoaded q = true → 0 ≤ q.y)
    (hfuel : ∀ e ∈ w.m_newBlocks, ∀ q ∈ touchedSections M e, q.y + 1 ≤ fuel) :
    ∃ w1 remesh calls, World.regenerateChunks M fuel w = .ok (w1, remesh, calls) ∧
      w1.m_newBlocks = [] ∧
      (∀ q, w1.m_chunks.blocksAt q = writesTo M q w.m_newBlocks ++ w.m_chunks.blocksAt q) ∧
      (∀ earlier e later, w.m_newBlocks = earlier ++ e :: later →
        (∀ e1 ∈ later, ¬ (M.worldToChunkletPos e1.position = M.worldToChunkletPos e.position ∧
          M.blockToSmallBlockPos (M.worldToBlockPos e1.position)
            = M.blockToSmallBlockPos (M.worldToBlockPos e.position))) →
        w1.m_chunks.blockAt (M.worldToChunkletPos e.position)
          (M.blockToSmallBlockPos (M.worldToBlockPos e.position)) = e.block) := by
  obtain ⟨w1, remesh, h1, -, -, -, -, -⟩ :=
    regenerateChunks_spec M hCS fuel w hfl hown hy hfuel
  obtain ⟨-, hq, -, hb⟩ := regenerateChunks_ok M fuel w _ h1
  refine ⟨w1, remesh, _, h1, hq, hb, ?_⟩
  intro earlier e later hsplit hlater
  unfold Chunk.Map.blockAt
  rw [hb, hsplit]
  have hw : writesTo M (M.worldToChunkletPos e.position) (earlier ++ e :: later)
      = writesTo M (M.worldToChunkletPos e.position) later ++
        ((M.blockToSmallBlockPos (M.worldToBlockPos e.position), e.block) ::
          writesTo M (M.worldToChunkletPos e.position) earlier) := by
    simp [writesTo, List.filter_append, List.filter_cons]
  rw [hw, List.append_assoc, List.find?_append]
  have hnone : (writesTo M (M.worldToChunkletPos e.position) later).find?
      (fun x => decide (x.1 = M.blockToSmallBlockPos (M.worldToBlockPos e.position)))
      = none := by
    rw [List.find?_eq_none]
    intro x hx
    simp only [writesTo, List.mem_reverse, List.mem_map, List.mem_filter,
      decide_eq_true_eq] at hx
    obtain ⟨e1, ⟨he1, hs1⟩, rfl⟩ := hx
    simp only [decide_eq_true_eq]
    exact fun hb1 => hlater e1 he1 ⟨hs1, hb1⟩
  rw [hnone]
  simp

/-- An edit in section 0 at within-section `y = 0`, away from the `x` boundaries
and with its column loaded: whatever the fuel, its turn of the loop does not
return.  Boundary propagation asks `insertChunk` for the section of index -1,
and the section-adding loop never finds it. -/
theorem applyNewBlock_floor_diverges (M : Maths) (fuel : Nat) (st : RegenState) (e : New_Block)
    (hfl : (M.worldToChunkletPos e.position).inFloatRange)
    (hown : st.chunks.columnLoaded (M.worldToChunkletPos e.position) = true)
    (hs : (M.worldToChunkletPos e.position).y = 0)
    (hx0 : (M.blockToSmallBlockPos (M.worldToBlockPos e.position)).x ≠ 0)
    (hx1 : (M.blockToSmallBlockPos (M.worldToBlockPos e.position)).x ≠ M.CHUNK_SIZE - 1)
    (hb : (M.blockToSmallBlockPos (M.worldToBlockPos e.position)).y = 0) :
    World.applyNewBlock M fuel st e = .error .fuelExhausted := by
  obtain ⟨s, hsdef⟩ : ∃ s, s = M.worldToChunkletPos e.position := ⟨_, rfl⟩
  obtain ⟨b, hbdef⟩ : ∃ b, b = M.blockToSmallBlockPos (M.worldToBlockPos e.position) :=
    ⟨_, rfl⟩
  rw [← hsdef] at hown hs hfl
  rw [← hbdef] at hx0 hx1 hb
  have hmem : (⟨s.x, s.z⟩ : Chunk.Position) ∈ st.chunks.keys :=
    (Chunk.Map.columnLoaded_iff _ s).1 hown
  obtain ⟨c, hc⟩ := Chunk.Map.get_isSome_of_mem_keys hmem
  have hcp := Chunk.Map.get_position hc
  unfold World.applyNewBlock
  simp only [← hsdef, ← hbdef, hc]
  cases fuel with
  | zero => simp [Chunk.Full_Chunk.addSectionsUntil]
  | succ n =>
    have hgrow := Chunk.Full_Chunk.addSectionsUntil_eq (n + 1) c s.y (by omega)
      (by rw [hs]; simp)
    rw [hgrow]
    simp only []
    obtain ⟨c2, hc2⟩ : ∃ c2, c2 = (c.grown (max 1 (s.y.toNat + 1
        - c.sections.length))).setSectionBlock s.y b e.block := ⟨_, rfl⟩
    have hc2p : c2.position = ⟨s.x, s.z⟩ := by
      rw [hc2, Chunk.Full_Chunk.setSectionBlock_position, Chunk.Full_Chunk.grown_position, hcp]
    obtain ⟨stA, hstA⟩ : ∃ stA : RegenState,
        stA = { st with chunks := st.chunks.put ⟨s.x, s.z⟩ c2 } := ⟨_, rfl⟩
    have hkA : stA.chunks.keys = st.chunks.keys := by
      rw [hstA]; exact Chunk.Map.keys_put _ _ _ hc2p
    have hsec : c2.getSection s.y = stA.chunks.getSection s := by
      rw [hstA]
      simp [Chunk.Map.getSection, Chunk.Map.get_put_self _ _ _ hc2p hmem]
    rw [← hc2, ← hstA, hsec]
    obtain ⟨st2, i1, i2, -, -⟩ := insertChunk_spec (n + 1) stA s (fun _ => by omega)
      (by rw [hs]; omega)
    rw [i1]
    simp only []
    have hx : World.checkForBatchAdd M (n + 1) st2 b.x s ⟨1, 0, 0⟩ = .ok st2 := by
      unfold World.checkForBatchAdd
      rw [if_neg hx0, if_neg hx1]
    rw [hx]
    simp only []
    have hmem2 : (⟨s.x, s.z⟩ : Chunk.Position) ∈ st2.chunks.keys := by
      rw [i2.1, hkA]; exact hmem
    obtain ⟨c3, hc3⟩ := Chunk.Map.get_isSome_of_mem_keys hmem2
    have hyq : World.checkForBatchAdd M (n + 1) st2 b.y s ⟨0, 1, 0⟩
        = .error .fuelExhausted := by
      unfold World.checkForBatchAdd
      rw [if_pos hb]
      have e1 : toInt (toFloat (toFloat (s.x : ℚ) - 0)) = s.x := by
        have h := toInt_float_sub s.x 0 hfl.1 (by decide)
        simpa using h
      have e2 : toInt (toFloat (toFloat (s.y : ℚ) - 1)) = -1 := by
        have h := toInt_float_sub s.y 1 hfl.2.1 (by decide)
        simp only [Int.cast_one] at h
        rw [h, hs]
        rfl
      have e3 : toInt (toFloat (toFloat (s.z : ℚ) - 0)) = s.z := by
        have h := toInt_float_sub s.z 0 hfl.2.2 (by decide)
        simpa using h
      simp only [e1, e2, e3]
      have hnone : st2.chunks.getSection ⟨s.x, -1, s.z⟩ = none := by
        simp [Chunk.Map.getSection, hc3, Chunk.Full_Chunk.getSection]
      rw [hnone]
      unfold World.insertChunk
      simp only [hc3]
      rw [Chunk.Full_Chunk.addSectionsUntil_negative _ _ _ (by decide)]
    rw [hyq]

/-- C12 (the code at the failing input). Column (0,0) is loaded with one section;
the queue holds the single edit at world position (5,0,5), in the loaded column,
at within-section coordinate (5,0,5) of section (0,0,0).  The claim wants the
queue emptied and the edit written; whatever the fuel, `regenerateChunks` does
not return: the within-section `y` is 0, so boundary propagation asks for
section (0,-1,0), and the loop `while (!chunk)` of `insertChunk` adds sections
forever without ever getting one of index -1. -/
theorem regenerateChunks_floor_edit_never_returns (fuel : Nat) :
    Maths.standard.worldToChunkletPos ⟨5, 0, 5⟩ = ⟨0, 0, 0⟩ ∧
    Maths.standard.blockToSmallBlockPos (Maths.standard.worldToBlockPos ⟨5, 0, 5⟩)
      = ⟨5, 0, 5⟩ ∧
    Chunk.Map.existsAt [⟨⟨0, 0⟩, [⟨[]⟩], false, true⟩] ⟨0, 0⟩ = true ∧
    World.regenerateChunks Maths.standard fuel
      ⟨⟨21, false⟩, [⟨⟨0, 0⟩, [⟨[]⟩], false, true⟩], [⟨⟨1⟩, ⟨5, 0, 5⟩⟩], [], 1, ⟨0, 0⟩⟩
      = .error .fuelExhausted := by
  have hs : Maths.standard.worldToChunkletPos ⟨5, 0, 5⟩ = ⟨0, 0, 0⟩ := by decide!
  have hb : Maths.standard.blockToSmallBlockPos (Maths.standard.worldToBlockPos ⟨5, 0, 5⟩)
      = ⟨5, 0, 5⟩ := by decide!
  refine ⟨hs, hb, by decide, ?_⟩
  have h := applyNewBlock_floor_diverges Maths.standard fuel
    { chunks := [⟨⟨0, 0⟩, [⟨[]⟩], false, true⟩], chunksToUpdate := [] } ⟨⟨1⟩, ⟨5, 0, 5⟩⟩
    (by simp only [hs]; decide) (by simp only [hs]; decide) (by simp only [hs]) (by simp only [hb]; decide)
    (by simp only [hb]; decide) (by simp only [hb])
  simp only [World.regenerateChunks, World.applyNewBlocks, h]

end HopsonCraft
